import Mathlib

/-!
Verification of the core of the `fifteen_puzzle` repository: the 4x4
sliding-tile solver built on additive disjoint pattern databases and
iterative-deepening A* search.  The definitions below are shallow
embeddings of the C sources (`dim4.h`, `standalone_dim4_solver.c`,
`generate_dim4_heuristics.c`, `dim4_solver.c`); machine integers are
modelled as `Int` (no overflow occurs on the values involved), arrays as
lists or total functions, and the recursive searches are given explicit
fuel so that every definition is executable.
-/

namespace Fifteen

/-! ## Board codec (`dim4.h`) -/

/-- The static move table `valid_moves` from `dim4.h`: for each empty-cell
index, the four board indices (clockwise: down, left, up, right) of the tile
that can slide, `-1` marking an impossible direction. -/
def valid_moves : List (List Int) :=
  [[-1,1,4,-1],  [-1,2,5,0],   [-1,3,6,1],    [-1,-1,7,2],
   [0,5,8,-1],   [1,6,9,4],    [2,7,10,5],    [3,-1,11,6],
   [4,9,12,-1],  [5,10,13,8],  [6,11,14,9],   [7,-1,15,10],
   [8,13,-1,-1], [9,14,-1,12], [10,15,-1,13], [11,-1,-1,14]]

/-- Lookup `valid_moves[e][d]`. -/
def validMove (e : Nat) (d : Nat) : Int :=
  (valid_moves.getD e []).getD d (-1)

/-- The multiset of values held by a legal 4x4 board. -/
def boardValues : List Int :=
  [0,1,2,3,4,5,6,7,8,9,10,11,12,13,14,15]

/-- A board array is valid when it holds each of `0..15` exactly once
(16 cells, read left-to-right, top-to-bottom). -/
def ValidBoard (b : List Int) : Prop := b.Perm boardValues

instance (b : List Int) : Decidable (ValidBoard b) :=
  List.decidablePerm b boardValues

/-- The solved board `1,2,...,15,0`. -/
def solvedBoard : List Int := [1,2,3,4,5,6,7,8,9,10,11,12,13,14,15,0]

/-! ## Pattern specification (`dim4.h`) -/

/-- The `tile_pattern` record of `dim4.h`; the C struct stores the tiles in
fixed 16-slot arrays of which the first `num_tiles` entries are used, so here
the lists hold exactly those entries. -/
structure tile_pattern where
  tiles : List Int
  reflected_tiles : List Int
  num_tiles : Nat
  array_offset : Int
deriving DecidableEq

/-- Pattern 0: tiles {1,5,6,9,10,13}, offset 0. -/
def pattern0 : tile_pattern := ⟨[1,5,6,9,10,13], [1,2,6,3,7,4], 6, 0⟩

/-- Pattern 1: tiles {7,8,11,12,14,15}, offset 16^6. -/
def pattern1 : tile_pattern := ⟨[7,8,11,12,14,15], [10,14,11,15,8,12], 6, 16777216⟩

/-- Pattern 2: tiles {2,3,4}, offset 2*16^6. -/
def pattern2 : tile_pattern := ⟨[2,3,4], [5,9,13], 3, 33554432⟩

/-- The three patterns, in the order of the `patterns` array in `dim4.h`. -/
def patterns : List tile_pattern := [pattern0, pattern1, pattern2]

/-! ## Sparse index function (`standalone_dim4_solver.c`, `arr_index`) -/

/-- Position of tile `t` on board `b`: the first index holding `t`
(this is the inner `for (j...)` scan of `arr_index`). -/
def posN (b : List Int) (t : Int) : Nat := b.findIdx (· == t)

/-- The expression `DIM4 * j - ((DIM4_NUM_TILES - 1) * (j / DIM4))` computed
by the reflected branch of `arr_index` (C `int` arithmetic on a non-negative
`j`, so `/` is truncated division, matching `Nat` division). -/
def reflTermC (j : Nat) : Int := 4 * (j : Int) - 15 * ((j / 4 : Nat) : Int)

/-- The diagonal reflection on board indices, `pi(j) = 4*(j mod 4) + j div 4`. -/
def reflectIndex (j : Nat) : Nat := 4 * (j % 4) + j / 4

/-- The non-reflected loop of `arr_index`: for each pattern tile in order,
scan the board for the first matching cell `j`; on a match add `j * k` and
multiply `k` by 16, then `break`.  If a tile is absent the C loop falls
through without touching `index` or `k`. -/
def arrIndexGo (board : List Int) : List Int → Int → Int
  | [], _ => 0
  | t :: ts, k =>
    match board.findIdx? (· == t) with
    | some j => (j : Int) * k + arrIndexGo board ts (k * 16)
    | none => arrIndexGo board ts k

/-- The reflected loop of `arr_index`: same scan over `reflected_tiles`, but
each matched index `j` contributes `reflTermC j * k`. -/
def arrIndexReflGo (board : List Int) : List Int → Int → Int
  | [], _ => 0
  | t :: ts, k =>
    match board.findIdx? (· == t) with
    | some j => reflTermC j * k + arrIndexReflGo board ts (k * 16)
    | none => arrIndexReflGo board ts k

/-- `arr_index` of `standalone_dim4_solver.c` (identical in `dim4_solver.c`):
a sparse index in `[0, 16^n)` for the placement of the pattern's tiles. -/
def arr_index (board : List Int) (pattern : tile_pattern) (reflected : Bool) : Int :=
  if reflected then arrIndexReflGo board pattern.reflected_tiles 1
  else arrIndexGo board pattern.tiles 1

/-! ## The PDB builder's index function (`generate_dim4_heuristics.c`) -/

/-- Inner scan of the builder's `arr_index`: unlike the solver's version it
has no `break`, so every matching cell `j` contributes `j * k` and bumps `k`.
Returns the total contribution together with the final `k`. -/
def genInner (t : Int) : List Int → Nat → Int → Int × Int
  | [], _, k => (0, k)
  | c :: bs, j, k =>
    if c == t then
      let r := genInner t bs (j + 1) (k * 16)
      ((j : Int) * k + r.1, r.2)
    else genInner t bs (j + 1) k

/-- Outer loop of the builder's `arr_index` over the pattern tiles. -/
def genArrIndexGo (board : List Int) : List Int → Int → Int
  | [], _ => 0
  | t :: ts, k =>
    let r := genInner t board 0 k
    r.1 + genArrIndexGo board ts r.2

/-- `arr_index` of `generate_dim4_heuristics.c` (no `break` in the inner
scan, no reflected branch). -/
def gen_arr_index (board : List Int) (pattern : tile_pattern) : Int :=
  genArrIndexGo board pattern.tiles 1

/-! ## Little-endian base-16 digit values, used to state index properties -/

/-- Value of a little-endian list of base-16 digit contributions. -/
def digitsVal : List Int → Int
  | [] => 0
  | d :: ds => d + 16 * digitsVal ds

theorem digitsVal_eq_sum (l : List Int) :
    digitsVal l = ∑ i ∈ Finset.range l.length, l.getD i 0 * 16 ^ i := by
  induction l with
  | nil => simp [digitsVal]
  | cons d ds ih =>
      rw [digitsVal, ih]
      rw [List.length_cons, Finset.sum_range_succ']
      simp only [List.getD_cons_succ, List.getD_cons_zero, pow_zero, mul_one, pow_succ]
      rw [Finset.mul_sum, add_comm]
      congr 1
      exact Finset.sum_congr rfl fun x _ => by ring

/-- If `p` holds somewhere in `l`, then `findIdx?` returns `findIdx`. -/
theorem findIdx?_eq_some_findIdx (l : List Int) (p : Int → Bool)
    (h : ∃ x ∈ l, p x = true) : l.findIdx? p = some (l.findIdx p) := by
  induction l with
  | nil => simp at h
  | cons a as ih =>
      by_cases hpa : p a = true
      · simp [List.findIdx?_cons, List.findIdx_cons, hpa]
      · have : ∃ x ∈ as, p x = true := by
          rcases h with ⟨x, hx, hpx⟩
          rcases List.mem_cons.mp hx with rfl | hx'
          · exact absurd hpx hpa
          · exact ⟨x, hx', hpx⟩
        simp [List.findIdx?_cons, List.findIdx_cons, hpa, ih this]

/-- Generic evaluation of the non-reflected scan when every tile occurs. -/
theorem arrIndexGo_eq (board : List Int) (ts : List Int) (k : Int)
    (h : ∀ t ∈ ts, t ∈ board) :
    arrIndexGo board ts k = k * digitsVal (ts.map fun t => ((posN board t : Nat) : Int)) := by
  induction ts generalizing k with
  | nil => simp [arrIndexGo, digitsVal]
  | cons t ts ih =>
      have hmem : t ∈ board := h t (List.mem_cons_self ..)
      have hfind : board.findIdx? (· == t) = some (board.findIdx (· == t)) := by
        refine findIdx?_eq_some_findIdx _ _ ⟨t, hmem, ?_⟩
        simp
      rw [arrIndexGo, hfind]
      rw [ih (k * 16) (fun x hx => h x (List.mem_cons_of_mem _ hx))]
      simp only [List.map_cons, digitsVal, posN]
      ring

/-- Generic evaluation of the reflected scan when every tile occurs. -/
theorem arrIndexReflGo_eq (board : List Int) (ts : List Int) (k : Int)
    (h : ∀ t ∈ ts, t ∈ board) :
    arrIndexReflGo board ts k = k * digitsVal (ts.map fun t => reflTermC (posN board t)) := by
  induction ts generalizing k with
  | nil => simp [arrIndexReflGo, digitsVal]
  | cons t ts ih =>
      have hmem : t ∈ board := h t (List.mem_cons_self ..)
      have hfind : board.findIdx? (· == t) = some (board.findIdx (· == t)) := by
        refine findIdx?_eq_some_findIdx _ _ ⟨t, hmem, ?_⟩
        simp
      rw [arrIndexReflGo, hfind]
      rw [ih (k * 16) (fun x hx => h x (List.mem_cons_of_mem _ hx))]
      simp only [List.map_cons, digitsVal, posN]
      ring

/-! ## Basic facts about valid boards -/

theorem ValidBoard.length {b : List Int} (hb : ValidBoard b) : b.length = 16 :=
  List.Perm.length_eq hb

theorem ValidBoard.count_eq {b : List Int} (hb : ValidBoard b)
    {t : Int} (ht : t ∈ boardValues) : b.count t = 1 := by
  rw [List.Perm.count_eq hb]
  fin_cases ht <;> decide

theorem ValidBoard.mem {b : List Int} (hb : ValidBoard b)
    {t : Int} (ht : t ∈ boardValues) : t ∈ b := by
  have := hb.count_eq ht
  exact List.count_pos_iff.mp (by omega)

/-- On a valid board every tile position is below 16. -/
theorem posN_lt {b : List Int} (hb : ValidBoard b) {t : Int}
    (ht : t ∈ boardValues) : posN b t < 16 := by
  have hmem : t ∈ b := hb.mem ht
  have : b.findIdx (· == t) < b.length := by
    apply List.findIdx_lt_length_of_exists
    exact ⟨t, hmem, by simp⟩
  simpa [posN, hb.length] using this

/-- The reflected-branch expression agrees with the diagonal reflection on
all board indices. -/
theorem reflTermC_eq : ∀ j < 16, reflTermC j = (reflectIndex j : Int) := by decide

theorem getD_map_lt (f : Int → Int) (l : List Int) (i : Nat) (h : i < l.length) :
    (l.map f).getD i 0 = f (l.getD i 0) := by
  rw [List.getD_eq_getElem _ _ (by simpa using h), List.getD_eq_getElem _ _ h]
  simp

/-- Tiles of each pattern (and their reflections) are legal board values. -/
theorem pattern_tiles_sub {p : tile_pattern} (hp : p ∈ patterns) :
    (∀ t ∈ p.tiles, t ∈ boardValues) ∧ (∀ t ∈ p.reflected_tiles, t ∈ boardValues) ∧
    p.tiles.length = p.num_tiles ∧ p.reflected_tiles.length = p.num_tiles := by
  fin_cases hp <;> exact ⟨by decide, by decide, rfl, rfl⟩

/-- Closed form of the solver's non-reflected sparse index on valid boards. -/
theorem arr_index_eq_sum {b : List Int} (hb : ValidBoard b)
    {p : tile_pattern} (hp : p ∈ patterns) :
    arr_index b p false =
      ∑ i ∈ Finset.range p.num_tiles, ((posN b (p.tiles.getD i 0) : Nat) : Int) * 16 ^ i := by
  obtain ⟨hsub, -, hlen, -⟩ := pattern_tiles_sub hp
  have hmem : ∀ t ∈ p.tiles, t ∈ b := fun t ht => hb.mem (hsub t ht)
  rw [show arr_index b p false = arrIndexGo b p.tiles 1 from rfl]
  rw [arrIndexGo_eq b p.tiles 1 hmem, one_mul, digitsVal_eq_sum]
  rw [List.length_map, hlen]
  refine Finset.sum_congr rfl fun i hi => ?_
  rw [getD_map_lt _ _ _ (by rw [hlen]; exact Finset.mem_range.mp hi)]

/-- Closed form of the solver's reflected sparse index on valid boards. -/
theorem arr_index_refl_eq_sum {b : List Int} (hb : ValidBoard b)
    {p : tile_pattern} (hp : p ∈ patterns) :
    arr_index b p true =
      ∑ i ∈ Finset.range p.num_tiles,
        ((reflectIndex (posN b (p.reflected_tiles.getD i 0)) : Nat) : Int) * 16 ^ i := by
  obtain ⟨-, hsub, -, hlen⟩ := pattern_tiles_sub hp
  have hmem : ∀ t ∈ p.reflected_tiles, t ∈ b := fun t ht => hb.mem (hsub t ht)
  rw [show arr_index b p true = arrIndexReflGo b p.reflected_tiles 1 from rfl]
  rw [arrIndexReflGo_eq b p.reflected_tiles 1 hmem, one_mul, digitsVal_eq_sum]
  rw [List.length_map, hlen]
  refine Finset.sum_congr rfl fun i hi => ?_
  have hi' : i < p.reflected_tiles.length := by rw [hlen]; exact Finset.mem_range.mp hi
  rw [getD_map_lt _ _ _ hi']
  have hmemi : p.reflected_tiles.getD i 0 ∈ p.reflected_tiles := by
    rw [List.getD_eq_getElem _ _ hi']
    exact List.getElem_mem hi'
  rw [reflTermC_eq _ (posN_lt hb (hsub _ hmemi))]

/-- Base-16 digit lists with digits in `[0,16)` have values in `[0,16^len)`
and are determined by their value. -/
theorem digitsVal_bounds (l : List Int) (h : ∀ d ∈ l, 0 ≤ d ∧ d < 16) :
    0 ≤ digitsVal l ∧ digitsVal l < 16 ^ l.length := by
  induction l with
  | nil => simp [digitsVal]
  | cons d ds ih =>
      obtain ⟨h0, h1⟩ := h d (List.mem_cons_self ..)
      obtain ⟨ih0, ih1⟩ := ih fun x hx => h x (List.mem_cons_of_mem _ hx)
      constructor
      · simp only [digitsVal]; positivity
      · simp only [digitsVal, List.length_cons, pow_succ]
        nlinarith

theorem digitsVal_injective (l1 l2 : List Int)
    (h1 : ∀ d ∈ l1, 0 ≤ d ∧ d < 16) (h2 : ∀ d ∈ l2, 0 ≤ d ∧ d < 16)
    (hlen : l1.length = l2.length) (hval : digitsVal l1 = digitsVal l2) :
    l1 = l2 := by
  induction l1 generalizing l2 with
  | nil => cases l2 with
      | nil => rfl
      | cons d ds => simp at hlen
  | cons d ds ih =>
      cases l2 with
      | nil => simp at hlen
      | cons e es =>
          obtain ⟨hd0, hd1⟩ := h1 d (List.mem_cons_self ..)
          obtain ⟨he0, he1⟩ := h2 e (List.mem_cons_self ..)
          obtain ⟨hds0, hds1⟩ := digitsVal_bounds ds fun x hx => h1 x (List.mem_cons_of_mem _ hx)
          obtain ⟨hes0, hes1⟩ := digitsVal_bounds es fun x hx => h2 x (List.mem_cons_of_mem _ hx)
          simp only [digitsVal] at hval
          have hde : d = e ∧ digitsVal ds = digitsVal es := by constructor <;> omega
          have := ih es (fun x hx => h1 x (List.mem_cons_of_mem _ hx))
            (fun x hx => h2 x (List.mem_cons_of_mem _ hx)) (by simpa using hlen) hde.2
          rw [hde.1, this]

/-- Claim C6: on every valid board, for each of the three patterns, the
solver's non-reflected `arr_index` equals the sum over `i < n` of
`pos(tiles[i]) * 16^i`, lies in `[0, 16^n)`, depends only on the positions
of the pattern's tiles, and determines those positions uniquely. -/
theorem arr_index_spec {b : List Int} (hb : ValidBoard b)
    {p : tile_pattern} (hp : p ∈ patterns) :
    (arr_index b p false =
      ∑ i ∈ Finset.range p.num_tiles, ((posN b (p.tiles.getD i 0) : Nat) : Int) * 16 ^ i) ∧
    (0 ≤ arr_index b p false ∧ arr_index b p false < 16 ^ p.num_tiles) ∧
    (∀ b2, ValidBoard b2 → (∀ t ∈ p.tiles, posN b t = posN b2 t) →
      arr_index b p false = arr_index b2 p false) ∧
    (∀ b2, ValidBoard b2 → arr_index b p false = arr_index b2 p false →
      ∀ t ∈ p.tiles, posN b t = posN b2 t) := by
  obtain ⟨hsub, -, hlen, -⟩ := pattern_tiles_sub hp
  have hgo : ∀ b' : List Int, ValidBoard b' →
      arr_index b' p false = digitsVal (p.tiles.map fun t => ((posN b' t : Nat) : Int)) := by
    intro b' hb'
    have hmem : ∀ t ∈ p.tiles, t ∈ b' := fun t ht => hb'.mem (hsub t ht)
    rw [show arr_index b' p false = arrIndexGo b' p.tiles 1 from rfl]
    rw [arrIndexGo_eq b' p.tiles 1 hmem, one_mul]
  have hdig : ∀ b' : List Int, ValidBoard b' →
      ∀ d ∈ p.tiles.map fun t => ((posN b' t : Nat) : Int), 0 ≤ d ∧ d < 16 := by
    intro b' hb' d hd
    rw [List.mem_map] at hd
    obtain ⟨t, ht, rfl⟩ := hd
    have := posN_lt hb' (hsub t ht)
    constructor
    · positivity
    · exact_mod_cast this
  refine ⟨arr_index_eq_sum hb hp, ?_, ?_, ?_⟩
  · rw [hgo b hb]
    have := digitsVal_bounds _ (hdig b hb)
    rwa [List.length_map, hlen] at this
  · intro b2 hb2 hpos
    rw [hgo b hb, hgo b2 hb2]
    congr 1
    exact List.map_congr_left fun t ht => by rw [hpos t ht]
  · intro b2 hb2 heq t ht
    rw [hgo b hb, hgo b2 hb2] at heq
    have := digitsVal_injective _ _ (hdig b hb) (hdig b2 hb2) (by simp) heq
    have h2 := List.map_eq_map_iff.mp this t ht
    exact_mod_cast h2

/-- Claim C7: the expression `4*j - 15*(j div 4)` computed by the reflected
branch of `arr_index` coincides with the diagonal reflection
`pi(j) = 4*(j mod 4) + j div 4` on every board index, and consequently the
reflected index of a valid board is the base-16 encoding of the reflected
positions of the reflected tile list. -/
theorem reflected_arr_index_spec {b : List Int} (hb : ValidBoard b)
    {p : tile_pattern} (hp : p ∈ patterns) :
    (∀ j < 16, reflTermC j = (reflectIndex j : Int)) ∧
    arr_index b p true =
      ∑ i ∈ Finset.range p.num_tiles,
        ((reflectIndex (posN b (p.reflected_tiles.getD i 0)) : Nat) : Int) * 16 ^ i :=
  ⟨reflTermC_eq, arr_index_refl_eq_sum hb hp⟩

/-- Witness for C6 at the solved board and pattern 0. -/
theorem arr_index_spec_witness :
    ValidBoard solvedBoard ∧ pattern0 ∈ patterns ∧
    (arr_index solvedBoard pattern0 false =
      ∑ i ∈ Finset.range pattern0.num_tiles,
        ((posN solvedBoard (pattern0.tiles.getD i 0) : Nat) : Int) * 16 ^ i ∧
    (0 ≤ arr_index solvedBoard pattern0 false ∧
      arr_index solvedBoard pattern0 false < 16 ^ pattern0.num_tiles) ∧
    (∀ b2, ValidBoard b2 → (∀ t ∈ pattern0.tiles, posN solvedBoard t = posN b2 t) →
      arr_index solvedBoard pattern0 false = arr_index b2 pattern0 false) ∧
    (∀ b2, ValidBoard b2 →
      arr_index solvedBoard pattern0 false = arr_index b2 pattern0 false →
      ∀ t ∈ pattern0.tiles, posN solvedBoard t = posN b2 t)) :=
  ⟨by decide, by decide, arr_index_spec (by decide) (by decide)⟩

/-- Witness for C7 at the solved board and pattern 0. -/
theorem reflected_arr_index_spec_witness :
    ValidBoard solvedBoard ∧ pattern0 ∈ patterns ∧
    ((∀ j < 16, reflTermC j = (reflectIndex j : Int)) ∧
    arr_index solvedBoard pattern0 true =
      ∑ i ∈ Finset.range pattern0.num_tiles,
        ((reflectIndex (posN solvedBoard (pattern0.reflected_tiles.getD i 0)) : Nat) : Int) * 16 ^ i) :=
  ⟨by decide, by decide, reflected_arr_index_spec (by decide) (by decide)⟩

/-! ## Solvability predicate (`standalone_dim4_solver.c`: `swap`, `quicksort`,
`is_solvable`).  The C array is modelled as a total function `Nat → Int`; all
accesses made by the code stay inside `[low, high]`. -/

/-- `swap` of `standalone_dim4_solver.c`: exchanges two cells and counts the
swap, except that swaps of equal values are skipped and not counted. -/
def swapC (f : Nat → Int) (i j : Nat) (c : Nat) : (Nat → Int) × Nat :=
  if f i = f j then (f, c)
  else (fun x => if x = i then f j else if x = j then f i else f x, c + 1)

/-- The partition loop of `quicksort` (Lomuto, pivot at `high`): scans `i`
from its start value up to `high - 1`, swapping values `<=` the pivot down to
`pivot_index`.  The fuel is the number of remaining iterations. -/
def partGo : Nat → (Nat → Int) → Nat → Nat → Nat → Nat → (Nat → Int) × Nat × Nat
  | 0, f, _, _, pv, c => (f, pv, c)
  | fuel + 1, f, i, high, pv, c =>
    if i < high then
      if f i ≤ f high then
        partGo fuel (swapC f i pv c).1 (i + 1) high (pv + 1) (swapC f i pv c).2
      else partGo fuel f (i + 1) high pv c
    else (f, pv, c)

/-- The partition call of one `quicksort` level (pivot at `high`, scan from
`low`; the fuel `high - low` is exactly the number of loop iterations). -/
def qsPart (f : Nat → Int) (low high c : Nat) : (Nat → Int) × Nat × Nat :=
  partGo (high - low) f low high low c

/-- The `swap(array, pivot_index, high, swap_count)` call that moves the
pivot into place after the partition loop. -/
def qsPivot (f : Nat → Int) (low high c : Nat) : (Nat → Int) × Nat :=
  swapC (qsPart f low high c).1 (qsPart f low high c).2.1 high
    (qsPart f low high c).2.2

/-- `quicksort` of `standalone_dim4_solver.c`, sorting `[low, high]` in place
and counting swaps.  The C recursion always terminates because the pivot
lands inside `[low, high]`; here that measure is made explicit as fuel (the
call in `is_solvable` uses fuel 16, enough for the full 16-cell range).  The
C recursive call `quicksort(array, low, pivot_index - 1)` can pass
`high = -1` when `pivot_index == 0`; it is a no-op then, exactly like the
truncated `Nat` subtraction used here. -/
def quicksortC : Nat → (Nat → Int) → Nat → Nat → Nat → (Nat → Int) × Nat
  | 0, f, _, _, c => (f, c)
  | fuel + 1, f, low, high, c =>
    if low < high then
      quicksortC fuel
        (quicksortC fuel (qsPivot f low high c).1 low
          ((qsPart f low high c).2.1 - 1) (qsPivot f low high c).2).1
        ((qsPart f low high c).2.1 + 1) high
        (quicksortC fuel (qsPivot f low high c).1 low
          ((qsPart f low high c).2.1 - 1) (qsPivot f low high c).2).2
    else (f, c)

/-- `is_solvable` of `standalone_dim4_solver.c`: copy the board, replace the
empty tile (first cell holding 0) by 16, quicksort counting swaps, and test
the parity of swap count plus the taxicab distance of the empty cell from
the lower-right corner. -/
def is_solvable (board : List Int) : Bool :=
  let i := board.findIdx (· == 0)
  let arr : Nat → Int := fun x => if x = i then 16 else board.getD x 0
  let q := quicksortC 16 arr 0 15 0
  let taxicab := (4 - 1 - i % 4) + (4 - 1 - i / 4)
  (q.2 + taxicab) % 2 == 0

/-- `is_solved` of `standalone_dim4_solver.c`. -/
def is_solved (board : List Int) : Bool :=
  (board.getD 15 0 == 0) &&
    (List.range 15).all fun i => board.getD i 0 == (i : Int) + 1

/-! ## The standalone CLI parse loop (`main` of `standalone_dim4_solver.c`) -/

/-- One `strtol` result: the parsed value, and whether any characters were
consumed (`p != endptr`).  At the end of the line `strtol` keeps returning
`(0, false)`. -/
abbrev Token := Int × Bool

/-- The tile-parsing loop of `main`: each iteration stores
`board[i] = strtol(...)` and then breaks if the stored value is out of range,
no characters were consumed, or `i >= 16`; otherwise it advances `i`.  The
store happens before the bound check, exactly as in the C.  Returns the final
board, the final `i`, and the log of stores `(index, value)` performed. -/
def parseGo : List Token → (Nat → Int) → Nat → List (Nat × Int) →
    (Nat → Int) × Nat × List (Nat × Int)
  | [], board, i, log =>
      ((fun x => if x = i then 0 else board x), i, log ++ [(i, 0)])
  | tok :: rest, board, i, log =>
      let board' := fun x => if x = i then tok.1 else board x
      let log' := log ++ [(i, tok.1)]
      if tok.1 < 0 ∨ 15 < tok.1 ∨ tok.2 = false ∨ 16 ≤ i then (board', i, log')
      else parseGo rest board' (i + 1) log'

/-- The per-line guard of `main`: the solver is invoked for a (long enough)
line exactly when the parse loop ends with `i == DIM4_NUM_TILES` and
`is_solvable(board)` holds. -/
def lineEntersSearch (toks : List Token) (board0 : Nat → Int) : Bool :=
  let r := parseGo toks board0 0 []
  (r.2.1 == 16) && is_solvable ((List.range 16).map r.1)

/-- The strtol results for the line `1 2 3 4 5 6 7 8 9 10 11 12 13 14 15 0`
(38 characters, so it passes the MINIMUM_CHARS filter). -/
def solvedLineToks : List Token :=
  [(1,true),(2,true),(3,true),(4,true),(5,true),(6,true),(7,true),(8,true),
   (9,true),(10,true),(11,true),(12,true),(13,true),(14,true),(15,true),(0,true)]

/-- Claim C10 (refuted by the code): on the solved-board line the parse loop
performs a 17th store, at index 16 — one past the end of the 16-element
`board` array — because the store precedes the `i >= 16` check. -/
theorem parse_loop_store_oob :
    (16, (0 : Int)) ∈ (parseGo solvedLineToks (fun _ => 0) 0 []).2.2 ∧
    (parseGo solvedLineToks (fun _ => 0) 0 []).2.2.length = 17 := by
  constructor <;> decide

/-- The strtol results for the line `1 1 3 4 5 6 7 8 9 10 11 12 13 14 15 0`
(37 characters): tile 1 appears twice and tile 2 is missing. -/
def dupLineToks : List Token :=
  [(1,true),(1,true),(3,true),(4,true),(5,true),(6,true),(7,true),(8,true),
   (9,true),(10,true),(11,true),(12,true),(13,true),(14,true),(15,true),(0,true)]

/-- Claim C4 (counterexample): a line whose 16 parsed values contain a
duplicate tile value still enters the search — the parsed board, which
repeats tile 1, passes the `i == 16 && is_solvable(board)` guard. -/
theorem dup_line_enters_search :
    lineEntersSearch dupLineToks (fun _ => 0) = true ∧
    ¬ ((List.range 16).map (parseGo dupLineToks (fun _ => 0) 0 []).1).Nodup := by
  constructor <;> decide

/-- If the `k`-th strtol result on the line is out of range, the parse loop
stops with `i ≤ i₀ + k`. -/
theorem parseGo_stop (toks : List Token) (board : Nat → Int) (i : Nat)
    (log : List (Nat × Int)) (k : Nat)
    (hbad : (toks.getD k (0, false)).1 < 0 ∨ 15 < (toks.getD k (0, false)).1) :
    (parseGo toks board i log).2.1 ≤ i + k := by
  induction toks generalizing board i log k with
  | nil => simp [List.getD] at hbad
  | cons t rest ih =>
      rw [parseGo]
      split
      · simp
      · rename_i hcond
        cases k with
        | zero =>
            exfalso
            exact hcond (by simpa using Or.imp id (fun h => Or.inl h) hbad)
        | succ k' =>
            have := ih (fun x => if x = i then t.1 else board x) (i + 1)
              (log ++ [(i, t.1)]) k' (by simpa using hbad)
            omega

/-- Claim C4 (amended): if any of the first sixteen parsed values is out of
range the search is never entered, and whenever the search is entered the
parsed board satisfies `is_solvable`; duplicate values alone, however, do not
prevent entry (see the counterexample). -/
theorem line_guard_spec (toks : List Token) (b0 : Nat → Int) :
    (∀ k < 16, ((toks.getD k (0, false)).1 < 0 ∨ 15 < (toks.getD k (0, false)).1) →
      lineEntersSearch toks b0 = false) ∧
    (lineEntersSearch toks b0 = true →
      (parseGo toks b0 0 []).2.1 = 16 ∧
      is_solvable ((List.range 16).map (parseGo toks b0 0 []).1) = true) := by
  constructor
  · intro k hk hbad
    have := parseGo_stop toks b0 0 [] k hbad
    have hne : ((parseGo toks b0 0 []).2.1 == 16) = false := by
      simp only [beq_eq_false_iff_ne, ne_eq]
      omega
    simp [lineEntersSearch, hne]
  · intro h
    simp only [lineEntersSearch, Bool.and_eq_true, beq_iff_eq] at h
    exact h

/-- Witness for the amended C4 at a line starting with the out-of-range
value 99, and at the solved-board line for the second conjunct. -/
theorem line_guard_spec_witness :
    (0 < 16 ∧
      ((([((99 : Int), true)] : List Token).getD 0 (0, false)).1 < 0 ∨
        15 < (([((99 : Int), true)] : List Token).getD 0 (0, false)).1)) ∧
    lineEntersSearch [((99 : Int), true)] (fun _ => 0) = false :=
  ⟨⟨by decide, by decide⟩,
    (line_guard_spec [((99 : Int), true)] (fun _ => 0)).1 0 (by decide) (by decide)⟩

/-! ## Agreement of the builder's and the solver's index functions (C9) -/

/-- A tile absent from the scanned suffix contributes nothing and leaves `k`
unchanged in the builder's inner scan. -/
theorem genInner_not_mem (bs : List Int) (t : Int) (j0 : Nat) (k : Int)
    (h : bs.count t = 0) : genInner t bs j0 k = (0, k) := by
  induction bs generalizing j0 k with
  | nil => rfl
  | cons c bs ih =>
      rw [List.count_cons] at h
      have hct : ¬ c = t := by
        intro hc
        simp [hc] at h
      rw [genInner, if_neg (by simp [hct])]
      exact ih (j0 + 1) k (by simpa [hct] using h)

/-- A tile occurring exactly once in the scanned suffix contributes its
index and multiplies `k` by 16, exactly as the solver's breaking scan. -/
theorem genInner_single (bs : List Int) (t : Int) (j0 : Nat) (k : Int)
    (h : bs.count t = 1) :
    genInner t bs j0 k = (((j0 : Int) + (bs.findIdx (· == t) : Int)) * k, k * 16) := by
  induction bs generalizing j0 k with
  | nil => simp [List.count_nil] at h
  | cons c bs ih =>
      rw [List.count_cons] at h
      by_cases hct : c = t
      · have h0 : bs.count t = 0 := by simp [hct] at h; omega
        have hbeq : (c == t) = true := by simp [hct]
        rw [genInner, if_pos (by simp [hct]), genInner_not_mem bs t (j0 + 1) (k * 16) h0]
        rw [List.findIdx_cons, hbeq]
        simp
      · have h1 : bs.count t = 1 := by simp [hct] at h; omega
        have hbeq : (c == t) = false := by simp [hct]
        rw [genInner, if_neg (by simp [hct]), ih (j0 + 1) k h1]
        rw [List.findIdx_cons, hbeq]
        simp only [cond_false, Prod.mk.injEq]
        refine ⟨?_, trivial⟩
        push_cast
        ring

theorem count_one_mem {bs : List Int} {t : Int} (h : bs.count t = 1) : t ∈ bs :=
  List.count_pos_iff.mp (by omega)

/-- Shared helper: for every board in which each tile of the pattern occurs
exactly once, the builder's and the solver's non-reflected index agree. -/
theorem gen_index_agree (board : List Int) (p : tile_pattern)
    (h : ∀ t ∈ p.tiles, board.count t = 1) :
    gen_arr_index board p = arr_index board p false := by
  rw [show gen_arr_index board p = genArrIndexGo board p.tiles 1 from rfl]
  rw [show arr_index board p false = arrIndexGo board p.tiles 1 from rfl]
  suffices hgen : ∀ (ts : List Int) (k : Int), (∀ t ∈ ts, board.count t = 1) →
      genArrIndexGo board ts k = arrIndexGo board ts k from
    hgen p.tiles 1 h
  intro ts
  induction ts with
  | nil => intro k _; rfl
  | cons t ts ih =>
      intro k hts
      have h1 : board.count t = 1 := hts t (List.mem_cons_self ..)
      have hfind : board.findIdx? (· == t) = some (board.findIdx (· == t)) :=
        findIdx?_eq_some_findIdx _ _ ⟨t, count_one_mem h1, by simp⟩
      rw [genArrIndexGo, arrIndexGo, hfind, genInner_single board t 0 k h1]
      simp only [Nat.cast_zero, zero_add]
      rw [ih (k * 16) (fun x hx => hts x (List.mem_cons_of_mem _ hx))]

/-- Claim C9: for every board in which each tile of the pattern occurs
exactly once, the PDB builder's `arr_index` (whose inner scan has no
`break`) and the solver's `arr_index` with `reflected = false` agree, so the
builder writes heuristic bytes under exactly the keys the solver reads. -/
theorem gen_arr_index_eq_arr_index (board : List Int) (p : tile_pattern)
    (h : ∀ t ∈ p.tiles, board.count t = 1) :
    gen_arr_index board p = arr_index board p false :=
  gen_index_agree board p h

/-- Witness for C9: the builder's root board for pattern 0 (pattern tiles at
their solved cells, empty at 15, sentinel 255 elsewhere). -/
theorem gen_arr_index_eq_arr_index_witness :
    (∀ t ∈ pattern0.tiles,
      ([1,255,255,255,5,6,255,255,9,10,255,255,13,255,255,0] : List Int).count t = 1) ∧
    gen_arr_index [1,255,255,255,5,6,255,255,9,10,255,255,13,255,255,0] pattern0 =
      arr_index [1,255,255,255,5,6,255,255,9,10,255,255,13,255,255,0] pattern0 false :=
  ⟨by decide, gen_arr_index_eq_arr_index _ _ (by decide)⟩

/-! ## The IDA* engine (`standalone_dim4_solver.c`: `dim4_solver`,
`depth_first_search`).  The heuristic lookup `get_heurisitic(dim4_array, b)`
is abstracted as a function `H : List Int → Int` (the loaded PDB is fixed
for a whole run).  The 80-entry `moves` array is modelled as a total
function on `Int` so that the out-of-bounds read `moves[num_moves - 1]`
performed at the root call is visible in the model. -/

/-- `INT_MAX` of the build platform (32-bit `int`). -/
def intMax : Int := 2147483647

/-- The search `node` struct of `standalone_dim4_solver.c`. -/
structure Node where
  board : List Int
  empty_index : Nat
  heuristic : Int
  num_moves : Nat
  moves : Int → Int

/-- The index used by the parent-move pruning read
`n->moves[n->num_moves - 1]`; the C computes it unconditionally, so it is
`-1` whenever `num_moves = 0`. -/
def guardIndex (n : Node) : Int := (n.num_moves : Int) - 1

/-- The parent-move pruning comparison `tile != n->moves[n->num_moves - 1]`
of `depth_first_search`. -/
def parentGuard (n : Node) (tile : Int) : Bool := tile != n.moves (guardIndex n)

/-- Applying the slide of the tile at board index `mi` onto the empty cell,
exactly as the move block of `depth_first_search`: write the tile into the
empty cell, zero cell `mi`, move the empty index, recompute the heuristic,
record the move, bump `num_moves`. -/
def applyMoveNode (H : List Int → Int) (n : Node) (mi : Nat) : Node :=
  let tile := n.board.getD mi 0
  { board := (n.board.set n.empty_index tile).set mi 0
    empty_index := mi
    heuristic := H ((n.board.set n.empty_index tile).set mi 0)
    num_moves := n.num_moves + 1
    moves := fun x => if x = (n.num_moves : Int) then tile else n.moves x }

/-- Undoing the slide, exactly as the undo block of `depth_first_search`,
applied to the node as it stands after the recursive call (`n2`), with the
saved locals `tile`, `old_empty_index` and `old_heuristic`. -/
def undoMoveNode (n2 : Node) (mi : Nat) (tile : Int) (old_empty : Nat)
    (old_heuristic : Int) : Node :=
  { board := (n2.board.set mi tile).set old_empty 0
    empty_index := old_empty
    heuristic := old_heuristic
    num_moves := n2.num_moves - 1
    moves := fun x => if x = (n2.num_moves : Int) - 1 then 0 else n2.moves x }

/-- The `for (i = 0..3)` neighbour loop of `depth_first_search`.  `rec` is
the recursive call (one fuel level down); `nb` accumulates `new_bound`.
Returns the node, the `solved` flag, and the returned bound.  The C locals
`move_index`, `tile` and `b` are substituted by their (pure) defining
expressions; the structure of the iteration — guard checks, move, optional
recursion, solved check, `new_bound` update, undo — follows the C loop body
exactly. -/
def dfsLoop (H : List Int → Int) (rec : Node → Int → Node × Bool × Int) :
    Node → Int → List Nat → Int → Node × Bool × Int
  | n, _, [], nb => (n, false, nb)
  | n, bound, d :: ds, nb =>
    if validMove n.empty_index d = -1 then dfsLoop H rec n bound ds nb
    else if parentGuard n (n.board.getD (validMove n.empty_index d).toNat 0) = false then
      dfsLoop H rec n bound ds nb
    else if 1 + (applyMoveNode H n (validMove n.empty_index d).toNat).heuristic ≤ bound then
      if (rec (applyMoveNode H n (validMove n.empty_index d).toNat) (bound - 1)).2.1 then
        ((rec (applyMoveNode H n (validMove n.empty_index d).toNat) (bound - 1)).1, true,
          1 + (rec (applyMoveNode H n (validMove n.empty_index d).toNat) (bound - 1)).2.2)
      else
        dfsLoop H rec
          (undoMoveNode
            (rec (applyMoveNode H n (validMove n.empty_index d).toNat) (bound - 1)).1
            (validMove n.empty_index d).toNat
            (n.board.getD (validMove n.empty_index d).toNat 0)
            n.empty_index n.heuristic)
          bound ds
          (min nb (1 + (rec (applyMoveNode H n (validMove n.empty_index d).toNat) (bound - 1)).2.2))
    else
      dfsLoop H rec
        (undoMoveNode (applyMoveNode H n (validMove n.empty_index d).toNat)
          (validMove n.empty_index d).toNat
          (n.board.getD (validMove n.empty_index d).toNat 0)
          n.empty_index n.heuristic)
        bound ds
        (min nb (1 + (applyMoveNode H n (validMove n.empty_index d).toNat).heuristic))

/-- `depth_first_search` of `standalone_dim4_solver.c` (identical in
`dim4_solver.c`): the C recursion always terminates because the bound
strictly decreases and recursion requires `1 + heuristic <= bound`; the
explicit fuel makes that measure syntactic.  The fuel-exhausted branch is
never reached when `fuel` exceeds the bound (see `dfs` lemmas below). -/
def depth_first_search (H : List Int → Int) : Nat → Node → Int → Node × Bool × Int
  | fuel, n, bound =>
    if n.heuristic = 0 then (n, true, 0)
    else
      match fuel with
      | 0 => (n, false, intMax)
      | fuel + 1 => dfsLoop H (depth_first_search H fuel) n bound [0, 1, 2, 3] intMax

/-- The index at which `dim4_solver` records the empty cell: the C loop
`for i: if (board[i] == 0) empty_index = i;` keeps the last zero. -/
def lastZeroIndex (b : List Int) : Nat :=
  (List.range 16).foldl (fun acc i => if b.getD i 0 = 0 then i else acc) 0

/-- The iterative-deepening loop of `dim4_solver`: run
`bound = depth_first_search(root, bound)`, fail on `INT_MAX`, stop when the
`solved` flag is set.  The loop fuel bounds the number of iterations (the C
loop has no bound; termination for solvable boards is proved separately). -/
def solverLoop (H : List Int → Int) (dfsFuel : Nat) :
    Nat → Node → Int → Option Node
  | 0, _, _ => none
  | k + 1, n, bound =>
    let r := depth_first_search H dfsFuel n bound
    if r.2.2 = intMax then none
    else if r.2.1 then some r.1
    else solverLoop H dfsFuel k r.1 r.2.2

/-- `dim4_solver` of `standalone_dim4_solver.c`: build the root node (the
moves array is modelled zero-initialized, which is what the root read
`moves[-1]` relies on), then iterate depth-first searches starting from
`bound = h(root)`.  Returns the final node on success. -/
def dim4_solver (H : List Int → Int) (dfsFuel iterFuel : Nat)
    (board : List Int) : Option Node :=
  let root : Node :=
    { board := board
      empty_index := lastZeroIndex board
      heuristic := H board
      num_moves := 0
      moves := fun _ => 0 }
  solverLoop H dfsFuel iterFuel root (H board)

/-! ## Claim C5: the parent-move guard at the root -/

/-- A heuristic for concrete tests: 0 exactly on the solved board. -/
def simpleH (b : List Int) : Int := if is_solved b then 0 else 1

theorem simpleH_zero (b : List Int) (h : simpleH b = 0) : is_solved b = true := by
  by_cases hs : is_solved b
  · exact hs
  · exfalso
    rw [simpleH, if_neg hs] at h
    exact one_ne_zero h

/-- A root node one slide from solved whose (uninitialized, out-of-bounds)
`moves[-1]` slot happens to hold the value 15. -/
def oobNode : Node :=
  { board := [1,2,3,4,5,6,7,8,9,10,11,12,13,14,0,15]
    empty_index := 14
    heuristic := 1
    num_moves := 0
    moves := fun x => if x = -1 then 15 else 0 }

/-- Claim C5 (counterexample): the pruning comparison is applied even when
`num_moves = 0` — the read is at index `-1`, outside the moves array — and
the root expansion really depends on the value found there: with 15 in that
slot, the slide of tile 15 is pruned and the one-move solution is missed at
bound 1. -/
theorem root_guard_oob :
    guardIndex oobNode = -1 ∧ ¬ (0 ≤ guardIndex oobNode) ∧
    parentGuard oobNode 15 = false ∧
    (depth_first_search simpleH 5 oobNode 1).2.1 = false := by
  refine ⟨rfl, by decide, rfl, ?_⟩
  decide

/-- Claim C5 (amended): the comparison is applied unconditionally, with
index `num_moves - 1 = -1` at the root; because the reference relies on
that slot reading as 0 and no tile value is 0, every valid direction is
still expanded at the root. -/
theorem root_guard_spec (n : Node) (h0 : n.num_moves = 0)
    (hz : n.moves (-1) = 0) :
    guardIndex n = -1 ∧
    ∀ tile : Int, 1 ≤ tile → tile ≤ 15 → parentGuard n tile = true := by
  have hg : guardIndex n = -1 := by simp [guardIndex, h0]
  refine ⟨hg, fun tile h1 h15 => ?_⟩
  rw [parentGuard, hg, hz]
  simp only [bne_iff_ne, ne_eq]
  omega

/-- A zero-initialized root node at the solved board, for witnesses. -/
def zeroRootNode : Node :=
  { board := solvedBoard
    empty_index := 15
    heuristic := 0
    num_moves := 0
    moves := fun _ => 0 }

/-- Witness for the amended C5 at a concrete zero-initialized root node. -/
theorem root_guard_spec_witness :
    (zeroRootNode.num_moves = 0 ∧ zeroRootNode.moves (-1) = 0) ∧
    (guardIndex zeroRootNode = -1 ∧
     ∀ tile : Int, 1 ≤ tile → tile ≤ 15 → parentGuard zeroRootNode tile = true) :=
  ⟨⟨rfl, rfl⟩, root_guard_spec _ rfl rfl⟩

/-! ## Frame and solution contract of `depth_first_search` (C8) -/

/-- Replacing a cell by the value it already holds changes nothing. -/
theorem set_self_of_getD : ∀ (l : List Int) (i : Nat), i < l.length →
    l.set i (l.getD i 0) = l
  | a :: as, 0, _ => by simp
  | a :: as, i + 1, h => by
      simp only [List.getD_cons_succ, List.set_cons_succ, List.cons.injEq, true_and]
      exact set_self_of_getD as i (by simpa using h)

theorem getD_set_self (l : List Int) (i : Nat) (v : Int) (h : i < l.length) :
    (l.set i v).getD i 0 = v := by
  rw [List.getD_eq_getElem _ _ (by simpa using h)]
  simp [List.getElem_set_self, h]

theorem getD_set_ne (l : List Int) (i j : Nat) (v : Int) (h : i ≠ j) :
    (l.set i v).getD j 0 = l.getD j 0 := by
  by_cases hj : j < l.length
  · rw [List.getD_eq_getElem _ _ (by simpa using hj), List.getD_eq_getElem _ _ hj]
    exact List.getElem_set_ne h _
  · rw [List.getD_eq_default _ _ (by simpa using Nat.le_of_not_lt hj),
      List.getD_eq_default _ _ (Nat.le_of_not_lt hj)]

/-- The move table never moves the empty cell onto itself, and every valid
entry is a board index; directions beyond 3 and rows beyond 15 are invalid. -/
theorem validMove_spec (e : Nat) (he : e < 16) (d : Nat) :
    validMove e d = -1 ∨
    (0 ≤ validMove e d ∧ (validMove e d).toNat < 16 ∧
      (validMove e d).toNat ≠ e ∧ d < 4) := by
  by_cases hd : d < 4
  · interval_cases e <;> interval_cases d <;> decide
  · left
    have hrow : (valid_moves.getD e []).length = 4 := by
      interval_cases e <;> rfl
    rw [validMove, List.getD_eq_default]
    omega

/-- Well-formedness invariant tying a node to the heuristic function: the
board has 16 cells, the empty index is in range and holds 0, the cached
heuristic is the heuristic of the board, and the moves array is zero from
`num_moves` on. -/
structure NodeWF (H : List Int → Int) (n : Node) : Prop where
  len : n.board.length = 16
  emp_lt : n.empty_index < 16
  emp_zero : n.board.getD n.empty_index 0 = 0
  heur : n.heuristic = H n.board
  moves_hi : ∀ k : Int, (n.num_moves : Int) ≤ k → n.moves k = 0

/-- A legal single slide: some direction `d` of the move table sends the
empty cell `e` to cell `e'`, whose tile `t` slides into `e`. -/
def StepB (b : List Int) (e : Nat) (t : Int) (b' : List Int) (e' : Nat) : Prop :=
  ∃ d, d < 4 ∧ validMove e d ≠ -1 ∧ (validMove e d).toNat = e' ∧
    b.getD e' 0 = t ∧ b' = (b.set e t).set e' 0

/-- A legal sequence of slides recording the slid tile numbers. -/
inductive PathB : List Int → Nat → List Int → List Int → Nat → Prop
  | nil (b : List Int) (e : Nat) : PathB b e [] b e
  | cons {b : List Int} {e : Nat} {t : Int} {b1 : List Int} {e1 : Nat}
      {ts : List Int} {b2 : List Int} {e2 : Nat} :
      StepB b e t b1 e1 → PathB b1 e1 ts b2 e2 → PathB b e (t :: ts) b2 e2

/-- The segment `moves[m .. num_moves)` of a node's move list. -/
def movesSeg (m : Nat) (n : Node) : List Int :=
  (List.range (n.num_moves - m)).map fun i => n.moves ((m + i : Nat) : Int)

theorem movesSeg_self (n : Node) : movesSeg n.num_moves n = [] := by
  simp [movesSeg]

theorem movesSeg_cons (m : Nat) (n' : Node) (h : m + 1 ≤ n'.num_moves) :
    movesSeg m n' = n'.moves (m : Int) :: movesSeg (m + 1) n' := by
  rw [movesSeg, movesSeg]
  have hm : n'.num_moves - m = (n'.num_moves - (m + 1)) + 1 := by omega
  rw [hm, List.range_succ_eq_map, List.map_cons, List.map_map]
  refine congrArg₂ List.cons (by norm_num) (List.map_congr_left fun i _ => ?_)
  show n'.moves _ = n'.moves _
  congr 1
  push_cast
  ring

/-- Applying a move preserves well-formedness. -/
theorem applyMoveNode_wf (H : List Int → Int) (n : Node) (hwf : NodeWF H n)
    (mi : Nat) (hmi : mi < 16) (hne : mi ≠ n.empty_index) :
    NodeWF H (applyMoveNode H n mi) := by
  refine ⟨?_, ?_, ?_, rfl, ?_⟩
  · simp [applyMoveNode, hwf.len]
  · exact hmi
  · show ((n.board.set n.empty_index _).set mi 0).getD mi 0 = 0
    exact getD_set_self _ _ _ (by simp [hwf.len]; omega)
  · intro k hk
    show (if k = (n.num_moves : Int) then _ else n.moves k) = 0
    rw [if_neg (by simp [applyMoveNode] at hk; omega)]
    exact hwf.moves_hi k (by simp [applyMoveNode] at hk; omega)

/-- Record equality from field equalities. -/
theorem nodeEq {a b : Node} (h1 : a.board = b.board)
    (h2 : a.empty_index = b.empty_index) (h3 : a.heuristic = b.heuristic)
    (h4 : a.num_moves = b.num_moves) (h5 : a.moves = b.moves) : a = b := by
  cases a; cases b; simp_all

/-- The undo block applied right after the move block restores the node
exactly (this is the apply/undo identity on a single slide). -/
theorem undo_applyMove (H : List Int → Int) (n : Node) (hwf : NodeWF H n)
    (mi : Nat) (hmi : mi < 16) (hne : mi ≠ n.empty_index) :
    undoMoveNode (applyMoveNode H n mi) mi (n.board.getD mi 0) n.empty_index
      n.heuristic = n := by
  have hlen : n.board.length = 16 := hwf.len
  have hemp : n.empty_index < 16 := hwf.emp_lt
  have hzero : n.board.getD n.empty_index 0 = 0 := hwf.emp_zero
  apply nodeEq
  · show (((n.board.set n.empty_index (n.board.getD mi 0)).set mi 0).set mi
        (n.board.getD mi 0)).set n.empty_index 0 = n.board
    rw [List.set_set]
    have h2 : (n.board.set n.empty_index (n.board.getD mi 0)).getD mi 0 =
        n.board.getD mi 0 := getD_set_ne _ _ _ _ (fun hh => hne hh.symm)
    have h3 : (n.board.set n.empty_index (n.board.getD mi 0)).set mi
        (n.board.getD mi 0) = n.board.set n.empty_index (n.board.getD mi 0) := by
      have hlt : mi < (n.board.set n.empty_index (n.board.getD mi 0)).length := by
        rw [List.length_set, hlen]; omega
      have hs := set_self_of_getD (n.board.set n.empty_index (n.board.getD mi 0)) mi hlt
      rwa [h2] at hs
    have h4 : (n.board.set n.empty_index (n.board.getD mi 0)).set n.empty_index 0 =
        n.board.set n.empty_index 0 := List.set_set ..
    have h5 : n.board.set n.empty_index 0 = n.board := by
      conv_lhs => rw [← hzero]
      exact set_self_of_getD _ _ (by omega)
    rw [h3, h4, h5]
  · rfl
  · rfl
  · show n.num_moves + 1 - 1 = n.num_moves
    omega
  · funext x
    show (if x = (((n.num_moves + 1 : Nat) : Int)) - 1 then 0
      else if x = (n.num_moves : Int) then n.board.getD mi 0 else n.moves x) = n.moves x
    by_cases hx : x = (n.num_moves : Int)
    · rw [if_pos (by push_cast; omega), hx]
      exact (hwf.moves_hi _ (le_refl _)).symm
    · rw [if_neg (by push_cast; omega), if_neg hx]

/-- The contract of one `depth_first_search`-style result: if the `solved`
flag is not set the node is returned exactly as given; if it is set, the
returned node is well-formed, has heuristic 0, extends the given move list,
and its new moves form a legal slide sequence from the given board to the
returned board. -/
def ResultSpec (H : List Int → Int) (n : Node) (r : Node × Bool × Int) : Prop :=
  (r.2.1 = false → r.1 = n) ∧
  (r.2.1 = true → NodeWF H r.1 ∧ r.1.heuristic = 0 ∧
    n.num_moves ≤ r.1.num_moves ∧
    (∀ k : Int, k < (n.num_moves : Int) → r.1.moves k = n.moves k) ∧
    PathB n.board n.empty_index (movesSeg n.num_moves r.1)
      r.1.board r.1.empty_index)

/-- `ResultSpec` for every well-formed call. -/
def DfsSpec (H : List Int → Int) (f : Node → Int → Node × Bool × Int) : Prop :=
  ∀ n bound, NodeWF H n → ResultSpec H n (f n bound)

theorem dfsLoop_spec (H : List Int → Int) (rec : Node → Int → Node × Bool × Int)
    (hrec : DfsSpec H rec) :
    ∀ (ds : List Nat) (n : Node) (bound nb : Int), NodeWF H n →
      ResultSpec H n (dfsLoop H rec n bound ds nb) := by
  intro ds
  induction ds with
  | nil =>
      intro n bound nb hwf
      refine ⟨fun _ => rfl, fun hs => ?_⟩
      exact absurd hs (by simp [dfsLoop])
  | cons d ds ih =>
      intro n bound nb hwf
      rw [dfsLoop]
      by_cases hmi : validMove n.empty_index d = -1
      · rw [if_pos hmi]
        exact ih n bound nb hwf
      · rw [if_neg hmi]
        rcases validMove_spec n.empty_index hwf.emp_lt d with hmi' | ⟨-, hlt, hnee, hd4⟩
        · exact absurd hmi' hmi
        by_cases hguard :
            parentGuard n (n.board.getD (validMove n.empty_index d).toNat 0) = false
        · rw [if_pos hguard]
          exact ih n bound nb hwf
        · rw [if_neg hguard]
          set mi : Nat := (validMove n.empty_index d).toNat with hmi_def
          set tile : Int := n.board.getD mi 0 with htile_def
          have wf1 : NodeWF H (applyMoveNode H n mi) :=
            applyMoveNode_wf H n hwf mi hlt hnee
          have hn1num : (applyMoveNode H n mi).num_moves = n.num_moves + 1 := rfl
          have hundo :
              undoMoveNode (applyMoveNode H n mi) mi tile n.empty_index n.heuristic = n :=
            undo_applyMove H n hwf mi hlt hnee
          have hstep : StepB n.board n.empty_index tile
              (applyMoveNode H n mi).board (applyMoveNode H n mi).empty_index :=
            ⟨d, hd4, hmi, rfl, rfl, rfl⟩
          have hsolved_case : ∀ r1 : Node × Bool × Int,
              ResultSpec H (applyMoveNode H n mi) r1 → r1.2.1 = true →
              ∀ z : Int, ResultSpec H n (r1.1, true, z) := by
            intro r1 spec1 hs z
            obtain ⟨wf2, h0, hnum, hpre, hpath⟩ := spec1.2 hs
            refine ⟨fun hc => absurd hc (by simp), fun _ => ⟨wf2, h0, ?_, ?_, ?_⟩⟩
            · show n.num_moves ≤ r1.1.num_moves
              omega
            · intro k hk
              show r1.1.moves k = n.moves k
              have hk1 : k < ((applyMoveNode H n mi).num_moves : Int) := by
                rw [hn1num]; push_cast; omega
              rw [hpre k hk1]
              show (if k = (n.num_moves : Int) then tile else n.moves k) = n.moves k
              rw [if_neg (by omega)]
            · show PathB n.board n.empty_index (movesSeg n.num_moves r1.1)
                r1.1.board r1.1.empty_index
              have hcons : movesSeg n.num_moves r1.1 =
                  r1.1.moves (n.num_moves : Int) :: movesSeg (n.num_moves + 1) r1.1 :=
                movesSeg_cons n.num_moves r1.1 (by omega)
              rw [hcons]
              have hmv : r1.1.moves (n.num_moves : Int) = tile := by
                have hp := hpre (n.num_moves : Int) (by rw [hn1num]; push_cast; omega)
                rw [hp]
                show (if ((n.num_moves : Int)) = (n.num_moves : Int) then tile
                  else n.moves _) = tile
                rw [if_pos rfl]
              rw [hmv]
              exact PathB.cons hstep hpath
          by_cases hb : 1 + (applyMoveNode H n mi).heuristic ≤ bound
          · rw [if_pos hb]
            have spec1 := hrec (applyMoveNode H n mi) (bound - 1) wf1
            by_cases hs : (rec (applyMoveNode H n mi) (bound - 1)).2.1 = true
            · rw [if_pos hs]
              exact hsolved_case _ spec1 hs _
            · rw [if_neg hs]
              rw [Bool.not_eq_true] at hs
              have hr1 : (rec (applyMoveNode H n mi) (bound - 1)).1 =
                  applyMoveNode H n mi := spec1.1 hs
              rw [hr1, hundo]
              exact ih n bound _ hwf
          · rw [if_neg hb]
            rw [hundo]
            exact ih n bound _ hwf

/-- Every fuel level of `depth_first_search` satisfies the contract. -/
theorem dfs_spec (H : List Int → Int) :
    ∀ fuel : Nat, DfsSpec H (depth_first_search H fuel) := by
  intro fuel
  induction fuel with
  | zero =>
      intro n bound hwf
      rw [depth_first_search]
      by_cases h0 : n.heuristic = 0
      · rw [if_pos h0]
        refine ⟨fun hc => absurd hc (by simp), fun _ => ⟨hwf, h0, le_refl _, fun k _ => rfl, ?_⟩⟩
        rw [movesSeg_self]
        exact PathB.nil _ _
      · rw [if_neg h0]
        exact ⟨fun _ => rfl, fun hc => absurd hc (by simp)⟩
  | succ fuel ihf =>
      intro n bound hwf
      rw [depth_first_search]
      by_cases h0 : n.heuristic = 0
      · rw [if_pos h0]
        refine ⟨fun hc => absurd hc (by simp), fun _ => ⟨hwf, h0, le_refl _, fun k _ => rfl, ?_⟩⟩
        rw [movesSeg_self]
        exact PathB.nil _ _
      · rw [if_neg h0]
        exact dfsLoop_spec H _ ihf [0, 1, 2, 3] n bound intMax hwf

/-- Claim C8: whenever `depth_first_search` returns without the solved flag
set, the node it was given is restored exactly — board, empty index,
heuristic, `num_moves` and the whole moves array (the last requires the
call-site invariant that slots from `num_moves` on are zero, which the
zero-initialized root establishes and every call preserves); when the
solved flag is set, the node instead holds a solved board together with the
path of slides leading to it from the entry state. -/
theorem dfs_frame_spec (H : List Int → Int)
    (hH : ∀ b, H b = 0 → is_solved b = true)
    (fuel : Nat) (n : Node) (bound : Int) (hwf : NodeWF H n) :
    ((depth_first_search H fuel n bound).2.1 = false →
      (depth_first_search H fuel n bound).1 = n) ∧
    ((depth_first_search H fuel n bound).2.1 = true →
      is_solved (depth_first_search H fuel n bound).1.board = true ∧
      n.num_moves ≤ (depth_first_search H fuel n bound).1.num_moves ∧
      (∀ k : Int, k < (n.num_moves : Int) →
        (depth_first_search H fuel n bound).1.moves k = n.moves k) ∧
      PathB n.board n.empty_index
        (movesSeg n.num_moves (depth_first_search H fuel n bound).1)
        (depth_first_search H fuel n bound).1.board
        (depth_first_search H fuel n bound).1.empty_index) := by
  obtain ⟨hf, hsol⟩ := dfs_spec H fuel n bound hwf
  refine ⟨hf, fun hs => ?_⟩
  obtain ⟨wf2, h0, hnum, hpre, hpath⟩ := hsol hs
  exact ⟨hH _ (by rw [← wf2.heur]; exact h0), hnum, hpre, hpath⟩

/-- Well-formedness of the zero-initialized solved-board root node. -/
theorem zeroRootNode_wf : NodeWF simpleH zeroRootNode :=
  ⟨by decide, by decide, by decide, by decide, fun k _ => rfl⟩

/-- Witness for C8 at the solved-board root with the `simpleH` heuristic. -/
theorem dfs_frame_spec_witness :
    ((∀ b, simpleH b = 0 → is_solved b = true) ∧ NodeWF simpleH zeroRootNode) ∧
    ((depth_first_search simpleH 3 zeroRootNode 0).2.1 = true →
      is_solved (depth_first_search simpleH 3 zeroRootNode 0).1.board = true ∧
      zeroRootNode.num_moves ≤ (depth_first_search simpleH 3 zeroRootNode 0).1.num_moves ∧
      (∀ k : Int, k < (zeroRootNode.num_moves : Int) →
        (depth_first_search simpleH 3 zeroRootNode 0).1.moves k = zeroRootNode.moves k) ∧
      PathB zeroRootNode.board zeroRootNode.empty_index
        (movesSeg zeroRootNode.num_moves (depth_first_search simpleH 3 zeroRootNode 0).1)
        (depth_first_search simpleH 3 zeroRootNode 0).1.board
        (depth_first_search simpleH 3 zeroRootNode 0).1.empty_index) :=
  ⟨⟨simpleH_zero, zeroRootNode_wf⟩,
    (dfs_frame_spec simpleH simpleH_zero 3 zeroRootNode 0 zeroRootNode_wf).2⟩

/-! ## Swap chains: bookkeeping for the quicksort swap counter (C3) -/

/-- The transposition of positions `i` and `j` as a function on indices. -/
def swapFun (i j : Nat) : Nat → Nat :=
  fun x => if x = i then j else if x = j then i else x

/-- Apply a list of position swaps to an array, left to right. -/
def applySwaps (f : Nat → Int) : List (Nat × Nat) → (Nat → Int)
  | [] => f
  | p :: l => applySwaps (fun x => f (swapFun p.1 p.2 x)) l

/-- The index permutation of a swap list (so that
`applySwaps f l = f ∘ gOf l`). -/
def gOf : List (Nat × Nat) → Nat → Nat
  | [] => id
  | p :: l => swapFun p.1 p.2 ∘ gOf l

/-- All swaps of the list act on positions within `[lo, hi]` and exchange
two distinct positions. -/
def SwapsIn (lo hi : Nat) (l : List (Nat × Nat)) : Prop :=
  ∀ p ∈ l, lo ≤ p.1 ∧ p.1 ≤ hi ∧ lo ≤ p.2 ∧ p.2 ≤ hi ∧ p.1 ≠ p.2

theorem applySwaps_eq_comp (l : List (Nat × Nat)) :
    ∀ f : Nat → Int, applySwaps f l = f ∘ gOf l := by
  induction l with
  | nil => intro f; rfl
  | cons p l ih =>
      intro f
      show applySwaps (fun x => f (swapFun p.1 p.2 x)) l = f ∘ (swapFun p.1 p.2 ∘ gOf l)
      rw [ih (fun x => f (swapFun p.1 p.2 x))]
      rfl

theorem applySwaps_append (l1 l2 : List (Nat × Nat)) :
    ∀ f : Nat → Int, applySwaps f (l1 ++ l2) = applySwaps (applySwaps f l1) l2 := by
  induction l1 with
  | nil => intro f; rfl
  | cons p l1 ih => intro f; exact ih _

theorem swapFun_avoid {i j x : Nat} (hi : i ≠ x) (hj : j ≠ x) : swapFun i j x = x := by
  rw [swapFun, if_neg (fun h => hi h.symm), if_neg (fun h => hj h.symm)]

theorem gOf_avoid {l : List (Nat × Nat)} {x : Nat}
    (h : ∀ p ∈ l, p.1 ≠ x ∧ p.2 ≠ x) : gOf l x = x := by
  induction l with
  | nil => rfl
  | cons p l ih =>
      obtain ⟨h1, h2⟩ := h p (List.mem_cons_self ..)
      show swapFun p.1 p.2 (gOf l x) = x
      rw [ih (fun q hq => h q (List.mem_cons_of_mem _ hq))]
      exact swapFun_avoid h1 h2

theorem applySwaps_avoid {l : List (Nat × Nat)} {x : Nat} (f : Nat → Int)
    (h : ∀ p ∈ l, p.1 ≠ x ∧ p.2 ≠ x) : applySwaps f l x = f x := by
  rw [applySwaps_eq_comp]
  show f (gOf l x) = f x
  rw [gOf_avoid h]

theorem applySwaps_outside {lo hi : Nat} {l : List (Nat × Nat)} (f : Nat → Int)
    (hl : SwapsIn lo hi l) {x : Nat} (hx : x < lo ∨ hi < x) :
    applySwaps f l x = f x := by
  refine applySwaps_avoid f fun p hp => ?_
  obtain ⟨a, b, c, d, -⟩ := hl p hp
  omega

theorem swapFun_range {lo hi i j x : Nat} (hij : lo ≤ i ∧ i ≤ hi ∧ lo ≤ j ∧ j ≤ hi)
    (hx : lo ≤ x ∧ x ≤ hi) : lo ≤ swapFun i j x ∧ swapFun i j x ≤ hi := by
  rw [swapFun]
  split
  · omega
  · split <;> omega

theorem gOf_range {lo hi : Nat} {l : List (Nat × Nat)} (hl : SwapsIn lo hi l)
    {x : Nat} (hx : lo ≤ x ∧ x ≤ hi) : lo ≤ gOf l x ∧ gOf l x ≤ hi := by
  induction l with
  | nil => exact hx
  | cons p l ih =>
      obtain ⟨a, b, c, d, -⟩ := hl p (List.mem_cons_self ..)
      have hrec := ih (fun q hq => hl q (List.mem_cons_of_mem _ hq))
      show lo ≤ swapFun p.1 p.2 (gOf l x) ∧ swapFun p.1 p.2 (gOf l x) ≤ hi
      exact swapFun_range ⟨a, b, c, d⟩ hrec

theorem swapFun_invol (i j x : Nat) : swapFun i j (swapFun i j x) = x := by
  simp only [swapFun]
  by_cases h1 : x = i <;> by_cases h2 : x = j <;> by_cases h3 : j = i <;> simp_all

theorem swapFun_bij (i j : Nat) : Function.Bijective (swapFun i j) :=
  Function.bijective_iff_has_inverse.mpr
    ⟨swapFun i j, swapFun_invol i j, swapFun_invol i j⟩

theorem gOf_bij (l : List (Nat × Nat)) : Function.Bijective (gOf l) := by
  induction l with
  | nil => exact Function.bijective_id
  | cons p l ih => exact (swapFun_bij p.1 p.2).comp ih

/-- `swap` of the C source either does nothing (equal cells) or applies one
counted transposition of two cells holding distinct values. -/
theorem swapC_chain (f : Nat → Int) (i j : Nat) (c : Nat) :
    ∃ l : List (Nat × Nat),
      (∀ p ∈ l, (p.1 = i ∧ p.2 = j)) ∧ (∀ p ∈ l, p.1 ≠ p.2) ∧
      (swapC f i j c).1 = applySwaps f l ∧ (swapC f i j c).2 = c + l.length := by
  by_cases heq : f i = f j
  · refine ⟨[], by simp, by simp, ?_, ?_⟩ <;> simp [swapC, heq, applySwaps]
  · refine ⟨[(i, j)], by simp, ?_, ?_, ?_⟩
    · intro p hp
      rw [List.mem_singleton] at hp
      subst hp
      intro hij
      exact heq (by rw [show i = j from hij])
    · show (swapC f i j c).1 = fun x => f (swapFun i j x)
      rw [swapC, if_neg heq]
      funext x
      rw [swapFun]
      show (if x = i then f j else if x = j then f i else f x) =
        f (if x = i then j else if x = j then i else x)
      by_cases hxi : x = i
      · rw [if_pos hxi, if_pos hxi]
      · by_cases hxj : x = j
        · rw [if_neg hxi, if_pos hxj, if_neg hxi, if_pos hxj]
        · rw [if_neg hxi, if_neg hxj, if_neg hxi, if_neg hxj]
    · simp [swapC, heq]

/-- Pointwise evaluation of the C `swap`. -/
theorem swapC_eval (f : Nat → Int) (i j : Nat) (c : Nat) :
    (swapC f i j c).1 i = f j ∧ (swapC f i j c).1 j = f i ∧
    ∀ x, x ≠ i → x ≠ j → (swapC f i j c).1 x = f x := by
  by_cases heq : f i = f j
  · rw [swapC, if_pos heq]
    exact ⟨heq, heq.symm, fun x _ _ => rfl⟩
  · rw [swapC, if_neg heq]
    refine ⟨?_, ?_, ?_⟩
    · show (if i = i then f j else _) = f j
      rw [if_pos rfl]
    · show (if j = i then f j else if j = j then f i else f j) = f i
      by_cases hji : j = i
      · rw [if_pos hji, hji]
      · rw [if_neg hji, if_pos rfl]
    · intro x hxi hxj
      show (if x = i then f j else if x = j then f i else f x) = f x
      rw [if_neg hxi, if_neg hxj]

/-- Full specification of the Lomuto partition loop `partGo`: it permutes
cells strictly below `high` by counted swaps, leaves the pivot value in
place, and ends with values `<=` pivot below the final `pivot_index` and
values `>` pivot between it and `high`. -/
theorem partGo_spec (low : Nat) :
    ∀ (fuel : Nat) (f : Nat → Int) (i pv c high : Nat),
    low ≤ pv → pv ≤ i → high = i + fuel →
    (∀ x, low ≤ x → x < pv → f x ≤ f high) →
    (∀ x, pv ≤ x → x < i → f high < f x) →
    ∃ l : List (Nat × Nat), SwapsIn low high l ∧
      (∀ p ∈ l, p.1 ≠ high ∧ p.2 ≠ high) ∧
      (partGo fuel f i high pv c).1 = applySwaps f l ∧
      (partGo fuel f i high pv c).2.2 = c + l.length ∧
      pv ≤ (partGo fuel f i high pv c).2.1 ∧
      (partGo fuel f i high pv c).2.1 ≤ high ∧
      (∀ x, low ≤ x → x < (partGo fuel f i high pv c).2.1 →
        (partGo fuel f i high pv c).1 x ≤ f high) ∧
      (∀ x, (partGo fuel f i high pv c).2.1 ≤ x → x < high →
        f high < (partGo fuel f i high pv c).1 x) := by
  intro fuel
  induction fuel with
  | zero =>
      intro f i pv c high hlp hpi hhigh hinv1 hinv2
      refine ⟨[], by intro p hp; simp at hp, by intro p hp; simp at hp,
        rfl, by simp [partGo], le_refl _, (show pv ≤ high by omega), ?_, ?_⟩
      · intro x h1 h2
        exact hinv1 x h1 h2
      · intro x h1 h2
        exact hinv2 x h1 (by omega)
  | succ fuel ih =>
      intro f i pv c high hlp hpi hhigh hinv1 hinv2
      have hih : i < high := by omega
      rw [partGo, if_pos hih]
      by_cases hle : f i ≤ f high
      · rw [if_pos hle]
        obtain ⟨l0, hl0p, hl0d, hf1, hc1⟩ := swapC_chain f i pv c
        obtain ⟨hei, hej, hex⟩ := swapC_eval f i pv c
        have hf1high : (swapC f i pv c).1 high = f high :=
          hex high (by omega) (by omega)
        have hinv1' : ∀ x, low ≤ x → x < pv + 1 →
            (swapC f i pv c).1 x ≤ (swapC f i pv c).1 high := by
          intro x h1 h2
          rw [hf1high]
          by_cases hxpv : x = pv
          · rw [hxpv, hej]
            exact hle
          · rw [hex x (by omega) hxpv]
            exact hinv1 x h1 (by omega)
        have hinv2' : ∀ x, pv + 1 ≤ x → x < i + 1 →
            (swapC f i pv c).1 high < (swapC f i pv c).1 x := by
          intro x h1 h2
          rw [hf1high]
          by_cases hxi : x = i
          · rw [hxi, hei]
            exact hinv2 pv (le_refl _) (by omega)
          · rw [hex x hxi (by omega)]
            exact hinv2 x (by omega) (by omega)
        obtain ⟨l1, hl1in, hl1nh, hq1, hq2, hq3, hq4, hq5, hq6⟩ :=
          ih (swapC f i pv c).1 (i + 1) (pv + 1) (swapC f i pv c).2 high
            (by omega) (by omega) (by omega) hinv1' hinv2'
        refine ⟨l0 ++ l1, ?_, ?_, ?_, ?_, by omega, hq4, ?_, ?_⟩
        · intro p hp
          rcases List.mem_append.mp hp with hp0 | hp1
          · obtain ⟨hpi', hpj'⟩ := hl0p p hp0
            have := hl0d p hp0
            omega
          · exact hl1in p hp1
        · intro p hp
          rcases List.mem_append.mp hp with hp0 | hp1
          · obtain ⟨hpi', hpj'⟩ := hl0p p hp0
            omega
          · exact hl1nh p hp1
        · rw [applySwaps_append, ← hf1, hq1]
        · rw [hq2, hc1, List.length_append]
          omega
        · intro x h1 h2
          rw [← hf1high]
          exact hq5 x h1 h2
        · intro x h1 h2
          rw [← hf1high]
          exact hq6 x h1 h2
      · rw [if_neg hle]
        have hinv2' : ∀ x, pv ≤ x → x < i + 1 → f high < f x := by
          intro x h1 h2
          by_cases hxi : x = i
          · rw [hxi]; omega
          · exact hinv2 x h1 (by omega)
        exact ih f (i + 1) pv c high hlp (by omega) (by omega) hinv1 hinv2'

/-- Full specification of the C quicksort with enough fuel: the result is
the input permuted by a chain of counted transpositions inside
`[low, high]`, and it is sorted on `[low, high]`. -/
theorem quicksortC_spec :
    ∀ (fuel : Nat) (f : Nat → Int) (low high c : Nat), high ≤ low + fuel →
    ∃ l : List (Nat × Nat), SwapsIn low high l ∧
      (quicksortC fuel f low high c).1 = applySwaps f l ∧
      (quicksortC fuel f low high c).2 = c + l.length ∧
      (∀ x y, low ≤ x → x ≤ y → y ≤ high →
        (quicksortC fuel f low high c).1 x ≤ (quicksortC fuel f low high c).1 y) := by
  intro fuel
  induction fuel with
  | zero =>
      intro f low high c hfuel
      refine ⟨[], by intro p hp; simp at hp, rfl, by simp [quicksortC], ?_⟩
      intro x y h1 h2 h3
      have hxy : x = y := by omega
      rw [hxy]
  | succ fuel ih =>
      intro f low high c hfuel
      by_cases hlh : low < high
      · rw [quicksortC, if_pos hlh]
        simp only [qsPivot, qsPart]
        obtain ⟨l1, hl1in, hl1nh, hp1, hp2, hp3, hp4, hp5, hp6⟩ :=
          partGo_spec low (high - low) f low low c high (le_refl _) (le_refl _)
            (by omega) (fun x hx1 hx2 => absurd hx2 (by omega))
            (fun x hx1 hx2 => absurd hx2 (by omega))
        have hP1high : (partGo (high - low) f low high low c).1 high = f high := by
          rw [hp1]
          exact applySwaps_avoid f hl1nh
        obtain ⟨l2, hl2p, hl2d, hS1, hS2⟩ :=
          swapC_chain (partGo (high - low) f low high low c).1
            (partGo (high - low) f low high low c).2.1 high
            (partGo (high - low) f low high low c).2.2
        obtain ⟨hei, hej, hex⟩ :=
          swapC_eval (partGo (high - low) f low high low c).1
            (partGo (high - low) f low high low c).2.1 high
            (partGo (high - low) f low high low c).2.2
        have hSpv : (swapC (partGo (high - low) f low high low c).1
            (partGo (high - low) f low high low c).2.1 high
            (partGo (high - low) f low high low c).2.2).1
            (partGo (high - low) f low high low c).2.1 = f high := by
          rw [hei, hP1high]
        have hSle : ∀ x, low ≤ x → x < (partGo (high - low) f low high low c).2.1 →
            (swapC (partGo (high - low) f low high low c).1
              (partGo (high - low) f low high low c).2.1 high
              (partGo (high - low) f low high low c).2.2).1 x ≤ f high := by
          intro x h1 h2
          rw [hex x (by omega) (by omega)]
          exact hp5 x h1 h2
        have hSgt : ∀ x, (partGo (high - low) f low high low c).2.1 < x → x ≤ high →
            f high < (swapC (partGo (high - low) f low high low c).1
              (partGo (high - low) f low high low c).2.1 high
              (partGo (high - low) f low high low c).2.2).1 x := by
          intro x h1 h2
          by_cases hxh : x = high
          · rw [hxh, hej]
            exact hp6 _ (le_refl _) (by omega)
          · rw [hex x (by omega) hxh]
            exact hp6 x (by omega) (by omega)
        obtain ⟨l3, hl3in, hL1, hL2, hLsort⟩ :=
          ih (swapC (partGo (high - low) f low high low c).1
              (partGo (high - low) f low high low c).2.1 high
              (partGo (high - low) f low high low c).2.2).1
            low ((partGo (high - low) f low high low c).2.1 - 1)
            (swapC (partGo (high - low) f low high low c).1
              (partGo (high - low) f low high low c).2.1 high
              (partGo (high - low) f low high low c).2.2).2
            (by omega)
        have hl3avoid : ∀ x, (partGo (high - low) f low high low c).2.1 ≤ x →
            ∀ p ∈ l3, p.1 ≠ x ∧ p.2 ≠ x := by
          intro x hx p hp
          obtain ⟨a, b, c', d, e⟩ := hl3in p hp
          omega
        have hLpres : ∀ x, (partGo (high - low) f low high low c).2.1 ≤ x →
            (quicksortC fuel (swapC (partGo (high - low) f low high low c).1
              (partGo (high - low) f low high low c).2.1 high
              (partGo (high - low) f low high low c).2.2).1
              low ((partGo (high - low) f low high low c).2.1 - 1)
              (swapC (partGo (high - low) f low high low c).1
                (partGo (high - low) f low high low c).2.1 high
                (partGo (high - low) f low high low c).2.2).2).1 x =
            (swapC (partGo (high - low) f low high low c).1
              (partGo (high - low) f low high low c).2.1 high
              (partGo (high - low) f low high low c).2.2).1 x := by
          intro x hx
          rw [hL1]
          exact applySwaps_avoid _ (hl3avoid x hx)
        have hLle : ∀ x, low ≤ x → x < (partGo (high - low) f low high low c).2.1 →
            (quicksortC fuel (swapC (partGo (high - low) f low high low c).1
              (partGo (high - low) f low high low c).2.1 high
              (partGo (high - low) f low high low c).2.2).1
              low ((partGo (high - low) f low high low c).2.1 - 1)
              (swapC (partGo (high - low) f low high low c).1
                (partGo (high - low) f low high low c).2.1 high
                (partGo (high - low) f low high low c).2.2).2).1 x ≤ f high := by
          intro x h1 h2
          rw [hL1, applySwaps_eq_comp]
          have hg := gOf_range hl3in (x := x) ⟨h1, by omega⟩
          exact hSle _ (by omega) (by omega)
        obtain ⟨l4, hl4in, hR1, hR2, hRsort⟩ :=
          ih (quicksortC fuel (swapC (partGo (high - low) f low high low c).1
              (partGo (high - low) f low high low c).2.1 high
              (partGo (high - low) f low high low c).2.2).1
              low ((partGo (high - low) f low high low c).2.1 - 1)
              (swapC (partGo (high - low) f low high low c).1
                (partGo (high - low) f low high low c).2.1 high
                (partGo (high - low) f low high low c).2.2).2).1
            ((partGo (high - low) f low high low c).2.1 + 1) high
            (quicksortC fuel (swapC (partGo (high - low) f low high low c).1
              (partGo (high - low) f low high low c).2.1 high
              (partGo (high - low) f low high low c).2.2).1
              low ((partGo (high - low) f low high low c).2.1 - 1)
              (swapC (partGo (high - low) f low high low c).1
                (partGo (high - low) f low high low c).2.1 high
                (partGo (high - low) f low high low c).2.2).2).2
            (by omega)
        have hl4avoid : ∀ x, x ≤ (partGo (high - low) f low high low c).2.1 →
            ∀ p ∈ l4, p.1 ≠ x ∧ p.2 ≠ x := by
          intro x hx p hp
          obtain ⟨a, b, c', d, e⟩ := hl4in p hp
          omega
        have hRpres : ∀ x, x ≤ (partGo (high - low) f low high low c).2.1 →
            (quicksortC fuel (quicksortC fuel (swapC (partGo (high - low) f low high low c).1
                (partGo (high - low) f low high low c).2.1 high
                (partGo (high - low) f low high low c).2.2).1
                low ((partGo (high - low) f low high low c).2.1 - 1)
                (swapC (partGo (high - low) f low high low c).1
                  (partGo (high - low) f low high low c).2.1 high
                  (partGo (high - low) f low high low c).2.2).2).1
              ((partGo (high - low) f low high low c).2.1 + 1) high
              (quicksortC fuel (swapC (partGo (high - low) f low high low c).1
                (partGo (high - low) f low high low c).2.1 high
                (partGo (high - low) f low high low c).2.2).1
                low ((partGo (high - low) f low high low c).2.1 - 1)
                (swapC (partGo (high - low) f low high low c).1
                  (partGo (high - low) f low high low c).2.1 high
                  (partGo (high - low) f low high low c).2.2).2).2).1 x =
            (quicksortC fuel (swapC (partGo (high - low) f low high low c).1
              (partGo (high - low) f low high low c).2.1 high
              (partGo (high - low) f low high low c).2.2).1
              low ((partGo (high - low) f low high low c).2.1 - 1)
              (swapC (partGo (high - low) f low high low c).1
                (partGo (high - low) f low high low c).2.1 high
                (partGo (high - low) f low high low c).2.2).2).1 x := by
          intro x hx
          rw [hR1]
          exact applySwaps_avoid _ (hl4avoid x hx)
        have hRgt : ∀ x, (partGo (high - low) f low high low c).2.1 < x → x ≤ high →
            f high <
            (quicksortC fuel (quicksortC fuel (swapC (partGo (high - low) f low high low c).1
                (partGo (high - low) f low high low c).2.1 high
                (partGo (high - low) f low high low c).2.2).1
                low ((partGo (high - low) f low high low c).2.1 - 1)
                (swapC (partGo (high - low) f low high low c).1
                  (partGo (high - low) f low high low c).2.1 high
                  (partGo (high - low) f low high low c).2.2).2).1
              ((partGo (high - low) f low high low c).2.1 + 1) high
              (quicksortC fuel (swapC (partGo (high - low) f low high low c).1
                (partGo (high - low) f low high low c).2.1 high
                (partGo (high - low) f low high low c).2.2).1
                low ((partGo (high - low) f low high low c).2.1 - 1)
                (swapC (partGo (high - low) f low high low c).1
                  (partGo (high - low) f low high low c).2.1 high
                  (partGo (high - low) f low high low c).2.2).2).2).1 x := by
          intro x h1 h2
          rw [hR1, applySwaps_eq_comp]
          have hg := gOf_range hl4in (x := x) ⟨by omega, h2⟩
          have := hLpres (gOf l4 x) (by omega)
          show f high < (quicksortC fuel _ low _ _).1 (gOf l4 x)
          rw [this]
          exact hSgt _ (by omega) (by omega)
        refine ⟨l1 ++ l2 ++ l3 ++ l4, ?_, ?_, ?_, ?_⟩
        · intro p hp
          rcases List.mem_append.mp hp with hp' | hp4
          · rcases List.mem_append.mp hp' with hp'' | hp3
            · rcases List.mem_append.mp hp'' with hp1' | hp2'
              · exact hl1in p hp1'
              · obtain ⟨ha, hb⟩ := hl2p p hp2'
                have := hl2d p hp2'
                omega
            · obtain ⟨a, b, c', d, e⟩ := hl3in p hp3
              omega
          · obtain ⟨a, b, c', d, e⟩ := hl4in p hp4
            omega
        · rw [applySwaps_append, applySwaps_append, applySwaps_append,
            ← hp1, ← hS1, ← hL1, ← hR1]
        · rw [hR2, hL2, hS2, hp2]
          simp only [List.length_append]
          omega
        · intro x y hx hxy hy
          by_cases hx2 : x < (partGo (high - low) f low high low c).2.1
          · have hvx : _ ≤ f high := hLle x hx hx2
            rw [hRpres x (by omega)]
            by_cases hy2 : y < (partGo (high - low) f low high low c).2.1
            · rw [hRpres y (by omega)]
              exact hLsort x y hx hxy (by omega)
            · by_cases hy3 : y = (partGo (high - low) f low high low c).2.1
              · rw [hy3, hRpres _ (le_refl _), hLpres _ (le_refl _), hSpv]
                exact hvx
              · have := hRgt y (by omega) hy
                omega
          · by_cases hx3 : x = (partGo (high - low) f low high low c).2.1
            · by_cases hy2 : y = (partGo (high - low) f low high low c).2.1
              · rw [hx3, hy2]
              · have := hRgt y (by omega) hy
                rw [hx3]
                rw [hRpres _ (le_refl _), hLpres _ (le_refl _), hSpv]
                omega
            · exact hRsort x y (by omega) hxy hy
      · rw [quicksortC, if_neg hlh]
        refine ⟨[], by intro p hp; simp at hp, rfl, by simp, ?_⟩
        intro x y h1 h2 h3
        have hxy : x = y := by omega
        rw [hxy]

/-! ## From swap chains to permutation parity -/

/-- Embed a board index into `Fin 16` (indices of interest are `<= 15`). -/
def finOf (a : Nat) : Fin 16 := ⟨a % 16, Nat.mod_lt a (by norm_num)⟩

/-- The permutation of `Fin 16` performed by a swap list. -/
def permFin : List (Nat × Nat) → Equiv.Perm (Fin 16)
  | [] => 1
  | p :: l => Equiv.swap (finOf p.1) (finOf p.2) * permFin l

theorem permFin_eval {lo hi : Nat} {l : List (Nat × Nat)} (hl : SwapsIn lo hi l)
    (hhi : hi ≤ 15) : ∀ x : Fin 16, ((permFin l x : Fin 16) : Nat) = gOf l (x : Nat) := by
  induction l with
  | nil => intro x; rfl
  | cons p l ih =>
      intro x
      obtain ⟨ha, hb, hc, hd, he⟩ := hl p (List.mem_cons_self ..)
      have hih := ih (fun q hq => hl q (List.mem_cons_of_mem _ hq)) x
      show ((Equiv.swap (finOf p.1) (finOf p.2)) (permFin l x) : Nat) =
        swapFun p.1 p.2 (gOf l (x : Nat))
      rw [← hih]
      generalize permFin l x = y
      have h1 : p.1 % 16 = p.1 := Nat.mod_eq_of_lt (by omega)
      have h2 : p.2 % 16 = p.2 := Nat.mod_eq_of_lt (by omega)
      have hiff1 : (y = finOf p.1) ↔ ((y : Nat) = p.1) := by
        rw [Fin.ext_iff]
        simp [finOf, h1]
      have hiff2 : (y = finOf p.2) ↔ ((y : Nat) = p.2) := by
        rw [Fin.ext_iff]
        simp [finOf, h2]
      rw [Equiv.swap_apply_def, swapFun]
      by_cases hy1 : (y : Nat) = p.1
      · rw [if_pos (hiff1.mpr hy1), if_pos hy1]
        simp [finOf, h2]
      · rw [if_neg (fun hh => hy1 (hiff1.mp hh)), if_neg hy1]
        by_cases hy2 : (y : Nat) = p.2
        · rw [if_pos (hiff2.mpr hy2), if_pos hy2]
          simp [finOf, h1]
        · rw [if_neg (fun hh => hy2 (hiff2.mp hh)), if_neg hy2]

theorem permFin_sign {lo hi : Nat} {l : List (Nat × Nat)} (hl : SwapsIn lo hi l)
    (hhi : hi ≤ 15) : Equiv.Perm.sign (permFin l) = (-1 : ℤˣ) ^ l.length := by
  induction l with
  | nil => simp [permFin]
  | cons p l ih =>
      obtain ⟨ha, hb, hc, hd, he⟩ := hl p (List.mem_cons_self ..)
      have h1 : p.1 % 16 = p.1 := Nat.mod_eq_of_lt (by omega)
      have h2 : p.2 % 16 = p.2 := Nat.mod_eq_of_lt (by omega)
      have hne : finOf p.1 ≠ finOf p.2 := by
        intro hh
        rw [Fin.ext_iff] at hh
        simp only [finOf] at hh
        rw [h1, h2] at hh
        exact he hh
      show Equiv.Perm.sign (Equiv.swap (finOf p.1) (finOf p.2) * permFin l) = _
      rw [Equiv.Perm.sign_mul, Equiv.Perm.sign_swap hne,
        ih (fun q hq => hl q (List.mem_cons_of_mem _ hq))]
      rw [List.length_cons, pow_succ]
      exact mul_comm _ _

/-- A map that is monotone and injective on `[0,15]` with values in
`[1,16]` is forced to be `x + 1`. -/
theorem sorted_inj_identity (f : Nat → Int)
    (hmono : ∀ x y, x ≤ y → y ≤ 15 → f x ≤ f y)
    (hinj : ∀ x y, x ≤ 15 → y ≤ 15 → f x = f y → x = y)
    (hrange : ∀ x, x ≤ 15 → 1 ≤ f x ∧ f x ≤ 16) :
    ∀ x, x ≤ 15 → f x = (x : Int) + 1 := by
  have hstrict : ∀ x y, x < y → y ≤ 15 → f x < f y := by
    intro x y h1 h2
    refine lt_of_le_of_ne (hmono x y (by omega) h2) fun he => ?_
    have := hinj x y (by omega) h2 he
    omega
  have hlow : ∀ x : Nat, x ≤ 15 → (x : Int) + 1 ≤ f x := by
    intro x
    induction x with
    | zero =>
        intro _
        have h0 := (hrange 0 (by omega)).1
        push_cast
        omega
    | succ n ihn =>
        intro hx
        have h1 := ihn (by omega)
        have h2 := hstrict n (n + 1) (by omega) hx
        push_cast
        push_cast at h1
        omega
  have hhigh : ∀ k : Nat, k ≤ 15 → f (15 - k) ≤ 16 - (k : Int) := by
    intro k
    induction k with
    | zero =>
        intro _
        have h15 := (hrange 15 (le_refl _)).2
        have he : (15 : Nat) - 0 = 15 := rfl
        rw [he]
        push_cast
        omega
    | succ n ihn =>
        intro hk
        have h1 := ihn (by omega)
        have h2 : f (15 - (n + 1)) < f (15 - n) := hstrict _ _ (by omega) (by omega)
        have he : (15 : Nat) - (n + 1) = 14 - n := by omega
        rw [he] at h2
        push_cast
        push_cast at h1
        omega
  intro x hx
  have ha := hlow x hx
  have hb := hhigh (15 - x) (by omega)
  have hc : 15 - (15 - x) = x := by omega
  rw [hc] at hb
  have hd : ((15 - x : Nat) : Int) = 15 - (x : Int) := by omega
  rw [hd] at hb
  omega

/-- `(-1)^m = (-1)^k` in `ℤˣ` exactly when `m` and `k` have the same
parity. -/
theorem neg_one_pow_eq_iff (m k : Nat) :
    ((-1 : ℤˣ) ^ m = (-1 : ℤˣ) ^ k) ↔ m % 2 = k % 2 := by
  rcases Nat.even_or_odd m with hm | hm <;> rcases Nat.even_or_odd k with hk | hk
  · rw [Even.neg_one_pow hm, Even.neg_one_pow hk]
    rw [Nat.even_iff] at hm hk
    simp [hm, hk]
  · rw [Even.neg_one_pow hm, Odd.neg_one_pow hk]
    rw [Nat.even_iff] at hm
    rw [Nat.odd_iff] at hk
    simp only [hm, hk]
    constructor
    · intro hh; exact absurd hh (by decide)
    · omega
  · rw [Odd.neg_one_pow hm, Even.neg_one_pow hk]
    rw [Nat.odd_iff] at hm
    rw [Nat.even_iff] at hk
    simp only [hm, hk]
    constructor
    · intro hh; exact absurd hh (by decide)
    · omega
  · rw [Odd.neg_one_pow hm, Odd.neg_one_pow hk]
    rw [Nat.odd_iff] at hm hk
    simp [hm, hk]

/-! ## Claim C3: the solvability predicate -/

/-- The array copy made by `is_solvable`: the board with the empty cell
(first cell holding 0) replaced by 16. -/
def arrOf (b : List Int) : Nat → Int :=
  fun x => if x = b.findIdx (· == 0) then 16 else b.getD x 0

/-- The swap count produced by the `quicksort` call of `is_solvable`. -/
def qsSwapCount (b : List Int) : Nat := (quicksortC 16 (arrOf b) 0 15 0).2

/-- The taxicab distance of the empty cell from the lower-right corner, as
computed by `is_solvable`. -/
def taxicabOf (b : List Int) : Nat :=
  (4 - 1 - b.findIdx (· == 0) % 4) + (4 - 1 - b.findIdx (· == 0) / 4)

theorem is_solvable_eq (b : List Int) :
    is_solvable b = ((qsSwapCount b + taxicabOf b) % 2 == 0) := rfl

/-- In a list holding `t` exactly once, any index holding `t` is the
`findIdx` of `t`. -/
theorem eq_findIdx_of_getD {l : List Int} {t : Int} (hc : l.count t = 1) :
    ∀ x, x < l.length → l.getD x 0 = t → x = l.findIdx (· == t) := by
  induction l with
  | nil => intro x hx; simp at hx
  | cons a as ih =>
      rw [List.count_cons] at hc
      intro x hx hget
      by_cases hat : a = t
      · have h0 : as.count t = 0 := by simp [hat] at hc; omega
        rw [List.findIdx_cons]
        have hbeq : (a == t) = true := by simp [hat]
        rw [hbeq]
        simp only [cond_true]
        cases x with
        | zero => rfl
        | succ k =>
            exfalso
            have hk : k < as.length := by simpa using hx
            have hget' : as.getD k 0 = t := hget
            have hmem : t ∈ as := by
              rw [← hget', List.getD_eq_getElem _ _ hk]
              exact List.getElem_mem hk
            have := List.count_pos_iff.mpr hmem
            omega
      · have h1 : as.count t = 1 := by simp [hat] at hc; omega
        rw [List.findIdx_cons]
        have hbeq : (a == t) = false := by simp [hat]
        rw [hbeq]
        simp only [cond_false]
        cases x with
        | zero => exact absurd hget hat
        | succ k =>
            have hk : k < as.length := by simpa using hx
            have := ih h1 k hk hget
            omega

theorem boardValues_bounds {v : Int} (hv : v ∈ boardValues) : 0 ≤ v ∧ v ≤ 15 := by
  fin_cases hv <;> norm_num

theorem getD_mem_boardValues {b : List Int} (hb : ValidBoard b) {x : Nat}
    (hx : x ≤ 15) : b.getD x 0 ∈ boardValues := by
  have hlen : x < b.length := by rw [hb.length]; omega
  have hmem : b.getD x 0 ∈ b := by
    rw [List.getD_eq_getElem _ _ hlen]
    exact List.getElem_mem hlen
  exact (List.Perm.mem_iff hb).mp hmem

theorem arrOf_range {b : List Int} (hb : ValidBoard b) :
    ∀ x, x ≤ 15 → 1 ≤ arrOf b x ∧ arrOf b x ≤ 16 := by
  intro x hx
  rw [arrOf]
  by_cases hxi : x = b.findIdx (· == 0)
  · rw [if_pos hxi]
    norm_num
  · rw [if_neg hxi]
    have hlen : x < b.length := by rw [hb.length]; omega
    have hbv := boardValues_bounds (getD_mem_boardValues hb hx)
    have hne0 : b.getD x 0 ≠ 0 := by
      intro h0
      exact hxi (eq_findIdx_of_getD (hb.count_eq (by decide)) x hlen h0)
    omega

theorem arrOf_inj {b : List Int} (hb : ValidBoard b) :
    ∀ x y, x ≤ 15 → y ≤ 15 → arrOf b x = arrOf b y → x = y := by
  intro x y hx hy heq
  simp only [arrOf] at heq
  have hlenx : x < b.length := by rw [hb.length]; omega
  have hleny : y < b.length := by rw [hb.length]; omega
  by_cases hxi : x = b.findIdx (· == 0) <;> by_cases hyi : y = b.findIdx (· == 0)
  · rw [hxi, hyi]
  · rw [if_pos hxi, if_neg hyi] at heq
    have := boardValues_bounds (getD_mem_boardValues hb hy)
    omega
  · rw [if_neg hxi, if_pos hyi] at heq
    have := boardValues_bounds (getD_mem_boardValues hb hx)
    omega
  · rw [if_neg hxi, if_neg hyi] at heq
    have hmemx := getD_mem_boardValues hb hx
    have hx' := eq_findIdx_of_getD (hb.count_eq hmemx) x hlenx rfl
    have hy' := eq_findIdx_of_getD (hb.count_eq hmemx) y hleny heq.symm
    rw [hx', hy']

/-- The permutation `sigma` sorts the 16 cells of `b` (with the empty cell
read as 16) into ascending order: cell `sigma x` holds value `x + 1`. -/
def SortsBoard (b : List Int) (σ : Equiv.Perm (Fin 16)) : Prop :=
  ∀ x : Fin 16, arrOf b ((σ x : Fin 16) : Nat) = ((x : Nat) : Int) + 1

/-- Claim C3: for every valid board, `is_solvable` returns true exactly when
the parity of the permutation sorting the 16 cells into solved order
(0 treated as the largest value 16) plus the taxicab distance of the empty
cell from the lower-right corner is even; and the swap count produced by the
quicksort (which skips swaps of equal cells) always has the same parity as
that permutation. -/
theorem is_solvable_spec (b : List Int) (hb : ValidBoard b) :
    (∃ σ : Equiv.Perm (Fin 16), SortsBoard b σ) ∧
    ∀ σ : Equiv.Perm (Fin 16), SortsBoard b σ →
      (-1 : ℤˣ) ^ qsSwapCount b = Equiv.Perm.sign σ ∧
      (is_solvable b = true ↔ Equiv.Perm.sign σ = (-1 : ℤˣ) ^ taxicabOf b) := by
  obtain ⟨l, hlin, hF, hcount, hsorted⟩ := quicksortC_spec 16 (arrOf b) 0 15 0 (by omega)
  have hFx : ∀ x : Nat, x ≤ 15 → (quicksortC 16 (arrOf b) 0 15 0).1 x = (x : Int) + 1 := by
    refine sorted_inj_identity _ (fun x y hxy hy => hsorted x y (by omega) hxy hy) ?_ ?_
    · intro x y hx hy heq
      rw [hF, applySwaps_eq_comp] at heq
      have hgx := gOf_range hlin (x := x) ⟨by omega, hx⟩
      have hgy := gOf_range hlin (x := y) ⟨by omega, hy⟩
      have heq' := arrOf_inj hb _ _ hgx.2 hgy.2 heq
      exact (gOf_bij l).1 heq'
    · intro x hx
      rw [hF, applySwaps_eq_comp]
      have hgx := gOf_range hlin (x := x) ⟨by omega, hx⟩
      exact arrOf_range hb _ hgx.2
  have hsig0 : SortsBoard b (permFin l) := by
    intro x
    have hev := permFin_eval hlin (by omega) x
    rw [hev]
    have hF' := hFx (x : Nat) (by omega)
    rw [hF, applySwaps_eq_comp] at hF'
    exact hF'
  refine ⟨⟨permFin l, hsig0⟩, ?_⟩
  intro σ hσ
  have hσeq : σ = permFin l := by
    refine Equiv.ext fun x => ?_
    have h3 : arrOf b ((σ x : Fin 16) : Nat) = arrOf b (((permFin l) x : Fin 16) : Nat) := by
      rw [hσ x, hsig0 x]
    have h4 := arrOf_inj hb _ _ (Nat.le_of_lt_succ (σ x).isLt)
      (Nat.le_of_lt_succ ((permFin l) x).isLt) h3
    exact Fin.ext h4
  have hsign : Equiv.Perm.sign σ = (-1 : ℤˣ) ^ l.length := by
    rw [hσeq]
    exact permFin_sign hlin (by omega)
  have hcount' : qsSwapCount b = l.length := by
    rw [qsSwapCount, hcount]
    omega
  constructor
  · rw [hcount', hsign]
  · rw [is_solvable_eq]
    constructor
    · intro hh
      have hpar : (qsSwapCount b + taxicabOf b) % 2 = 0 := by simpa using hh
      rw [hsign, ← hcount']
      rw [neg_one_pow_eq_iff]
      omega
    · intro hh
      rw [hsign, ← hcount', neg_one_pow_eq_iff] at hh
      simp only [beq_iff_eq]
      omega

/-- Witness for C3 at the solved board. -/
theorem is_solvable_spec_witness :
    ValidBoard solvedBoard ∧
    (∃ σ : Equiv.Perm (Fin 16), SortsBoard solvedBoard σ) :=
  ⟨by decide, (is_solvable_spec solvedBoard (by decide)).1⟩

/-! ## The PDB builder (`generate_dim4_heuristics.c`, `bfs_tile_pattern`) -/

/-- Cost of sliding a tile in the reduced board: don't-care tiles
(sentinel 255) move for free, pattern tiles cost one. -/
def stepCostN (t : Int) : Nat := if t = 255 then 0 else 1

/-- The root board built by `bfs_tile_pattern`: sentinel 255 everywhere,
each pattern tile at its solved cell, the empty cell at index 15. -/
def rootBoard (p : tile_pattern) : List Int :=
  (p.tiles.foldl (fun b t => b.set (t - 1).toNat t)
    (List.replicate 16 (255 : Int))).set 15 0

/-- The `visited_pattern` of `bfs_tile_pattern`: the pattern tiles plus the
empty tile 0 (the other fields are not used by the builder's `arr_index`). -/
def visited_pattern (p : tile_pattern) : tile_pattern :=
  { tiles := 0 :: p.tiles
    reflected_tiles := []
    num_tiles := p.num_tiles + 1
    array_offset := 0 }

/-- The visited-array key of a reduced board. -/
def genKey (p : tile_pattern) (b : List Int) : Int :=
  gen_arr_index b (visited_pattern p)

/-- Legal move sequences on reduced boards from the solved configuration
(empty at 15), counting only moves of pattern tiles. -/
inductive CPath (p : tile_pattern) : List Int → Nat → Nat → Prop
  | root : CPath p (rootBoard p) 15 0
  | step {b : List Int} {e : Nat} {t : Int} {b' : List Int} {e' : Nat} {c : Nat} :
      CPath p b e c → StepB b e t b' e' → CPath p b' e' (c + stepCostN t)

/-- Well-formedness of a reduced board: 16 cells, one 0 (at the empty
index), each pattern tile exactly once, everything else the sentinel. -/
structure ValidPB (p : tile_pattern) (b : List Int) (e : Nat) : Prop where
  len : b.length = 16
  e_lt : e < 16
  e_zero : b.getD e 0 = 0
  zero_count : b.count 0 = 1
  tile_count : ∀ t ∈ p.tiles, b.count t = 1
  cells : ∀ x, x < 16 → b.getD x 0 = 0 ∨ b.getD x 0 = 255 ∨ b.getD x 0 ∈ p.tiles

/-- `count` through a `set`, stated additively to avoid truncation. -/
theorem count_set_add : ∀ (l : List Int) (i : Nat), i < l.length → ∀ (a v : Int),
    (l.set i a).count v + (if l.getD i 0 = v then 1 else 0) =
    l.count v + (if a = v then 1 else 0)
  | [], i, hi => by simp at hi
  | x :: xs, 0, _ => by
      intro a v
      simp only [List.set_cons_zero, List.count_cons, List.getD_cons_zero]
      have hxv : (x == v) = (if x = v then true else false) := by
        by_cases h : x = v <;> simp [h]
      have hav : (a == v) = (if a = v then true else false) := by
        by_cases h : a = v <;> simp [h]
      by_cases h1 : x = v <;> by_cases h2 : a = v <;> simp [h1, h2]
  | x :: xs, i + 1, hi => by
      intro a v
      have hrec := count_set_add xs i (by simpa using hi) a v
      rw [List.set_cons_succ, List.count_cons, List.count_cons, List.getD_cons_succ]
      omega

/-- A slide preserves all value counts. -/
theorem StepB_count {b : List Int} {e : Nat} {t : Int} {b' : List Int} {e' : Nat}
    (hs : StepB b e t b' e') (hlen : b.length = 16) (he : e < 16)
    (hez : b.getD e 0 = 0) : ∀ v, b'.count v = b.count v := by
  obtain ⟨d, hd4, hne, hmi, htile, hb'⟩ := hs
  intro v
  have he' : e' < 16 := by
    rcases validMove_spec e he d with h | ⟨-, hlt, -, -⟩
    · exact absurd h hne
    · rw [← hmi]; exact hlt
  have hee' : e' ≠ e := by
    rcases validMove_spec e he d with h | ⟨-, -, hne', -⟩
    · exact absurd h hne
    · rw [← hmi]; exact hne'
  have h1 := count_set_add b e (by omega) t v
  have h2 := count_set_add (b.set e t) e' (by rw [List.length_set]; omega) 0 v
  have h3 : (b.set e t).getD e' 0 = t := by
    rw [getD_set_ne _ _ _ _ (fun hh => hee' hh.symm)]
    exact htile
  rw [hez] at h1
  rw [h3] at h2
  rw [hb']
  omega

/-- A slide preserves reduced-board well-formedness. -/
theorem StepB_validPB {p : tile_pattern} {b : List Int} {e : Nat} {t : Int}
    {b' : List Int} {e' : Nat} (hv : ValidPB p b e) (hs : StepB b e t b' e') :
    ValidPB p b' e' := by
  obtain ⟨d, hd4, hne, hmi, htile, hb'⟩ := hs
  have he' : e' < 16 := by
    rcases validMove_spec e hv.e_lt d with h | ⟨-, hlt, -, -⟩
    · exact absurd h hne
    · rw [← hmi]; exact hlt
  have hee' : e' ≠ e := by
    rcases validMove_spec e hv.e_lt d with h | ⟨-, -, hne', -⟩
    · exact absurd h hne
    · rw [← hmi]; exact hne'
  have hcount := StepB_count ⟨d, hd4, hne, hmi, htile, hb'⟩ hv.len hv.e_lt hv.e_zero
  have hlenb : b.length = 16 := hv.len
  have helt : e < 16 := hv.e_lt
  have hlen' : b'.length = 16 := by
    rw [hb', List.length_set, List.length_set, hv.len]
  refine ⟨hlen', he', ?_, ?_, ?_, ?_⟩
  · rw [hb']
    exact getD_set_self _ _ _ (by rw [List.length_set]; omega)
  · rw [hcount 0]; exact hv.zero_count
  · intro u hu
    rw [hcount u]; exact hv.tile_count u hu
  · intro x hx
    rw [hb']
    by_cases hxe' : x = e'
    · rw [hxe', getD_set_self _ _ _ (by rw [List.length_set]; omega)]
      left; rfl
    · rw [getD_set_ne _ _ _ _ (fun hh => hxe' hh.symm)]
      by_cases hxe : x = e
      · rw [hxe, getD_set_self _ _ _ (by omega)]
        have := hv.cells e' (by omega)
        rw [htile] at this
        exact this
      · rw [getD_set_ne _ _ _ _ (fun hh => hxe hh.symm)]
        exact hv.cells x hx

/-- The cell at `findIdx` of a present value holds that value. -/
theorem findIdx_getD_of_mem : ∀ (l : List Int) (t : Int), t ∈ l →
    l.getD (l.findIdx (· == t)) 0 = t := by
  intro l
  induction l with
  | nil => intro t ht; simp at ht
  | cons a as ih =>
      intro t ht
      rw [List.findIdx_cons]
      by_cases hat : a = t
      · have : (a == t) = true := by simp [hat]
        rw [this]
        simpa using hat
      · have hbeq : (a == t) = false := by simp [hat]
        rw [hbeq]
        simp only [cond_false, List.getD_cons_succ]
        rcases List.mem_cons.mp ht with h | h
        · exact absurd h.symm hat
        · exact ih t h

theorem posN_lt_of_mem {b : List Int} {t : Int} (hlen : b.length = 16)
    (hmem : t ∈ b) : posN b t < 16 := by
  have : b.findIdx (· == t) < b.length :=
    List.findIdx_lt_length_of_exists ⟨t, hmem, by simp⟩
  rw [hlen] at this
  exact this

theorem validPB_mem {p : tile_pattern} {b : List Int} {e : Nat}
    (hv : ValidPB p b e) : ∀ t ∈ (0 :: p.tiles), t ∈ b := by
  intro t ht
  rcases List.mem_cons.mp ht with rfl | h
  · exact count_one_mem hv.zero_count
  · exact count_one_mem (hv.tile_count t h)

/-- The builder's visited key of a well-formed reduced board is the base-16
encoding of the positions of the empty tile and the pattern tiles. -/
theorem genKey_eq_digits {p : tile_pattern} {b : List Int} {e : Nat}
    (hv : ValidPB p b e) :
    genKey p b = digitsVal ((0 :: p.tiles).map fun t => ((posN b t : Nat) : Int)) := by
  have hcounts : ∀ t ∈ (visited_pattern p).tiles, b.count t = 1 := by
    intro t ht
    rcases List.mem_cons.mp ht with rfl | h
    · exact hv.zero_count
    · exact hv.tile_count t h
  rw [genKey, gen_index_agree b _ hcounts]
  rw [show arr_index b (visited_pattern p) false = arrIndexGo b (0 :: p.tiles) 1 from rfl]
  rw [arrIndexGo_eq b _ 1 (validPB_mem hv), one_mul]

theorem genKey_digits_lt {p : tile_pattern} {b : List Int} {e : Nat}
    (hv : ValidPB p b e) :
    ∀ d ∈ (0 :: p.tiles).map fun t => ((posN b t : Nat) : Int), 0 ≤ d ∧ d < 16 := by
  intro d hd
  rw [List.mem_map] at hd
  obtain ⟨t, ht, rfl⟩ := hd
  have := posN_lt_of_mem hv.len (validPB_mem hv t ht)
  constructor
  · positivity
  · exact_mod_cast this

/-- Bounds on the visited key. -/
theorem genKey_bounds {p : tile_pattern} {b : List Int} {e : Nat}
    (hv : ValidPB p b e) :
    0 ≤ genKey p b ∧ genKey p b < 16 ^ (p.tiles.length + 1) := by
  rw [genKey_eq_digits hv]
  have := digitsVal_bounds _ (genKey_digits_lt hv)
  rwa [List.length_map, List.length_cons] at this

/-- The empty index of a well-formed reduced board is the position of 0. -/
theorem validPB_e_eq {p : tile_pattern} {b : List Int} {e : Nat}
    (hv : ValidPB p b e) : e = posN b 0 :=
  eq_findIdx_of_getD hv.zero_count e (by rw [hv.len]; exact hv.e_lt) hv.e_zero

/-- Two well-formed reduced boards agreeing on the positions of the empty
tile and all pattern tiles are equal. -/
theorem validPB_eq_of_pos {p : tile_pattern} {b1 : List Int} {e1 : Nat}
    {b2 : List Int} {e2 : Nat} (h255 : (255 : Int) ∉ p.tiles)
    (hv1 : ValidPB p b1 e1) (hv2 : ValidPB p b2 e2)
    (hpos : ∀ t ∈ (0 :: p.tiles), posN b1 t = posN b2 t) : b1 = b2 := by
  have hmm : ∀ (bA bB : List Int) (eA eB : Nat), ValidPB p bA eA → ValidPB p bB eB →
      (∀ t ∈ (0 :: p.tiles), posN bA t = posN bB t) →
      ∀ x, x < 16 → bA.getD x 0 = 0 ∨ bA.getD x 0 ∈ p.tiles →
      bB.getD x 0 = bA.getD x 0 := by
    intro bA bB eA eB hvA hvB hposAB x hx hcase
    have hcnt : bA.count (bA.getD x 0) = 1 := by
      rcases hcase with h0 | ht
      · rw [h0]; exact hvA.zero_count
      · exact hvA.tile_count _ ht
    have hmemlist : bA.getD x 0 ∈ (0 :: p.tiles) := by
      rcases hcase with h0 | ht
      · rw [h0]; exact List.mem_cons_self ..
      · exact List.mem_cons_of_mem _ ht
    have hxA : x = posN bA (bA.getD x 0) :=
      eq_findIdx_of_getD hcnt x (by rw [hvA.len]; exact hx) rfl
    have hxB : x = posN bB (bA.getD x 0) := by
      have h' := hposAB _ hmemlist
      omega
    have hmemB : bA.getD x 0 ∈ bB := validPB_mem hvB _ hmemlist
    have hgd : bB.getD (posN bB (bA.getD x 0)) 0 = bA.getD x 0 :=
      findIdx_getD_of_mem bB (bA.getD x 0) hmemB
    rw [← hxB] at hgd
    exact hgd
  have hlen1 : b1.length = 16 := hv1.len
  have hlen2 : b2.length = 16 := hv2.len
  apply List.ext_getElem (by omega)
  intro x hx1 hx2
  have hx : x < 16 := by omega
  have hginv : ∀ t ∈ (0 :: p.tiles), posN b2 t = posN b1 t :=
    fun t ht => (hpos t ht).symm
  rw [← List.getD_eq_getElem b1 0 hx1, ← List.getD_eq_getElem b2 0 hx2]
  rcases hv1.cells x hx with h0 | h255' | ht
  · rw [hmm b1 b2 e1 e2 hv1 hv2 hpos x hx (Or.inl h0)]
  · rcases hv2.cells x hx with g0 | g255 | gt
    · rw [hmm b2 b1 e2 e1 hv2 hv1 hginv x hx (Or.inl g0)] at h255'
      rw [g0] at h255'
      norm_num at h255'
    · rw [h255', g255]
    · rw [hmm b2 b1 e2 e1 hv2 hv1 hginv x hx (Or.inr gt)] at h255'
      rw [h255'] at gt
      exact absurd gt h255
  · rw [hmm b1 b2 e1 e2 hv1 hv2 hpos x hx (Or.inr ht)]

/-- The visited key is injective on well-formed reduced boards: it
determines the board and the empty index. -/
theorem genKey_inj {p : tile_pattern} {b1 : List Int} {e1 : Nat}
    {b2 : List Int} {e2 : Nat} (h255 : (255 : Int) ∉ p.tiles)
    (hv1 : ValidPB p b1 e1) (hv2 : ValidPB p b2 e2)
    (h : genKey p b1 = genKey p b2) : b1 = b2 ∧ e1 = e2 := by
  rw [genKey_eq_digits hv1, genKey_eq_digits hv2] at h
  have hdig := digitsVal_injective _ _ (genKey_digits_lt hv1) (genKey_digits_lt hv2)
    (by simp) h
  have hpos : ∀ t ∈ (0 :: p.tiles), posN b1 t = posN b2 t := by
    intro t ht
    have := List.map_eq_map_iff.mp hdig t ht
    exact_mod_cast this
  refine ⟨validPB_eq_of_pos h255 hv1 hv2 hpos, ?_⟩
  rw [validPB_e_eq hv1, validPB_e_eq hv2, hpos 0 (List.mem_cons_self ..)]

/-! ## The builder's search loop -/

/-- A queue node of `bfs_tile_pattern` (the `next` pointer is the list
structure of the queue itself). -/
structure BNode where
  board : List Int
  empty_index : Nat
  heuristic : Int

/-- The mutable state of one `bfs_tile_pattern` call: the FIFO queue, the
visited array and the shared heuristics array (both as total functions). -/
structure BState where
  queue : List BNode
  visited : Int → Int
  heur : Int → Int

/-- The value taken by the local `heuristic` after the
`if (visited[index] <= heuristic)` branch. -/
def relaxedCost (k cost : Int) (v : Int → Int) : Int :=
  if v k ≤ cost then v k else cost

/-- The visited array after the branch: unchanged on discard, updated to
the lower cost otherwise. -/
def relaxVisited (k cost : Int) (v : Int → Int) : Int → Int :=
  if v k ≤ cost then v else fun x => if x = k then cost else v x

/-- The queue after the branch: a new node is enqueued exactly when the
visited entry improved. -/
def pushIf (k cost : Int) (v : Int → Int) (q : List BNode) (nd : BNode) : List BNode :=
  if v k ≤ cost then q else q ++ [nd]

/-- `if (heuristics[r] > h) heuristics[r] = h`. -/
def updHeur (r c : Int) (h : Int → Int) : Int → Int :=
  fun x => if x = r then min (h r) c else h x

/-- The neighbour board: the tile at `mi` slides into the empty cell. -/
def nbBoard (n : BNode) (mi : Nat) : List Int :=
  (n.board.set n.empty_index (n.board.getD mi 0)).set mi 0

/-- The neighbour cost: the node's cost, plus one iff the slid tile is not
the don't-care sentinel. -/
def nbCost (n : BNode) (mi : Nat) : Int :=
  n.heuristic + if n.board.getD mi 0 = 255 then 0 else 1

/-- One direction of the neighbour loop of `bfs_tile_pattern`. -/
def bfsEdge (p : tile_pattern) (n : BNode) (s : BState) (d : Nat) : BState :=
  if validMove n.empty_index d = -1 then s
  else
    { queue := pushIf (genKey p (nbBoard n (validMove n.empty_index d).toNat))
        (nbCost n (validMove n.empty_index d).toNat) s.visited s.queue
        ⟨nbBoard n (validMove n.empty_index d).toNat,
          (validMove n.empty_index d).toNat,
          nbCost n (validMove n.empty_index d).toNat⟩
      visited := relaxVisited (genKey p (nbBoard n (validMove n.empty_index d).toNat))
        (nbCost n (validMove n.empty_index d).toNat) s.visited
      heur := updHeur
        (gen_arr_index (nbBoard n (validMove n.empty_index d).toNat) p + p.array_offset)
        (relaxedCost (genKey p (nbBoard n (validMove n.empty_index d).toNat))
          (nbCost n (validMove n.empty_index d).toNat) s.visited) s.heur }

/-- Processing one dequeued node: the four clockwise directions in order. -/
def bfsNode (p : tile_pattern) (n : BNode) (s : BState) : BState :=
  bfsEdge p n (bfsEdge p n (bfsEdge p n (bfsEdge p n s 0) 1) 2) 3

/-- The `while (front)` loop of `bfs_tile_pattern`, with explicit fuel (the
loop terminates because every enqueue strictly lowers a visited entry). -/
def bfsRun (p : tile_pattern) : Nat → BState → BState
  | 0, s => s
  | fuel + 1, s =>
    match s.queue with
    | [] => s
    | n :: rest => bfsRun p fuel (bfsNode p n ⟨rest, s.visited, s.heur⟩)

/-- The state set up by `bfs_tile_pattern` before the loop: the root node
queued, its visited entry and its heuristics slot set to 0. -/
def initState (p : tile_pattern) (h0 : Int → Int) : BState :=
  { queue := [⟨rootBoard p, 15, 0⟩]
    visited := fun x => if x = genKey p (rootBoard p) then 0 else 255
    heur := fun x => if x = gen_arr_index (rootBoard p) p + p.array_offset then 0 else h0 x }

/-- Facts about the three concrete patterns needed by the invariant. -/
theorem pattern_facts {p : tile_pattern} (hp : p ∈ patterns) :
    (255 : Int) ∉ p.tiles ∧ p.tiles.length + 1 ≤ 7 ∧ ValidPB p (rootBoard p) 15 := by
  fin_cases hp <;>
    exact ⟨by decide, by decide, by decide, by decide, by decide, by decide, by decide, by decide⟩

/-- Every reduced board reachable from the root is well-formed. -/
theorem cpath_valid {p : tile_pattern} (hroot : ValidPB p (rootBoard p) 15)
    {b : List Int} {e : Nat} {c : Nat} (h : CPath p b e c) : ValidPB p b e := by
  induction h with
  | root => exact hroot
  | step _ hs ih => exact StepB_validPB ih hs

/-- The slide cost as an integer. -/
theorem stepCost_cast (t : Int) :
    (if t = 255 then (0 : Int) else 1) = ((stepCostN t : Nat) : Int) := by
  by_cases h : t = 255 <;> simp [stepCostN, h]

/-- The "local" parts of the loop invariant: queue nodes carry genuine path
costs, visited and heuristics entries are bytes, visited entries are either
unset or genuine path costs, heuristics slots are at most the visited entry
of every state with that placement, and heuristics slots are either
untouched or genuine path costs of some state with that placement. -/
def LocalInv (p : tile_pattern) (h0 : Int → Int) (s : BState) : Prop :=
  (∀ nd ∈ s.queue, ValidPB p nd.board nd.empty_index ∧
      ∃ c : Nat, CPath p nd.board nd.empty_index c ∧ nd.heuristic = (c : Int)) ∧
  (∀ k, 0 ≤ s.visited k ∧ s.visited k ≤ 255) ∧
  (∀ k, s.visited k = 255 ∨ ∃ b e c, ValidPB p b e ∧ CPath p b e c ∧
      genKey p b = k ∧ s.visited k = (c : Int)) ∧
  (∀ b e c, CPath p b e c → ValidPB p b e →
      s.heur (gen_arr_index b p + p.array_offset) ≤ s.visited (genKey p b)) ∧
  (∀ x, s.heur x = (initState p h0).heur x ∨
      ∃ b e c, ValidPB p b e ∧ CPath p b e c ∧
        x = gen_arr_index b p + p.array_offset ∧ s.heur x = (c : Int)) ∧
  (∀ x, 0 ≤ s.heur x ∧ s.heur x ≤ 255)

/-- Effect and preservation of one direction of the neighbour loop. -/
theorem bfsEdge_local {p : tile_pattern} {h0 : Int → Int} (hp : p ∈ patterns)
    {s : BState} {n : BNode} {d : Nat} (hd4 : d < 4)
    (hnv : ValidPB p n.board n.empty_index)
    (hnc : ∃ c : Nat, CPath p n.board n.empty_index c ∧ n.heuristic = (c : Int)) :
    LocalInv p h0 s →
    LocalInv p h0 (bfsEdge p n s d) ∧
    (∀ k, (bfsEdge p n s d).visited k ≤ s.visited k) ∧
    (∀ nd ∈ s.queue, nd ∈ (bfsEdge p n s d).queue) ∧
    (∀ k, (bfsEdge p n s d).visited k < s.visited k →
      ∃ nd ∈ (bfsEdge p n s d).queue, genKey p nd.board = k ∧
        nd.heuristic = (bfsEdge p n s d).visited k) ∧
    (validMove n.empty_index d ≠ -1 →
      (bfsEdge p n s d).visited (genKey p (nbBoard n (validMove n.empty_index d).toNat)) ≤
        nbCost n (validMove n.empty_index d).toNat) ∧
    (∀ k, (bfsEdge p n s d).visited k ≠ s.visited k →
      validMove n.empty_index d ≠ -1 ∧
      k = genKey p (nbBoard n (validMove n.empty_index d).toNat)) := by
  intro hloc
  obtain ⟨h255, -, -⟩ := pattern_facts hp
  by_cases hmi : validMove n.empty_index d = -1
  · rw [bfsEdge, if_pos hmi]
    refine ⟨hloc, fun k => le_refl _, fun nd hnd => hnd, ?_, ?_, ?_⟩
    · intro k hk
      exact absurd hk (lt_irrefl _)
    · intro hc
      exact absurd hmi hc
    · intro k hk
      exact absurd rfl hk
  · rw [bfsEdge, if_neg hmi]
    obtain ⟨hq, hvb, hvs, hhle, hhs, hhb⟩ := hloc
    obtain ⟨cn, hcn, hcnh⟩ := hnc
    rcases validMove_spec n.empty_index hnv.e_lt d with h | ⟨-, hmilt, hmine, -⟩
    · exact absurd h hmi
    have hstep : StepB n.board n.empty_index
        (n.board.getD (validMove n.empty_index d).toNat 0)
        (nbBoard n (validMove n.empty_index d).toNat)
        (validMove n.empty_index d).toNat := ⟨d, hd4, hmi, rfl, rfl, rfl⟩
    have hbv' : ValidPB p (nbBoard n (validMove n.empty_index d).toNat)
        (validMove n.empty_index d).toNat := StepB_validPB hnv hstep
    have hpath' : CPath p (nbBoard n (validMove n.empty_index d).toNat)
        (validMove n.empty_index d).toNat
        (cn + stepCostN (n.board.getD (validMove n.empty_index d).toNat 0)) :=
      CPath.step hcn hstep
    have hcast : nbCost n (validMove n.empty_index d).toNat =
        ((cn + stepCostN (n.board.getD (validMove n.empty_index d).toNat 0) : Nat) : Int) := by
      rw [nbCost, hcnh, stepCost_cast]
      push_cast
      ring
    set key := genKey p (nbBoard n (validMove n.empty_index d).toNat) with hkey
    set cost := nbCost n (validMove n.empty_index d).toNat with hcost
    set rr := gen_arr_index (nbBoard n (validMove n.empty_index d).toNat) p
      + p.array_offset with hrr
    have hcost0 : 0 ≤ cost := by rw [hcast]; positivity
    by_cases hdisc : s.visited key ≤ cost
    · -- discard branch: visited and queue unchanged; the heuristics slot of
      -- the neighbour takes the already-recorded visited value
      have hRV : relaxVisited key cost s.visited = s.visited := by
        rw [relaxVisited, if_pos hdisc]
      have hRC : relaxedCost key cost s.visited = s.visited key := by
        rw [relaxedCost, if_pos hdisc]
      have hPQ : pushIf key cost s.visited s.queue
          ⟨nbBoard n (validMove n.empty_index d).toNat,
            (validMove n.empty_index d).toNat, cost⟩ = s.queue := by
        rw [pushIf, if_pos hdisc]
      have HHLE : ∀ b e c, CPath p b e c → ValidPB p b e →
          updHeur rr (relaxedCost key cost s.visited) s.heur
            (gen_arr_index b p + p.array_offset) ≤
          relaxVisited key cost s.visited (genKey p b) := by
        intro b e c hcp hbv
        rw [hRV, hRC, updHeur]
        by_cases hx : gen_arr_index b p + p.array_offset = rr
        · rw [if_pos hx]
          by_cases hkb : genKey p b = key
          · obtain ⟨hbeq, -⟩ := genKey_inj h255 hbv hbv' hkb
            rw [hkb]
            exact min_le_right _ _
          · refine le_trans (min_le_left _ _) ?_
            rw [← hx]
            exact hhle b e c hcp hbv
        · rw [if_neg hx]
          exact hhle b e c hcp hbv
      have HHS : ∀ x, updHeur rr (relaxedCost key cost s.visited) s.heur x =
            (initState p h0).heur x ∨
          ∃ b e c, ValidPB p b e ∧ CPath p b e c ∧
            x = gen_arr_index b p + p.array_offset ∧
            updHeur rr (relaxedCost key cost s.visited) s.heur x = (c : Int) := by
        intro x
        rw [hRC, updHeur]
        by_cases hx : x = rr
        · rw [if_pos hx]
          rcases min_cases (s.heur rr) (s.visited key) with ⟨hmin, -⟩ | ⟨hmin, hlt⟩
          · rw [hmin, ← hx]
            exact hhs x
          · rcases hvs key with hu | ⟨b2, e2, c2, hv2, hc2, hk2, hval2⟩
            · exfalso
              rw [hu] at hlt
              have := (hhb rr).2
              omega
            · rw [hkey] at hk2
              obtain ⟨hb2eq, -⟩ := genKey_inj h255 hv2 hbv' hk2
              right
              refine ⟨b2, e2, c2, hv2, hc2, ?_, ?_⟩
              · rw [hx, hrr, hb2eq]
              · rw [hmin, ← hval2]
        · rw [if_neg hx]
          exact hhs x
      have HHB : ∀ x, 0 ≤ updHeur rr (relaxedCost key cost s.visited) s.heur x ∧
          updHeur rr (relaxedCost key cost s.visited) s.heur x ≤ 255 := by
        intro x
        rw [hRC, updHeur]
        by_cases hx : x = rr
        · rw [if_pos hx]
          have h1 := hhb rr
          have h2 := hvb key
          constructor
          · exact le_min h1.1 h2.1
          · exact le_trans (min_le_left _ _) h1.2
        · rw [if_neg hx]
          exact hhb x
      refine ⟨⟨?_, ?_, ?_, HHLE, HHS, HHB⟩, ?_, ?_, ?_, ?_, ?_⟩
      · show ∀ nd ∈ pushIf key cost s.visited s.queue _, _
        rw [hPQ]
        exact hq
      · show ∀ k, 0 ≤ relaxVisited key cost s.visited k ∧ _
        rw [hRV]
        exact hvb
      · show ∀ k, relaxVisited key cost s.visited k = 255 ∨ _
        rw [hRV]
        exact hvs
      · show ∀ k, relaxVisited key cost s.visited k ≤ s.visited k
        rw [hRV]
        exact fun k => le_refl _
      · show ∀ nd ∈ s.queue, nd ∈ pushIf key cost s.visited s.queue _
        rw [hPQ]
        exact fun nd hnd => hnd
      · show ∀ k, relaxVisited key cost s.visited k < s.visited k → _
        rw [hRV]
        intro k hk
        exact absurd hk (lt_irrefl _)
      · intro hc
        show relaxVisited key cost s.visited key ≤ cost
        rw [hRV]
        exact hdisc
      · intro k hk
        exfalso
        apply hk
        show relaxVisited key cost s.visited k = s.visited k
        rw [hRV]
    · -- improvement branch: the visited entry drops to the new cost and the
      -- neighbour is enqueued
      have hlt : cost < s.visited key := by omega
      have hRV : relaxVisited key cost s.visited =
          fun x => if x = key then cost else s.visited x := by
        rw [relaxVisited, if_neg hdisc]
      have hRC : relaxedCost key cost s.visited = cost := by
        rw [relaxedCost, if_neg hdisc]
      have hPQ : pushIf key cost s.visited s.queue
          ⟨nbBoard n (validMove n.empty_index d).toNat,
            (validMove n.empty_index d).toNat, cost⟩ = s.queue ++
          [⟨nbBoard n (validMove n.empty_index d).toNat,
            (validMove n.empty_index d).toNat, cost⟩] := by
        rw [pushIf, if_neg hdisc]
      have HQ : ∀ nd ∈ pushIf key cost s.visited s.queue
          ⟨nbBoard n (validMove n.empty_index d).toNat,
            (validMove n.empty_index d).toNat, cost⟩,
          ValidPB p nd.board nd.empty_index ∧
          ∃ c : Nat, CPath p nd.board nd.empty_index c ∧ nd.heuristic = (c : Int) := by
        rw [hPQ]
        intro nd hnd
        rcases List.mem_append.mp hnd with hl | hr
        · exact hq nd hl
        · rw [List.mem_singleton] at hr
          subst hr
          exact ⟨hbv', ⟨cn + stepCostN (n.board.getD (validMove n.empty_index d).toNat 0),
            hpath', hcast⟩⟩
      have HVB : ∀ k, 0 ≤ relaxVisited key cost s.visited k ∧
          relaxVisited key cost s.visited k ≤ 255 := by
        intro k
        simp only [hRV]
        by_cases hk : k = key
        · rw [if_pos hk]
          have := (hvb key).2
          exact ⟨hcost0, by omega⟩
        · rw [if_neg hk]
          exact hvb k
      have HVS : ∀ k, relaxVisited key cost s.visited k = 255 ∨
          ∃ b e c, ValidPB p b e ∧ CPath p b e c ∧ genKey p b = k ∧
            relaxVisited key cost s.visited k = (c : Int) := by
        intro k
        simp only [hRV]
        by_cases hk : k = key
        · rw [if_pos hk]
          right
          exact ⟨nbBoard n (validMove n.empty_index d).toNat,
            (validMove n.empty_index d).toNat,
            cn + stepCostN (n.board.getD (validMove n.empty_index d).toNat 0),
            hbv', hpath', by rw [hk, hkey], hcast⟩
        · rw [if_neg hk]
          exact hvs k
      have HHLE : ∀ b e c, CPath p b e c → ValidPB p b e →
          updHeur rr (relaxedCost key cost s.visited) s.heur
            (gen_arr_index b p + p.array_offset) ≤
          relaxVisited key cost s.visited (genKey p b) := by
        intro b e c hcp hbv
        simp only [hRV]
        rw [hRC, updHeur]
        by_cases hkb : genKey p b = key
        · obtain ⟨hbeq, -⟩ := genKey_inj h255 hbv hbv' hkb
          have hx : gen_arr_index b p + p.array_offset = rr := by
            rw [hrr, hbeq]
          rw [if_pos hx, if_pos hkb]
          exact min_le_right _ _
        · rw [if_neg hkb]
          by_cases hx : gen_arr_index b p + p.array_offset = rr
          · rw [if_pos hx]
            refine le_trans (min_le_left _ _) ?_
            rw [← hx]
            exact hhle b e c hcp hbv
          · rw [if_neg hx]
            exact hhle b e c hcp hbv
      have HHS : ∀ x, updHeur rr (relaxedCost key cost s.visited) s.heur x =
            (initState p h0).heur x ∨
          ∃ b e c, ValidPB p b e ∧ CPath p b e c ∧
            x = gen_arr_index b p + p.array_offset ∧
            updHeur rr (relaxedCost key cost s.visited) s.heur x = (c : Int) := by
        intro x
        rw [hRC, updHeur]
        by_cases hx : x = rr
        · rw [if_pos hx]
          rcases min_cases (s.heur rr) cost with ⟨hmin, -⟩ | ⟨hmin, -⟩
          · rw [hmin, ← hx]
            exact hhs x
          · right
            refine ⟨nbBoard n (validMove n.empty_index d).toNat,
              (validMove n.empty_index d).toNat,
              cn + stepCostN (n.board.getD (validMove n.empty_index d).toNat 0),
              hbv', hpath', hx, ?_⟩
            rw [hmin, hcast]
        · rw [if_neg hx]
          exact hhs x
      have HHB : ∀ x, 0 ≤ updHeur rr (relaxedCost key cost s.visited) s.heur x ∧
          updHeur rr (relaxedCost key cost s.visited) s.heur x ≤ 255 := by
        intro x
        rw [hRC, updHeur]
        by_cases hx : x = rr
        · rw [if_pos hx]
          have h1 := hhb rr
          have h2 := (hvb key).2
          constructor
          · exact le_min h1.1 hcost0
          · exact le_trans (min_le_left _ _) h1.2
        · rw [if_neg hx]
          exact hhb x
      refine ⟨⟨HQ, HVB, HVS, HHLE, HHS, HHB⟩, ?_, ?_, ?_, ?_, ?_⟩
      · show ∀ k, relaxVisited key cost s.visited k ≤ s.visited k
        intro k
        simp only [hRV]
        by_cases hk : k = key
        · rw [if_pos hk, hk]
          omega
        · rw [if_neg hk]
      · show ∀ nd ∈ s.queue, nd ∈ pushIf key cost s.visited s.queue _
        rw [hPQ]
        intro nd hnd
        exact List.mem_append_left _ hnd
      · show ∀ k, relaxVisited key cost s.visited k < s.visited k → _
        intro k hk
        simp only [hRV] at hk
        by_cases hkk : k = key
        · refine ⟨⟨nbBoard n (validMove n.empty_index d).toNat,
            (validMove n.empty_index d).toNat, cost⟩, ?_, ?_, ?_⟩
          · show _ ∈ pushIf key cost s.visited s.queue _
            rw [hPQ]
            exact List.mem_append_right _ (List.mem_singleton.mpr rfl)
          · show genKey p (nbBoard n (validMove n.empty_index d).toNat) = k
            rw [hkk, hkey]
          · show cost = relaxVisited key cost s.visited k
            simp only [hRV]
            rw [if_pos hkk]
        · exfalso
          rw [if_neg hkk] at hk
          exact absurd hk (lt_irrefl _)
      · intro hc
        show relaxVisited key cost s.visited key ≤ cost
        simp only [hRV]
        simp
      · intro k hk
        refine ⟨hmi, ?_⟩
        by_contra hkk
        apply hk
        show relaxVisited key cost s.visited k = s.visited k
        simp only [hRV]
        rw [if_neg hkk]

/-- All four moves out of a node are relaxed in the visited array `v`:
the recorded value of each neighbour is at most this node's value plus
the move cost. -/
def EdgesRelaxed (p : tile_pattern) (v : Int → Int) (n : BNode) : Prop :=
  ∀ d : Nat, d < 4 → validMove n.empty_index d ≠ -1 →
    v (genKey p (nbBoard n (validMove n.empty_index d).toNat)) ≤
      nbCost n (validMove n.empty_index d).toNat

/-- The pending-work part of the loop invariant: every visited entry that
holds a real cost either has a queued node still waiting to be expanded at
that exact cost, or has had all its outgoing moves relaxed already. -/
def PendInv (p : tile_pattern) (s : BState) : Prop :=
  ∀ k, s.visited k < 255 →
    (∃ nd ∈ s.queue, genKey p nd.board = k ∧ nd.heuristic = s.visited k) ∨
    (∀ nd : BNode, ValidPB p nd.board nd.empty_index → genKey p nd.board = k →
      nd.heuristic = s.visited k → EdgesRelaxed p s.visited nd)

/-- The full loop invariant of `bfs_tile_pattern`. -/
def BInv (p : tile_pattern) (h0 : Int → Int) (s : BState) : Prop :=
  LocalInv p h0 s ∧ PendInv p s

/-- Queue nodes are determined by their three fields. -/
theorem bnodeEq {a b : BNode} (h1 : a.board = b.board) (h2 : a.empty_index = b.empty_index)
    (h3 : a.heuristic = b.heuristic) : a = b := by
  calc a = ⟨a.board, a.empty_index, a.heuristic⟩ := rfl
    _ = ⟨b.board, b.empty_index, b.heuristic⟩ := by rw [h1, h2, h3]
    _ = b := rfl

/-- Effect and preservation of processing one dequeued node: the local
invariant survives, visited entries only decrease, the queue only grows,
every strict decrease leaves a queued witness, and afterwards all four
moves of the processed node are relaxed. -/
theorem bfsNode_local {p : tile_pattern} {h0 : Int → Int} (hp : p ∈ patterns)
    {s : BState} {n : BNode}
    (hnv : ValidPB p n.board n.empty_index)
    (hnc : ∃ c : Nat, CPath p n.board n.empty_index c ∧ n.heuristic = (c : Int))
    (hloc : LocalInv p h0 s) :
    LocalInv p h0 (bfsNode p n s) ∧
    (∀ k, (bfsNode p n s).visited k ≤ s.visited k) ∧
    (∀ nd ∈ s.queue, nd ∈ (bfsNode p n s).queue) ∧
    (∀ k, (bfsNode p n s).visited k < s.visited k →
      ∃ nd ∈ (bfsNode p n s).queue, genKey p nd.board = k ∧
        nd.heuristic = (bfsNode p n s).visited k) ∧
    EdgesRelaxed p (bfsNode p n s).visited n := by
  obtain ⟨L1, m1, q1, w1, r1, -⟩ :=
    bfsEdge_local hp (show (0 : Nat) < 4 by omega) hnv hnc hloc
  obtain ⟨L2, m2, q2, w2, r2, -⟩ :=
    bfsEdge_local hp (show (1 : Nat) < 4 by omega) hnv hnc L1
  obtain ⟨L3, m3, q3, w3, r3, -⟩ :=
    bfsEdge_local hp (show (2 : Nat) < 4 by omega) hnv hnc L2
  obtain ⟨L4, m4, q4, w4, r4, -⟩ :=
    bfsEdge_local hp (show (3 : Nat) < 4 by omega) hnv hnc L3
  refine ⟨L4, ?_, ?_, ?_, ?_⟩
  · exact fun k => le_trans (m4 k) (le_trans (m3 k) (le_trans (m2 k) (m1 k)))
  · exact fun nd hnd => q4 nd (q3 nd (q2 nd (q1 nd hnd)))
  · intro k hk
    by_cases h4 : (bfsNode p n s).visited k < (bfsEdge p n (bfsEdge p n (bfsEdge p n s 0) 1) 2).visited k
    · exact w4 k h4
    · have e4 : (bfsNode p n s).visited k =
          (bfsEdge p n (bfsEdge p n (bfsEdge p n s 0) 1) 2).visited k :=
        le_antisymm (m4 k) (not_lt.mp h4)
      by_cases h3 : (bfsEdge p n (bfsEdge p n (bfsEdge p n s 0) 1) 2).visited k <
          (bfsEdge p n (bfsEdge p n s 0) 1).visited k
      · obtain ⟨nd, hnd, hg, hh⟩ := w3 k h3
        exact ⟨nd, q4 nd hnd, hg, by rw [e4]; exact hh⟩
      · have e3 : (bfsEdge p n (bfsEdge p n (bfsEdge p n s 0) 1) 2).visited k =
            (bfsEdge p n (bfsEdge p n s 0) 1).visited k :=
          le_antisymm (m3 k) (not_lt.mp h3)
        by_cases h2 : (bfsEdge p n (bfsEdge p n s 0) 1).visited k <
            (bfsEdge p n s 0).visited k
        · obtain ⟨nd, hnd, hg, hh⟩ := w2 k h2
          exact ⟨nd, q4 nd (q3 nd hnd), hg, by rw [e4, e3]; exact hh⟩
        · have e2 : (bfsEdge p n (bfsEdge p n s 0) 1).visited k =
              (bfsEdge p n s 0).visited k :=
            le_antisymm (m2 k) (not_lt.mp h2)
          have h1 : (bfsEdge p n s 0).visited k < s.visited k := by
            rw [e4, e3, e2] at hk
            exact hk
          obtain ⟨nd, hnd, hg, hh⟩ := w1 k h1
          exact ⟨nd, q4 nd (q3 nd (q2 nd hnd)), hg, by rw [e4, e3, e2]; exact hh⟩
  · intro d hd hmv
    have hcases : d = 0 ∨ d = 1 ∨ d = 2 ∨ d = 3 := by omega
    rcases hcases with rfl | rfl | rfl | rfl
    · exact le_trans (m4 _) (le_trans (m3 _) (le_trans (m2 _) (r1 hmv)))
    · exact le_trans (m4 _) (le_trans (m3 _) (r2 hmv))
    · exact le_trans (m4 _) (r3 hmv)
    · exact r4 hmv

/-- The state set up before the loop satisfies the invariant, provided the
shared heuristics array holds bytes. -/
theorem initState_inv {p : tile_pattern} {h0 : Int → Int} (hp : p ∈ patterns)
    (hb0 : ∀ x, 0 ≤ h0 x ∧ h0 x ≤ 255) : BInv p h0 (initState p h0) := by
  obtain ⟨h255, hlen7, hroot⟩ := pattern_facts hp
  refine ⟨⟨?_, ?_, ?_, ?_, ?_, ?_⟩, ?_⟩
  · intro nd hnd
    have hnd1 : nd = ⟨rootBoard p, 15, 0⟩ := List.mem_singleton.mp hnd
    rw [hnd1]
    exact ⟨hroot, 0, CPath.root, by norm_num⟩
  · intro k
    show (0 : Int) ≤ (if k = genKey p (rootBoard p) then (0 : Int) else 255) ∧
      (if k = genKey p (rootBoard p) then (0 : Int) else 255) ≤ 255
    split_ifs <;> norm_num
  · intro k
    by_cases hk : k = genKey p (rootBoard p)
    · right
      refine ⟨rootBoard p, 15, 0, hroot, CPath.root, hk.symm, ?_⟩
      show (if k = genKey p (rootBoard p) then (0 : Int) else 255) = ((0 : Nat) : Int)
      rw [if_pos hk]
      norm_num
    · left
      show (if k = genKey p (rootBoard p) then (0 : Int) else 255) = 255
      rw [if_neg hk]
  · intro b e c hc hv
    show (if gen_arr_index b p + p.array_offset =
        gen_arr_index (rootBoard p) p + p.array_offset then (0 : Int)
        else h0 (gen_arr_index b p + p.array_offset)) ≤
      (if genKey p b = genKey p (rootBoard p) then (0 : Int) else 255)
    by_cases hk : genKey p b = genKey p (rootBoard p)
    · obtain ⟨hb, -⟩ := genKey_inj h255 hv hroot hk
      have hslot : gen_arr_index b p + p.array_offset =
          gen_arr_index (rootBoard p) p + p.array_offset := by rw [hb]
      rw [if_pos hslot, if_pos hk]
    · rw [if_neg hk]
      split_ifs with h
      · norm_num
      · exact (hb0 _).2
  · intro x
    left
    rfl
  · intro x
    show (0 : Int) ≤ (if x = gen_arr_index (rootBoard p) p + p.array_offset
        then (0 : Int) else h0 x) ∧
      (if x = gen_arr_index (rootBoard p) p + p.array_offset
        then (0 : Int) else h0 x) ≤ 255
    split_ifs with h
    · norm_num
    · exact hb0 x
  · intro k hk
    by_cases hkk : k = genKey p (rootBoard p)
    · left
      refine ⟨⟨rootBoard p, 15, 0⟩, List.mem_singleton.mpr rfl, hkk.symm, ?_⟩
      show (0 : Int) = (if k = genKey p (rootBoard p) then (0 : Int) else 255)
      rw [if_pos hkk]
    · exfalso
      have h255k : (initState p h0).visited k = 255 := by
        show (if k = genKey p (rootBoard p) then (0 : Int) else 255) = 255
        rw [if_neg hkk]
      rw [h255k] at hk
      exact absurd hk (lt_irrefl _)

/-- The visited-array part of the termination measure: the sum of all
byte entries over the key range of the visited array. -/
def msum (s : BState) : Nat :=
  ∑ k ∈ Finset.range (16 ^ 7), (s.visited (k : Int)).toNat

/-- One direction of the neighbour loop either leaves the measure parts
unchanged, or strictly lowers the visited sum while enqueueing one node. -/
theorem bfsEdge_measure {p : tile_pattern} {s : BState} {n : BNode} {d : Nat}
    (hp : p ∈ patterns) (hd4 : d < 4)
    (hnv : ValidPB p n.board n.empty_index) (hh0 : 0 ≤ n.heuristic) :
    (msum (bfsEdge p n s d) = msum s ∧
      (bfsEdge p n s d).queue.length = s.queue.length) ∨
    (msum (bfsEdge p n s d) < msum s ∧
      (bfsEdge p n s d).queue.length = s.queue.length + 1) := by
  obtain ⟨h255, hlen7, -⟩ := pattern_facts hp
  by_cases hmi : validMove n.empty_index d = -1
  · left
    rw [bfsEdge, if_pos hmi]
    exact ⟨rfl, rfl⟩
  · rcases validMove_spec n.empty_index hnv.e_lt d with h | ⟨-, hmilt, hmine, -⟩
    · exact absurd h hmi
    have hstep : StepB n.board n.empty_index
        (n.board.getD (validMove n.empty_index d).toNat 0)
        (nbBoard n (validMove n.empty_index d).toNat)
        (validMove n.empty_index d).toNat := ⟨d, hd4, hmi, rfl, rfl, rfl⟩
    have hbv' : ValidPB p (nbBoard n (validMove n.empty_index d).toNat)
        (validMove n.empty_index d).toNat := StepB_validPB hnv hstep
    set key := genKey p (nbBoard n (validMove n.empty_index d).toNat) with hkey
    set cost := nbCost n (validMove n.empty_index d).toNat with hcost
    have hcost0 : 0 ≤ cost := by
      rw [hcost, nbCost]
      split_ifs <;> omega
    by_cases hdisc : s.visited key ≤ cost
    · left
      have hvis : (bfsEdge p n s d).visited = s.visited := by
        rw [bfsEdge, if_neg hmi]
        show relaxVisited key cost s.visited = s.visited
        rw [relaxVisited, if_pos hdisc]
      have hque : (bfsEdge p n s d).queue = s.queue := by
        rw [bfsEdge, if_neg hmi]
        show pushIf key cost s.visited s.queue _ = s.queue
        rw [pushIf, if_pos hdisc]
      constructor
      · simp only [msum, hvis]
      · rw [hque]
    · right
      have hvis : (bfsEdge p n s d).visited =
          fun x => if x = key then cost else s.visited x := by
        rw [bfsEdge, if_neg hmi]
        show relaxVisited key cost s.visited = _
        rw [relaxVisited, if_neg hdisc]
      have hque : (bfsEdge p n s d).queue = s.queue ++
          [⟨nbBoard n (validMove n.empty_index d).toNat,
            (validMove n.empty_index d).toNat, cost⟩] := by
        rw [bfsEdge, if_neg hmi]
        show pushIf key cost s.visited s.queue _ = _
        rw [pushIf, if_neg hdisc]
      have hkb := genKey_bounds hbv'
      have hpow : (16 : Int) ^ (p.tiles.length + 1) ≤ 16 ^ 7 := by
        have h16 : (1 : Int) ≤ 16 := by norm_num
        exact pow_le_pow_right₀ h16 hlen7
      have hk0 : 0 ≤ key := hkb.1
      have hk7 : key < 16 ^ 7 := lt_of_lt_of_le hkb.2 hpow
      constructor
      · simp only [msum, hvis]
        apply Finset.sum_lt_sum
        · intro i hi
          by_cases hik : (i : Int) = key
          · rw [if_pos hik, hik]
            omega
          · rw [if_neg hik]
        · refine ⟨key.toNat, Finset.mem_range.mpr ?_, ?_⟩
          · have : ((16 : Int) ^ 7) = ((16 ^ 7 : Nat) : Int) := by norm_num
            omega
          · have hcastk : ((key.toNat : Nat) : Int) = key := Int.toNat_of_nonneg hk0
            rw [hcastk, if_pos rfl]
            omega
      · rw [hque]
        simp

/-- Processing a node never raises the measure. -/
theorem bfsNode_measure {p : tile_pattern} {s : BState} {n : BNode}
    (hp : p ∈ patterns) (hnv : ValidPB p n.board n.empty_index)
    (hh0 : 0 ≤ n.heuristic) :
    2 * msum (bfsNode p n s) + (bfsNode p n s).queue.length ≤
      2 * msum s + s.queue.length := by
  have e1 := bfsEdge_measure (s := s) (d := 0) hp (by omega) hnv hh0
  have e2 := bfsEdge_measure (s := bfsEdge p n s 0) (d := 1) hp (by omega) hnv hh0
  have e3 := bfsEdge_measure (s := bfsEdge p n (bfsEdge p n s 0) 1) (d := 2)
    hp (by omega) hnv hh0
  have e4 := bfsEdge_measure
    (s := bfsEdge p n (bfsEdge p n (bfsEdge p n s 0) 1) 2) (d := 3)
    hp (by omega) hnv hh0
  show 2 * msum (bfsEdge p n (bfsEdge p n (bfsEdge p n (bfsEdge p n s 0) 1) 2) 3) +
      (bfsEdge p n (bfsEdge p n (bfsEdge p n (bfsEdge p n s 0) 1) 2) 3).queue.length ≤
    2 * msum s + s.queue.length
  rcases e1 with ⟨a1, b1⟩ | ⟨a1, b1⟩ <;> rcases e2 with ⟨a2, b2⟩ | ⟨a2, b2⟩ <;>
    rcases e3 with ⟨a3, b3⟩ | ⟨a3, b3⟩ <;> rcases e4 with ⟨a4, b4⟩ | ⟨a4, b4⟩ <;> omega

/-- One full iteration of the `while (front)` loop: the invariant is
preserved, visited entries only decrease, and the measure strictly drops. -/
theorem bfsStep_all {p : tile_pattern} {h0 : Int → Int} (hp : p ∈ patterns)
    {s : BState} {n : BNode} {rest : List BNode}
    (hq : s.queue = n :: rest) (hinv : BInv p h0 s) :
    BInv p h0 (bfsNode p n ⟨rest, s.visited, s.heur⟩) ∧
    (∀ k, (bfsNode p n ⟨rest, s.visited, s.heur⟩).visited k ≤ s.visited k) ∧
    2 * msum (bfsNode p n ⟨rest, s.visited, s.heur⟩) +
      (bfsNode p n ⟨rest, s.visited, s.heur⟩).queue.length + 1 ≤
      2 * msum s + s.queue.length := by
  obtain ⟨h255, hlen7, hroot⟩ := pattern_facts hp
  obtain ⟨A, B, C, D, E, F⟩ := hinv.1
  have hn := A n (by rw [hq]; exact List.mem_cons_self n rest)
  have hloc1 : LocalInv p h0 ⟨rest, s.visited, s.heur⟩ :=
    ⟨fun nd hnd => A nd (by rw [hq]; exact List.mem_cons_of_mem n hnd), B, C, D, E, F⟩
  obtain ⟨L2, m2, q2, w2, er2⟩ := bfsNode_local hp hn.1 hn.2 hloc1
  have hh0 : 0 ≤ n.heuristic := by
    obtain ⟨c, -, hceq⟩ := hn.2
    rw [hceq]
    positivity
  refine ⟨⟨L2, ?_⟩, fun k => m2 k, ?_⟩
  · intro k hk
    by_cases hdrop : (bfsNode p n ⟨rest, s.visited, s.heur⟩).visited k < s.visited k
    · left
      exact w2 k hdrop
    · have heqk : (bfsNode p n ⟨rest, s.visited, s.heur⟩).visited k = s.visited k :=
        le_antisymm (m2 k) (not_lt.mp hdrop)
      have hk2 : s.visited k < 255 := by rw [← heqk]; exact hk
      rcases hinv.2 k hk2 with ⟨nd, hnd, hg, hh⟩ | hall
      · rw [hq] at hnd
        rcases List.mem_cons.mp hnd with rfl | hnd2
        · right
          intro nd2 hv2 hg2 hh2
          have hkeq : genKey p nd2.board = genKey p nd.board := by rw [hg2, hg]
          obtain ⟨hB, hE⟩ := genKey_inj h255 hv2 hn.1 hkeq
          have hH : nd2.heuristic = nd.heuristic := by rw [hh2, heqk, ← hh]
          have hnd2n : nd2 = nd := bnodeEq hB hE hH
          rw [hnd2n]
          exact er2
        · left
          exact ⟨nd, q2 nd hnd2, hg, by rw [heqk]; exact hh⟩
      · right
        intro nd2 hv2 hg2 hh2
        have hh2s : nd2.heuristic = s.visited k := by rw [hh2, heqk]
        intro d hd hmv
        exact le_trans (m2 _) (hall nd2 hv2 hg2 hh2s d hd hmv)
  · have hmN := bfsNode_measure (s := (⟨rest, s.visited, s.heur⟩ : BState)) hp hn.1 hh0
    have hms : msum (⟨rest, s.visited, s.heur⟩ : BState) = msum s := rfl
    have hq1 : ((⟨rest, s.visited, s.heur⟩ : BState)).queue.length = rest.length := rfl
    have hlen : s.queue.length = rest.length + 1 := by rw [hq]; rfl
    omega

/-- Unfolding the loop when the queue is empty. -/
theorem bfsRun_succ_nil {p : tile_pattern} {f : Nat} {s : BState}
    (hq : s.queue = []) : bfsRun p (f + 1) s = s := by
  rw [bfsRun, hq]

/-- Unfolding one iteration of the loop. -/
theorem bfsRun_succ_cons {p : tile_pattern} {f : Nat} {s : BState} {n : BNode}
    {rest : List BNode} (hq : s.queue = n :: rest) :
    bfsRun p (f + 1) s = bfsRun p f (bfsNode p n ⟨rest, s.visited, s.heur⟩) := by
  rw [bfsRun, hq]

/-- The invariant is preserved by any number of loop iterations, and
visited entries never increase. -/
theorem bfsRun_inv {p : tile_pattern} {h0 : Int → Int} (hp : p ∈ patterns) :
    ∀ (fuel : Nat) (s : BState), BInv p h0 s →
      BInv p h0 (bfsRun p fuel s) ∧ ∀ k, (bfsRun p fuel s).visited k ≤ s.visited k := by
  intro fuel
  induction fuel with
  | zero => exact fun s h => ⟨h, fun k => le_refl _⟩
  | succ f ih =>
      intro s h
      cases hq : s.queue with
      | nil =>
          rw [bfsRun_succ_nil hq]
          exact ⟨h, fun k => le_refl _⟩
      | cons n rest =>
          have hs := bfsStep_all hp hq h
          rw [bfsRun_succ_cons hq]
          have hrec := ih _ hs.1
          exact ⟨hrec.1, fun k => le_trans (hrec.2 k) (hs.2.1 k)⟩

/-- With enough fuel the loop drains its queue. -/
theorem bfsRun_drain {p : tile_pattern} {h0 : Int → Int} (hp : p ∈ patterns) :
    ∀ (fuel : Nat) (s : BState), BInv p h0 s →
      2 * msum s + s.queue.length < fuel → (bfsRun p fuel s).queue = [] := by
  intro fuel
  induction fuel with
  | zero => intro s h hm; omega
  | succ f ih =>
      intro s h hm
      cases hq : s.queue with
      | nil =>
          rw [bfsRun_succ_nil hq]
          exact hq
      | cons n rest =>
          have hs := bfsStep_all hp hq h
          rw [bfsRun_succ_cons hq]
          apply ih _ hs.1
          have hlen : s.queue.length = rest.length + 1 := by rw [hq]; rfl
          omega

/-- Once the queue is empty, running takes no steps. -/
theorem bfsRun_nil_fuel {p : tile_pattern} :
    ∀ (g : Nat) (s : BState), s.queue = [] → bfsRun p g s = s := by
  intro g s hq
  cases g with
  | zero => rfl
  | succ f => exact bfsRun_succ_nil hq

/-- After the queue has drained, additional fuel changes nothing. -/
theorem bfsRun_stable {p : tile_pattern} :
    ∀ (a : Nat) (s : BState), (bfsRun p a s).queue = [] →
      ∀ g, a ≤ g → bfsRun p g s = bfsRun p a s := by
  intro a
  induction a with
  | zero =>
      intro s hq g hg
      exact bfsRun_nil_fuel g s hq
  | succ a ih =>
      intro s hq g hg
      cases hqs : s.queue with
      | nil =>
          rw [bfsRun_nil_fuel g s hqs, bfsRun_nil_fuel (a + 1) s hqs]
      | cons n rest =>
          rw [bfsRun_succ_cons hqs] at hq
          rw [bfsRun_succ_cons hqs]
          cases g with
          | zero => omega
          | succ g2 =>
              rw [bfsRun_succ_cons hqs]
              exact ih _ hq g2 (by omega)

/-- The initial contents of the shared heuristics array: `main` sets every
byte to `UINT8_MAX` before the searches. -/
def initialHeuristics : Int → Int := fun _ => 255

/-- The set of pattern-move counts of legal move sequences that reach some
state whose reduced placement has heuristics slot `r`. -/
def reachCosts (p : tile_pattern) (r : Int) : Set Nat :=
  {c | ∃ b e, CPath p b e c ∧ gen_arr_index b p + p.array_offset = r}

/-- The minimum number of pattern-tile moves over all empty-cell positions
and all legal move sequences reaching placement slot `r`. -/
noncomputable def dminP (p : tile_pattern) (r : Int) : Nat := sInf (reachCosts p r)

/-- In a drained state satisfying the invariant, every visited entry is at
most the cost of every path to its state (capped at the byte ceiling). -/
theorem final_visited_le {p : tile_pattern} {h0 : Int → Int} (hp : p ∈ patterns)
    {s : BState} (hinv : BInv p h0 s) (hq : s.queue = [])
    (hr0 : s.visited (genKey p (rootBoard p)) ≤ 0) :
    ∀ {b : List Int} {e c : Nat}, CPath p b e c →
      s.visited (genKey p b) ≤ min ((c : Nat) : Int) 255 := by
  obtain ⟨h255, hlen7, hroot⟩ := pattern_facts hp
  intro b e c hc
  induction hc with
  | root =>
      refine le_min (by simpa using hr0) (le_trans hr0 (by norm_num))
  | @step b e t b2 e2 c hcp hs ih =>
      have hvb := cpath_valid hroot hcp
      have hvb2 : ValidPB p b2 e2 := StepB_validPB hvb hs
      have hvB : ∀ k, 0 ≤ s.visited k ∧ s.visited k ≤ 255 := hinv.1.2.1
      obtain ⟨d, hd4, hmv, hmi, htile, hb2⟩ := hs
      by_cases hlt : s.visited (genKey p b) < 255
      · rcases hinv.2 (genKey p b) hlt with ⟨nd, hnd, -, -⟩ | hall
        · rw [hq] at hnd
          exact absurd hnd (List.not_mem_nil nd)
        · have herel := hall ⟨b, e, s.visited (genKey p b)⟩ hvb rfl rfl
          have hedge : s.visited (genKey p
              (nbBoard ⟨b, e, s.visited (genKey p b)⟩ ((validMove e d).toNat))) ≤
              nbCost ⟨b, e, s.visited (genKey p b)⟩ ((validMove e d).toNat) :=
            herel d hd4 hmv
          have hnb : nbBoard ⟨b, e, s.visited (genKey p b)⟩ ((validMove e d).toNat) = b2 := by
            show (b.set e (b.getD ((validMove e d).toNat) 0)).set
              ((validMove e d).toNat) 0 = b2
            rw [hmi, htile, hb2]
          have hncost : nbCost ⟨b, e, s.visited (genKey p b)⟩ ((validMove e d).toNat) =
              s.visited (genKey p b) + ((stepCostN t : Nat) : Int) := by
            show s.visited (genKey p b) +
              (if b.getD ((validMove e d).toNat) 0 = 255 then (0 : Int) else 1) = _
            rw [hmi, htile, stepCost_cast]
          rw [hnb, hncost] at hedge
          have hB2 := hvB (genKey p b2)
          refine le_min ?_ hB2.2
          have hle1 : s.visited (genKey p b) ≤ (c : Int) :=
            le_trans ih (min_le_left _ _)
          have hcast : ((c + stepCostN t : Nat) : Int) =
              (c : Int) + ((stepCostN t : Nat) : Int) := by
            push_cast
            ring
          rw [hcast]
          exact le_trans hedge (add_le_add_right hle1 _)
      · have h1 := hvB (genKey p b)
        have heq : s.visited (genKey p b) = 255 := by omega
        have hge : (255 : Int) ≤ (c : Int) := by
          have h2 := ih
          rw [heq] at h2
          exact (le_min_iff.mp h2).1
        have hB2 := hvB (genKey p b2)
        have hcast : (c : Int) ≤ ((c + stepCostN t : Nat) : Int) := by
          push_cast
          omega
        refine le_min ?_ hB2.2
        omega

/-- C2: after `bfs_tile_pattern(P, heuristics)` drains its FIFO queue (which
it does, and further fuel changes nothing), for every placement of the
pattern's tiles reachable from the solved configuration the byte
`heuristics[arr_index + P.array_offset]` equals the minimum, over all
empty-cell positions and all legal move sequences from the solved board
(empty at index 15), of the number of moves that move a tile of the pattern
(as a byte, i.e. capped at the 255 sentinel, which also shows the
discard-rule of re-using `visited[k]` for the reduced-slot minimum is
sound); slots for unreachable placements remain 255. -/
theorem bfs_tile_pattern_spec {p : tile_pattern} (hp : p ∈ patterns) :
    ∃ fuel : Nat,
      (∀ g, fuel ≤ g → bfsRun p g (initState p initialHeuristics) =
        bfsRun p fuel (initState p initialHeuristics)) ∧
      (bfsRun p fuel (initState p initialHeuristics)).queue = [] ∧
      (∀ r : Int, (reachCosts p r).Nonempty →
        (bfsRun p fuel (initState p initialHeuristics)).heur r =
          min ((dminP p r : Int)) 255) ∧
      (∀ r : Int, ¬ (reachCosts p r).Nonempty →
        (bfsRun p fuel (initState p initialHeuristics)).heur r = 255) := by
  have hb0 : ∀ x : Int, 0 ≤ initialHeuristics x ∧ initialHeuristics x ≤ 255 := by
    intro x
    constructor <;> norm_num [initialHeuristics]
  have hinit : BInv p initialHeuristics (initState p initialHeuristics) :=
    initState_inv hp hb0
  obtain ⟨h255, hlen7, hroot⟩ := pattern_facts hp
  set F := 2 * msum (initState p initialHeuristics) +
    (initState p initialHeuristics).queue.length + 1 with hF
  have hdrain : (bfsRun p F (initState p initialHeuristics)).queue = [] :=
    bfsRun_drain hp F _ hinit (by rw [hF]; omega)
  have hrun := bfsRun_inv hp F (initState p initialHeuristics) hinit
  have hr0 : (bfsRun p F (initState p initialHeuristics)).visited
      (genKey p (rootBoard p)) ≤ 0 := by
    have h1 := hrun.2 (genKey p (rootBoard p))
    have h2 : (initState p initialHeuristics).visited (genKey p (rootBoard p)) = 0 := by
      show (if genKey p (rootBoard p) = genKey p (rootBoard p) then (0 : Int) else 255) = 0
      rw [if_pos rfl]
    omega
  obtain ⟨hQ, hVB, hVS, hHLE, hHS, hHB⟩ := hrun.1.1
  refine ⟨F, fun g hg => bfsRun_stable F _ hdrain g hg, hdrain, ?_, ?_⟩
  · intro r hne
    have hdm : dminP p r ∈ reachCosts p r := Nat.sInf_mem hne
    obtain ⟨b0, e0, hc0, hs0⟩ := hdm
    have hup : (bfsRun p F (initState p initialHeuristics)).heur r ≤
        min ((dminP p r : Int)) 255 := by
      have h1 := hHLE b0 e0 (dminP p r) hc0 (cpath_valid hroot hc0)
      rw [hs0] at h1
      exact le_trans h1 (final_visited_le hp hrun.1 hdrain hr0 hc0)
    rcases hHS r with hini | ⟨b1, e1, c1, hv1, hc1, hslot, hval⟩
    · by_cases hrr : r = gen_arr_index (rootBoard p) p + p.array_offset
      · have hz : (bfsRun p F (initState p initialHeuristics)).heur r = 0 := by
          rw [hini]
          show (if r = gen_arr_index (rootBoard p) p + p.array_offset then (0 : Int)
            else initialHeuristics r) = 0
          rw [if_pos hrr]
        have h0mem : (0 : Nat) ∈ reachCosts p r := ⟨rootBoard p, 15, CPath.root, hrr.symm⟩
        have hdm0 : dminP p r = 0 := Nat.le_zero.mp (Nat.sInf_le h0mem)
        rw [hz, hdm0]
        norm_num
      · have hz : (bfsRun p F (initState p initialHeuristics)).heur r = 255 := by
          rw [hini]
          show (if r = gen_arr_index (rootBoard p) p + p.array_offset then (0 : Int)
            else initialHeuristics r) = 255
          rw [if_neg hrr]
          rfl
        have h2 := hup
        rw [hz] at h2
        have h3 : min ((dminP p r : Int)) 255 = 255 :=
          le_antisymm (min_le_right _ _) h2
        rw [hz, h3]
    · have hc1mem : c1 ∈ reachCosts p r := ⟨b1, e1, hc1, hslot.symm⟩
      have hdle : dminP p r ≤ c1 := Nat.sInf_le hc1mem
      have hlow : min ((dminP p r : Int)) 255 ≤
          (bfsRun p F (initState p initialHeuristics)).heur r := by
        rw [hval]
        exact le_trans (min_le_left _ _) (by exact_mod_cast hdle)
      exact le_antisymm hup hlow
  · intro r hne
    rcases hHS r with hini | ⟨b1, e1, c1, hv1, hc1, hslot, hval⟩
    · by_cases hrr : r = gen_arr_index (rootBoard p) p + p.array_offset
      · exact absurd ⟨0, rootBoard p, 15, CPath.root, hrr.symm⟩ hne
      · rw [hini]
        show (if r = gen_arr_index (rootBoard p) p + p.array_offset then (0 : Int)
          else initialHeuristics r) = 255
        rw [if_neg hrr]
        rfl
    · exact absurd ⟨c1, b1, e1, hc1, hslot.symm⟩ hne

/-- The C2 theorem applied at the third pattern, all hypotheses discharged. -/
theorem bfs_tile_pattern_spec_witness :
    pattern2 ∈ patterns ∧
    ∃ fuel : Nat,
      (∀ g, fuel ≤ g → bfsRun pattern2 g (initState pattern2 initialHeuristics) =
        bfsRun pattern2 fuel (initState pattern2 initialHeuristics)) ∧
      (bfsRun pattern2 fuel (initState pattern2 initialHeuristics)).queue = [] ∧
      (∀ r : Int, (reachCosts pattern2 r).Nonempty →
        (bfsRun pattern2 fuel (initState pattern2 initialHeuristics)).heur r =
          min ((dminP pattern2 r : Int)) 255) ∧
      (∀ r : Int, ¬ (reachCosts pattern2 r).Nonempty →
        (bfsRun pattern2 fuel (initState pattern2 initialHeuristics)).heur r = 255) :=
  ⟨by decide, bfs_tile_pattern_spec (by decide)⟩

/-! ## Claim C1: the iterative-deepening driver -/

/-- A valid board holds exactly one empty cell. -/
theorem validBoard_zero_count {b : List Int} (hv : ValidBoard b) : b.count 0 = 1 :=
  hv.count_eq (by decide)

/-- The geometry of one step: the new empty cell is a distinct in-range
cell, the new board has 16 cells and is empty there. -/
theorem StepB_facts {b : List Int} {e : Nat} {t : Int} {b2 : List Int} {e2 : Nat}
    (hlen : b.length = 16) (he : e < 16) (hs : StepB b e t b2 e2) :
    e2 < 16 ∧ e2 ≠ e ∧ b2.length = 16 ∧ b2.getD e2 0 = 0 := by
  obtain ⟨d, hd4, hne, hmi, htile, hb2⟩ := hs
  rcases validMove_spec e he d with h | ⟨-, hlt, hnee, -⟩
  · exact absurd h hne
  refine ⟨by omega, by omega, ?_, ?_⟩
  · rw [hb2, List.length_set, List.length_set, hlen]
  · rw [hb2]
    exact getD_set_self _ _ _ (by rw [List.length_set]; omega)

/-- A slid tile is never the empty marker. -/
theorem StepB_tile_ne_zero {b : List Int} {e : Nat} {t : Int} {b2 : List Int}
    {e2 : Nat} (hv : ValidBoard b) (he : e < 16) (hez : b.getD e 0 = 0)
    (hs : StepB b e t b2 e2) : t ≠ 0 := by
  obtain ⟨d, hd4, hne, hmi, htile, hb2⟩ := hs
  rcases validMove_spec e he d with h | ⟨-, hlt, hnee, -⟩
  · exact absurd h hne
  intro ht0
  have hcnt := validBoard_zero_count hv
  have hlen := hv.length
  have h1 : e = posN b 0 := eq_findIdx_of_getD hcnt e (by omega) hez
  have h2 : e2 = posN b 0 :=
    eq_findIdx_of_getD hcnt e2 (by omega) (by rw [ht0] at htile; exact htile)
  omega

/-- A slide preserves board validity. -/
theorem StepB_validBoard {b : List Int} {e : Nat} {t : Int} {b2 : List Int}
    {e2 : Nat} (hv : ValidBoard b) (he : e < 16) (hez : b.getD e 0 = 0)
    (hs : StepB b e t b2 e2) : ValidBoard b2 := by
  have hcount := StepB_count hs hv.length he hez
  rw [ValidBoard, List.perm_iff_count]
  intro v
  rw [hcount v]
  exact List.Perm.count_eq hv v

/-- Two consecutive slides of the same tile cancel: the second must slide
the tile back into the cell it came from, restoring the previous state. -/
theorem StepB_cancel {b : List Int} {e : Nat} {t : Int} {b1 : List Int}
    {e1 : Nat} {b2 : List Int} {e2 : Nat}
    (hv : ValidBoard b) (he : e < 16) (hez : b.getD e 0 = 0)
    (h1 : StepB b e t b1 e1) (h2 : StepB b1 e1 t b2 e2) : b2 = b ∧ e2 = e := by
  have hlen := hv.length
  have hv1 : ValidBoard b1 := StepB_validBoard hv he hez h1
  obtain ⟨he1, he1e, hlen1, hez1⟩ := StepB_facts hlen he h1
  have htnz : t ≠ 0 := StepB_tile_ne_zero hv he hez h1
  obtain ⟨d, hd4, hne, hmi, htile, hb1⟩ := h1
  obtain ⟨d2, hd42, hne2, hmi2, htile2, hb2⟩ := h2
  obtain ⟨he2, he2e1, hlen2, hez2⟩ :=
    StepB_facts hlen1 he1 ⟨d2, hd42, hne2, hmi2, htile2, hb2⟩
  have hb1e : b1.getD e 0 = t := by
    rw [hb1, getD_set_ne _ _ _ _ (fun hh => he1e hh), getD_set_self _ _ _ (by omega)]
  have htb : t ∈ boardValues := by
    rw [← htile]
    exact getD_mem_boardValues hv (by omega)
  have hcnt1 : b1.count t = 1 := hv1.count_eq htb
  have hepos : e = posN b1 t := eq_findIdx_of_getD hcnt1 e (by omega) hb1e
  have he2pos : e2 = posN b1 t := eq_findIdx_of_getD hcnt1 e2 (by omega) htile2
  have he2eq : e2 = e := by omega
  refine ⟨?_, he2eq⟩
  have hx1 : (b.set e t).set e1 t = b.set e t := by
    have hlt : e1 < (b.set e t).length := by rw [List.length_set]; omega
    have hs := set_self_of_getD (b.set e t) e1 hlt
    rwa [getD_set_ne _ _ _ _ (show e ≠ e1 from fun hh => he1e hh.symm), htile] at hs
  rw [hb2, he2eq, hb1, List.set_set, hx1, List.set_set]
  conv_lhs => rw [← hez]
  exact set_self_of_getD b e (by omega)

/-- The solution lengths of a position: lengths of legal slide sequences
ending at the solved board with the empty cell at 15. -/
def solLens (b : List Int) (e : Nat) : Set Nat :=
  {n | ∃ ts, PathB b e ts solvedBoard 15 ∧ ts.length = n}

/-- The optimal number of moves of a position. -/
noncomputable def optLen (b : List Int) (e : Nat) : Nat := sInf (solLens b e)

/-- Any solving sequence can be thinned to one that never slides the same
tile twice in a row, without getting longer. -/
theorem path_dedup : ∀ (n : Nat) (ts : List Int) (b : List Int) (e : Nat),
    ts.length ≤ n → ValidBoard b → e < 16 → b.getD e 0 = 0 →
    PathB b e ts solvedBoard 15 →
    ∃ ts2, PathB b e ts2 solvedBoard 15 ∧ ts2.length ≤ ts.length ∧
      List.Chain' (fun x y => x ≠ y) ts2 := by
  intro n
  induction n with
  | zero =>
      intro ts b e hlen hv he hez hp
      have hnil : ts = [] := List.eq_nil_of_length_eq_zero (by omega)
      subst hnil
      exact ⟨[], hp, le_refl _, by simp⟩
  | succ n ihn =>
      intro ts b e hlen hv he hez hp
      cases hp with
      | nil => exact ⟨[], PathB.nil _ _, by simp, by simp⟩
      | @cons _ _ t b1 e1 ts1 _ _ hstep htail =>
          obtain ⟨he1, he1e, hlen1, hez1⟩ := StepB_facts hv.length he hstep
          have hv1 : ValidBoard b1 := StepB_validBoard hv he hez hstep
          cases htail with
          | nil =>
              exact ⟨[t], PathB.cons hstep (PathB.nil _ _), le_refl _, by simp⟩
          | @cons _ _ t2 b3 e3 ts2 _ _ hstep2 htail2 =>
              by_cases htt : t2 = t
              · subst htt
                obtain ⟨hb3, he3⟩ := StepB_cancel hv he hez hstep hstep2
                rw [hb3, he3] at htail2
                obtain ⟨ts3, hp3, hl3, hc3⟩ := ihn ts2 b e
                  (by simp at hlen; omega) hv he hez htail2
                refine ⟨ts3, hp3, ?_, hc3⟩
                simp only [List.length_cons]
                omega
              · obtain ⟨ts3, hp3, hl3, hc3⟩ := ihn (t2 :: ts2) b1 e1
                  (by simp at hlen ⊢; omega) hv1 he1 hez1 (PathB.cons hstep2 htail2)
                cases ts3 with
                | nil =>
                    refine ⟨[t], PathB.cons hstep hp3, ?_, by simp⟩
                    simp only [List.length_cons, List.length_nil]
                    omega
                | cons u us =>
                    by_cases hut : u = t
                    · subst hut
                      cases hp3 with
                      | @cons _ _ _ bu eu _ _ _ hstepu htailu =>
                          obtain ⟨hbu, heu⟩ := StepB_cancel hv he hez hstep hstepu
                          rw [hbu, heu] at htailu
                          obtain ⟨ts4, hp4, hl4, hc4⟩ := ihn us b e
                            (by simp at hlen hl3; omega) hv he hez htailu
                          refine ⟨ts4, hp4, ?_, hc4⟩
                          simp only [List.length_cons] at hl3 ⊢
                          omega
                    · refine ⟨t :: u :: us, PathB.cons hstep hp3, ?_, ?_⟩
                      · simp only [List.length_cons] at hl3 ⊢
                        omega
                      · rw [List.chain'_cons]
                        exact ⟨fun hh => hut hh.symm, hc3⟩

/-- The bound contract of a `depth_first_search`-style call: on failure the
returned value exceeds the bound; on success it is the number of moves that
were appended, and it does not exceed the bound. -/
def DfsB (H : List Int → Int) (f : Node → Int → Node × Bool × Int) : Prop :=
  ∀ n bound, NodeWF H n → bound < intMax →
    ((f n bound).2.1 = false → bound < (f n bound).2.2) ∧
    ((f n bound).2.1 = true →
      (f n bound).2.2 = ((f n bound).1.num_moves : Int) - (n.num_moves : Int) ∧
      (f n bound).2.2 ≤ max bound 0)

/-- The bound contract holds through the neighbour loop. -/
theorem dfsLoop_bounds (H : List Int → Int) (hnn : ∀ b, 0 ≤ H b)
    (rec : Node → Int → Node × Bool × Int)
    (hrecS : DfsSpec H rec) (hrecB : DfsB H rec) :
    ∀ (ds : List Nat) (n : Node) (bound nb : Int), NodeWF H n →
      bound < intMax → bound < nb →
      ((dfsLoop H rec n bound ds nb).2.1 = false →
        bound < (dfsLoop H rec n bound ds nb).2.2) ∧
      ((dfsLoop H rec n bound ds nb).2.1 = true →
        (dfsLoop H rec n bound ds nb).2.2 =
          (((dfsLoop H rec n bound ds nb).1.num_moves : Int)) - (n.num_moves : Int) ∧
        (dfsLoop H rec n bound ds nb).2.2 ≤ max bound 0) := by
  intro ds
  induction ds with
  | nil =>
      intro n bound nb hwf hbi hnb
      exact ⟨fun _ => hnb, fun hs => absurd hs (by simp [dfsLoop])⟩
  | cons d ds ih =>
      intro n bound nb hwf hbi hnb
      rw [dfsLoop]
      by_cases hmi : validMove n.empty_index d = -1
      · rw [if_pos hmi]
        exact ih n bound nb hwf hbi hnb
      · rw [if_neg hmi]
        rcases validMove_spec n.empty_index hwf.emp_lt d with hmi2 | ⟨-, hlt, hnee, hd4⟩
        · exact absurd hmi2 hmi
        by_cases hguard :
            parentGuard n (n.board.getD (validMove n.empty_index d).toNat 0) = false
        · rw [if_pos hguard]
          exact ih n bound nb hwf hbi hnb
        · rw [if_neg hguard]
          set mi : Nat := (validMove n.empty_index d).toNat with hmi_def
          set tile : Int := n.board.getD mi 0 with htile_def
          have wf1 : NodeWF H (applyMoveNode H n mi) :=
            applyMoveNode_wf H n hwf mi hlt hnee
          have hn1num : (applyMoveNode H n mi).num_moves = n.num_moves + 1 := rfl
          have hundo :
              undoMoveNode (applyMoveNode H n mi) mi tile n.empty_index n.heuristic = n :=
            undo_applyMove H n hwf mi hlt hnee
          have hge : (0 : Int) ≤ (applyMoveNode H n mi).heuristic := hnn _
          by_cases hb : 1 + (applyMoveNode H n mi).heuristic ≤ bound
          · rw [if_pos hb]
            have spec1 := hrecS (applyMoveNode H n mi) (bound - 1) wf1
            have bnd1 := hrecB (applyMoveNode H n mi) (bound - 1) wf1 (by omega)
            by_cases hs : (rec (applyMoveNode H n mi) (bound - 1)).2.1 = true
            · rw [if_pos hs]
              obtain ⟨hz, hzle⟩ := bnd1.2 hs
              obtain ⟨wf2, -, hnum, -, -⟩ := spec1.2 hs
              refine ⟨fun hc => absurd hc (by simp), fun _ => ⟨?_, ?_⟩⟩
              · show 1 + (rec (applyMoveNode H n mi) (bound - 1)).2.2 =
                  ((rec (applyMoveNode H n mi) (bound - 1)).1.num_moves : Int) -
                    (n.num_moves : Int)
                rw [hz, hn1num]
                push_cast
                ring
              · show 1 + (rec (applyMoveNode H n mi) (bound - 1)).2.2 ≤ max bound 0
                have hmax : max (bound - 1) 0 = bound - 1 := by omega
                rw [hmax] at hzle
                have hbge : (1 : Int) ≤ bound := by omega
                have hmax2 : max bound 0 = bound := by omega
                omega
            · rw [if_neg hs]
              rw [Bool.not_eq_true] at hs
              have hr1 : (rec (applyMoveNode H n mi) (bound - 1)).1 =
                  applyMoveNode H n mi := spec1.1 hs
              have hzgt : bound - 1 < (rec (applyMoveNode H n mi) (bound - 1)).2.2 :=
                bnd1.1 hs
              rw [hr1, hundo]
              exact ih n bound _ hwf hbi (by
                refine lt_min hnb ?_
                omega)
          · rw [if_neg hb]
            rw [hundo]
            exact ih n bound _ hwf hbi (by
              refine lt_min hnb ?_
              omega)

/-- Every fuel level of `depth_first_search` satisfies the bound contract. -/
theorem dfs_bounds (H : List Int → Int) (hnn : ∀ b, 0 ≤ H b) :
    ∀ fuel : Nat, DfsB H (depth_first_search H fuel) := by
  intro fuel
  induction fuel with
  | zero =>
      intro n bound hwf hbi
      rw [depth_first_search]
      by_cases h0 : n.heuristic = 0
      · rw [if_pos h0]
        refine ⟨fun hc => absurd hc (by simp), fun _ => ⟨?_, ?_⟩⟩
        · show (0 : Int) = (n.num_moves : Int) - (n.num_moves : Int)
          ring
        · show (0 : Int) ≤ max bound 0
          exact le_max_right _ _
      · rw [if_neg h0]
        exact ⟨fun _ => hbi, fun hs => absurd hs (by simp)⟩
  | succ fuel ihf =>
      intro n bound hwf hbi
      rw [depth_first_search]
      by_cases h0 : n.heuristic = 0
      · rw [if_pos h0]
        refine ⟨fun hc => absurd hc (by simp), fun _ => ⟨?_, ?_⟩⟩
        · show (0 : Int) = (n.num_moves : Int) - (n.num_moves : Int)
          ring
        · show (0 : Int) ≤ max bound 0
          exact le_max_right _ _
      · rw [if_neg h0]
        exact dfsLoop_bounds H hnn _ (dfs_spec H fuel) ihf [0, 1, 2, 3] n bound intMax
          hwf hbi hbi

/-- Inversion for empty slide sequences. -/
theorem PathB_nil_inv {b : List Int} {e : Nat} {b2 : List Int} {e2 : Nat}
    (h : PathB b e [] b2 e2) : b = b2 ∧ e = e2 := by
  cases h
  exact ⟨rfl, rfl⟩

/-- Completeness of the neighbour loop: if some direction in the remaining
list starts a repeat-free solving sequence that fits in the bound (and in
the recursion fuel), the loop sets the solved flag. -/
theorem dfsLoop_complete (H : List Int → Int)
    (hadm : ∀ b e ts, ValidBoard b → e < 16 → b.getD e 0 = 0 →
      PathB b e ts solvedBoard 15 → H b ≤ (ts.length : Int))
    (rec : Node → Int → Node × Bool × Int) (fuel : Nat)
    (hrecS : DfsSpec H rec)
    (hrecC : ∀ (n : Node) (bound : Int) (ts : List Int), NodeWF H n →
      ValidBoard n.board → PathB n.board n.empty_index ts solvedBoard 15 →
      List.Chain' (fun x y => x ≠ y) ts →
      (∀ t0, ts.head? = some t0 → t0 ≠ n.moves (guardIndex n)) →
      (ts.length : Int) ≤ bound → ts.length ≤ fuel → (rec n bound).2.1 = true) :
    ∀ (ds : List Nat) (n : Node) (bound nb : Int) (t : Int) (ts2 : List Int)
      (b1 : List Int) (e1 : Nat) (d : Nat),
      NodeWF H n → ValidBoard n.board → d < 4 →
      validMove n.empty_index d ≠ -1 → (validMove n.empty_index d).toNat = e1 →
      n.board.getD e1 0 = t → b1 = (n.board.set n.empty_index t).set e1 0 →
      d ∈ ds → PathB b1 e1 ts2 solvedBoard 15 →
      List.Chain' (fun x y => x ≠ y) (t :: ts2) →
      t ≠ n.moves (guardIndex n) →
      (ts2.length : Int) + 1 ≤ bound → ts2.length ≤ fuel →
      (dfsLoop H rec n bound ds nb).2.1 = true := by
  intro ds
  induction ds with
  | nil =>
      intro n bound nb t ts2 b1 e1 d hwf hv hd4 hne hmi htile hb1 hmem
      exact absurd hmem (List.not_mem_nil d)
  | cons d0 ds ih =>
      intro n bound nb t ts2 b1 e1 d hwf hv hd4 hne hmi htile hb1 hmem
        hpath2 hchain hgt hlen2 hfuel2
      rw [dfsLoop]
      by_cases hmi0 : validMove n.empty_index d0 = -1
      · rw [if_pos hmi0]
        rcases List.mem_cons.mp hmem with rfl | hmem2
        · exact absurd hmi0 hne
        · exact ih n bound nb t ts2 b1 e1 d hwf hv hd4 hne hmi htile hb1 hmem2
            hpath2 hchain hgt hlen2 hfuel2
      · rw [if_neg hmi0]
        rcases validMove_spec n.empty_index hwf.emp_lt d0 with hmi2 | ⟨-, hlt0, hnee0, -⟩
        · exact absurd hmi2 hmi0
        by_cases hguard0 :
            parentGuard n (n.board.getD (validMove n.empty_index d0).toNat 0) = false
        · rw [if_pos hguard0]
          rcases List.mem_cons.mp hmem with rfl | hmem2
          · exfalso
            have hgtrue : parentGuard n
                (n.board.getD (validMove n.empty_index d).toNat 0) = true := by
              rw [hmi, htile, parentGuard]
              simp only [bne_iff_ne, ne_eq, decide_not]
              simpa using hgt
            rw [hgtrue] at hguard0
            cases hguard0
          · exact ih n bound nb t ts2 b1 e1 d hwf hv hd4 hne hmi htile hb1 hmem2
              hpath2 hchain hgt hlen2 hfuel2
        · rw [if_neg hguard0]
          set mi0 : Nat := (validMove n.empty_index d0).toNat with hmi0_def
          set tile0 : Int := n.board.getD mi0 0 with htile0_def
          have wf1 : NodeWF H (applyMoveNode H n mi0) :=
            applyMoveNode_wf H n hwf mi0 hlt0 hnee0
          have hundo0 :
              undoMoveNode (applyMoveNode H n mi0) mi0 tile0 n.empty_index n.heuristic
                = n := undo_applyMove H n hwf mi0 hlt0 hnee0
          by_cases hb0 : 1 + (applyMoveNode H n mi0).heuristic ≤ bound
          · rw [if_pos hb0]
            by_cases hs : (rec (applyMoveNode H n mi0) (bound - 1)).2.1 = true
            · rw [if_pos hs]
            · rcases List.mem_cons.mp hmem with rfl | hmem2
              · exfalso
                apply hs
                have hcb : (applyMoveNode H n mi0).board = b1 := by
                  show (n.board.set n.empty_index (n.board.getD mi0 0)).set mi0 0 = b1
                  rw [hmi0_def, hmi, htile, hb1]
                have hce : (applyMoveNode H n mi0).empty_index = e1 := by
                  show mi0 = e1
                  rw [hmi0_def, hmi]
                have hv1 : ValidBoard b1 :=
                  StepB_validBoard hv hwf.emp_lt hwf.emp_zero
                    ⟨d, hd4, hne, hmi, htile, hb1⟩
                have hgslot : (applyMoveNode H n mi0).moves
                    (guardIndex (applyMoveNode H n mi0)) = t := by
                  have hgi : guardIndex (applyMoveNode H n mi0) = (n.num_moves : Int) := by
                    show ((n.num_moves + 1 : Nat) : Int) - 1 = (n.num_moves : Int)
                    push_cast
                    ring
                  rw [hgi]
                  show (if (n.num_moves : Int) = (n.num_moves : Int)
                    then n.board.getD mi0 0 else n.moves _) = t
                  rw [if_pos rfl, hmi0_def, hmi]
                  exact htile
                apply hrecC (applyMoveNode H n mi0) (bound - 1) ts2 wf1
                · rw [hcb]
                  exact hv1
                · rw [hcb, hce]
                  exact hpath2
                · exact hchain.tail
                · intro t0 h0
                  cases ts2 with
                  | nil => simp at h0
                  | cons u us =>
                      have ht0u : u = t0 := by simpa using h0
                      subst ht0u
                      rw [hgslot]
                      exact Ne.symm (List.chain'_cons.mp hchain).1
                · omega
                · omega
              · rw [if_neg hs]
                rw [Bool.not_eq_true] at hs
                have hr1 : (rec (applyMoveNode H n mi0) (bound - 1)).1 =
                    applyMoveNode H n mi0 := (hrecS (applyMoveNode H n mi0)
                      (bound - 1) wf1).1 hs
                rw [hr1, hundo0]
                exact ih n bound _ t ts2 b1 e1 d hwf hv hd4 hne hmi htile hb1 hmem2
                  hpath2 hchain hgt hlen2 hfuel2
          · rcases List.mem_cons.mp hmem with rfl | hmem2
            · exfalso
              apply hb0
              have hcb : (applyMoveNode H n mi0).board = b1 := by
                show (n.board.set n.empty_index (n.board.getD mi0 0)).set mi0 0 = b1
                rw [hmi0_def, hmi, htile, hb1]
              have hv1 : ValidBoard b1 :=
                StepB_validBoard hv hwf.emp_lt hwf.emp_zero
                  ⟨d, hd4, hne, hmi, htile, hb1⟩
              have hH := hadm b1 e1 ts2 hv1 (by omega)
                (by rw [hb1]; exact getD_set_self _ _ _ (by rw [List.length_set, hv.length]; omega))
                hpath2
              have hch : (applyMoveNode H n mi0).heuristic = H b1 := by
                show H ((applyMoveNode H n mi0).board) = H b1
                rw [hcb]
              omega
            · rw [if_neg hb0]
              rw [hundo0]
              exact ih n bound _ t ts2 b1 e1 d hwf hv hd4 hne hmi htile hb1 hmem2
                hpath2 hchain hgt hlen2 hfuel2

/-- Completeness of `depth_first_search`: a repeat-free solving sequence
within the bound and the fuel makes the search succeed. -/
theorem dfs_complete (H : List Int → Int)
    (hadm : ∀ b e ts, ValidBoard b → e < 16 → b.getD e 0 = 0 →
      PathB b e ts solvedBoard 15 → H b ≤ (ts.length : Int))
    (hs0 : H solvedBoard = 0) :
    ∀ (fuel : Nat) (n : Node) (bound : Int) (ts : List Int),
      NodeWF H n → ValidBoard n.board →
      PathB n.board n.empty_index ts solvedBoard 15 →
      List.Chain' (fun x y => x ≠ y) ts →
      (∀ t0, ts.head? = some t0 → t0 ≠ n.moves (guardIndex n)) →
      (ts.length : Int) ≤ bound → ts.length ≤ fuel →
      (depth_first_search H fuel n bound).2.1 = true := by
  intro fuel
  induction fuel with
  | zero =>
      intro n bound ts hwf hv hpath hchain hhead hlen hfuel
      have hnil : ts = [] := List.eq_nil_of_length_eq_zero (by omega)
      subst hnil
      obtain ⟨hbs, -⟩ := PathB_nil_inv hpath
      have h0 : n.heuristic = 0 := by rw [hwf.heur, hbs]; exact hs0
      rw [depth_first_search, if_pos h0]
  | succ fuel ihf =>
      intro n bound ts hwf hv hpath hchain hhead hlen hfuel
      by_cases h0 : n.heuristic = 0
      · rw [depth_first_search, if_pos h0]
      · rw [depth_first_search, if_neg h0]
        cases ts with
        | nil =>
            exfalso
            obtain ⟨hbs, -⟩ := PathB_nil_inv hpath
            exact h0 (by rw [hwf.heur, hbs]; exact hs0)
        | cons t ts2 =>
            cases hpath with
            | cons hstep htail =>
                obtain ⟨d, hd4, hne, hmi, htile, hb1⟩ := hstep
                refine dfsLoop_complete H hadm _ fuel (dfs_spec H fuel) ihf
                  [0, 1, 2, 3] n bound intMax t ts2 _ _ d hwf hv hd4 hne hmi htile hb1
                  ?_ htail hchain (hhead t rfl) ?_ ?_
                · interval_cases d <;> decide
                · simp only [List.length_cons] at hlen
                  push_cast at hlen ⊢
                  omega
                · simp only [List.length_cons] at hfuel
                  omega

/-- Without a solve, the neighbour loop can only lower the accumulator. -/
theorem dfsLoop_le_nb (H : List Int → Int) (rec : Node → Int → Node × Bool × Int) :
    ∀ (ds : List Nat) (n : Node) (bound nb : Int),
      (dfsLoop H rec n bound ds nb).2.1 = false →
      (dfsLoop H rec n bound ds nb).2.2 ≤ nb := by
  intro ds
  induction ds with
  | nil => intro n bound nb _; exact le_refl _
  | cons d ds ih =>
      intro n bound nb hf
      rw [dfsLoop] at hf ⊢
      by_cases hmi : validMove n.empty_index d = -1
      · rw [if_pos hmi] at hf ⊢
        exact ih n bound nb hf
      · rw [if_neg hmi] at hf ⊢
        by_cases hguard :
            parentGuard n (n.board.getD (validMove n.empty_index d).toNat 0) = false
        · rw [if_pos hguard] at hf ⊢
          exact ih n bound nb hf
        · rw [if_neg hguard] at hf ⊢
          by_cases hb : 1 + (applyMoveNode H n (validMove n.empty_index d).toNat).heuristic
              ≤ bound
          · rw [if_pos hb] at hf ⊢
            by_cases hs : (rec (applyMoveNode H n (validMove n.empty_index d).toNat)
                (bound - 1)).2.1 = true
            · rw [if_pos hs] at hf
              simp at hf
            · rw [if_neg hs] at hf ⊢
              exact le_trans (ih _ bound _ hf) (min_le_left _ _)
          · rw [if_neg hb] at hf ⊢
            exact le_trans (ih _ bound _ hf) (min_le_left _ _)

/-- The cap on the returned bound: a repeat-free solving sequence whose
first move is admissible caps the value the loop can return. -/
theorem dfsLoop_cap (H : List Int → Int) (hnn : ∀ b, 0 ≤ H b)
    (hadm : ∀ b e ts, ValidBoard b → e < 16 → b.getD e 0 = 0 →
      PathB b e ts solvedBoard 15 → H b ≤ (ts.length : Int))
    (rec : Node → Int → Node × Bool × Int) (fuel : Nat)
    (hrecS : DfsSpec H rec)
    (hrecCap : ∀ (n : Node) (bound : Int) (ts : List Int), NodeWF H n →
      ValidBoard n.board → PathB n.board n.empty_index ts solvedBoard 15 →
      List.Chain' (fun x y => x ≠ y) ts →
      (∀ t0, ts.head? = some t0 → t0 ≠ n.moves (guardIndex n)) →
      0 ≤ bound → ts.length ≤ fuel →
      (rec n bound).2.1 = true ∨ (rec n bound).2.2 ≤ (ts.length : Int)) :
    ∀ (ds : List Nat) (n : Node) (bound nb : Int) (t : Int) (ts2 : List Int)
      (b1 : List Int) (e1 : Nat) (d : Nat),
      NodeWF H n → ValidBoard n.board → d < 4 →
      validMove n.empty_index d ≠ -1 → (validMove n.empty_index d).toNat = e1 →
      n.board.getD e1 0 = t → b1 = (n.board.set n.empty_index t).set e1 0 →
      d ∈ ds → PathB b1 e1 ts2 solvedBoard 15 →
      List.Chain' (fun x y => x ≠ y) (t :: ts2) →
      t ≠ n.moves (guardIndex n) →
      0 ≤ bound → ts2.length ≤ fuel →
      (dfsLoop H rec n bound ds nb).2.1 = true ∨
      (dfsLoop H rec n bound ds nb).2.2 ≤ (ts2.length : Int) + 1 := by
  intro ds
  induction ds with
  | nil =>
      intro n bound nb t ts2 b1 e1 d hwf hv hd4 hne hmi htile hb1 hmem
      exact absurd hmem (List.not_mem_nil d)
  | cons d0 ds ih =>
      intro n bound nb t ts2 b1 e1 d hwf hv hd4 hne hmi htile hb1 hmem
        hpath2 hchain hgt hb0le hfuel2
      rw [dfsLoop]
      by_cases hmi0 : validMove n.empty_index d0 = -1
      · rw [if_pos hmi0]
        rcases List.mem_cons.mp hmem with rfl | hmem2
        · exact absurd hmi0 hne
        · exact ih n bound nb t ts2 b1 e1 d hwf hv hd4 hne hmi htile hb1 hmem2
            hpath2 hchain hgt hb0le hfuel2
      · rw [if_neg hmi0]
        rcases validMove_spec n.empty_index hwf.emp_lt d0 with hmi2 | ⟨-, hlt0, hnee0, -⟩
        · exact absurd hmi2 hmi0
        by_cases hguard0 :
            parentGuard n (n.board.getD (validMove n.empty_index d0).toNat 0) = false
        · rw [if_pos hguard0]
          rcases List.mem_cons.mp hmem with rfl | hmem2
          · exfalso
            have hgtrue : parentGuard n
                (n.board.getD (validMove n.empty_index d).toNat 0) = true := by
              rw [hmi, htile, parentGuard]
              simp only [bne_iff_ne, ne_eq, decide_not]
              simpa using hgt
            rw [hgtrue] at hguard0
            cases hguard0
          · exact ih n bound nb t ts2 b1 e1 d hwf hv hd4 hne hmi htile hb1 hmem2
              hpath2 hchain hgt hb0le hfuel2
        · rw [if_neg hguard0]
          set mi0 : Nat := (validMove n.empty_index d0).toNat with hmi0_def
          set tile0 : Int := n.board.getD mi0 0 with htile0_def
          have wf1 : NodeWF H (applyMoveNode H n mi0) :=
            applyMoveNode_wf H n hwf mi0 hlt0 hnee0
          have hundo0 :
              undoMoveNode (applyMoveNode H n mi0) mi0 tile0 n.empty_index n.heuristic
                = n := undo_applyMove H n hwf mi0 hlt0 hnee0
          rcases List.mem_cons.mp hmem with rfl | hmem2
          · -- the path direction itself: its contribution caps the accumulator
            have hcb : (applyMoveNode H n mi0).board = b1 := by
              show (n.board.set n.empty_index (n.board.getD mi0 0)).set mi0 0 = b1
              rw [hmi0_def, hmi, htile, hb1]
            have hce : (applyMoveNode H n mi0).empty_index = e1 := by
              show mi0 = e1
              rw [hmi0_def, hmi]
            have hv1 : ValidBoard b1 :=
              StepB_validBoard hv hwf.emp_lt hwf.emp_zero ⟨d, hd4, hne, hmi, htile, hb1⟩
            have hch : (applyMoveNode H n mi0).heuristic = H b1 := by
              show H ((applyMoveNode H n mi0).board) = H b1
              rw [hcb]
            have hHb1 := hadm b1 e1 ts2 hv1 (by omega)
              (by rw [hb1]; exact getD_set_self _ _ _ (by rw [List.length_set, hv.length]; omega))
              hpath2
            by_cases hb : 1 + (applyMoveNode H n mi0).heuristic ≤ bound
            · rw [if_pos hb]
              by_cases hs : (rec (applyMoveNode H n mi0) (bound - 1)).2.1 = true
              · rw [if_pos hs]
                left
                rfl
              · rw [if_neg hs]
                have hgslot : (applyMoveNode H n mi0).moves
                    (guardIndex (applyMoveNode H n mi0)) = t := by
                  have hgi : guardIndex (applyMoveNode H n mi0) = (n.num_moves : Int) := by
                    show ((n.num_moves + 1 : Nat) : Int) - 1 = (n.num_moves : Int)
                    push_cast
                    ring
                  rw [hgi]
                  show (if (n.num_moves : Int) = (n.num_moves : Int)
                    then n.board.getD mi0 0 else n.moves _) = t
                  rw [if_pos rfl, hmi0_def, hmi]
                  exact htile
                have hcap := hrecCap (applyMoveNode H n mi0) (bound - 1) ts2 wf1
                  (by rw [hcb]; exact hv1)
                  (by rw [hcb, hce]; exact hpath2)
                  hchain.tail
                  (by
                    intro t0 h0
                    cases ts2 with
                    | nil => simp at h0
                    | cons u us =>
                        have ht0u : u = t0 := by simpa using h0
                        subst ht0u
                        rw [hgslot]
                        exact Ne.symm (List.chain'_cons.mp hchain).1)
                  (by
                    have hge : (0 : Int) ≤ (applyMoveNode H n mi0).heuristic := hnn _
                    omega)
                  hfuel2
                rcases hcap with hcs | hcz
                · exact absurd hcs hs
                · -- the recursion failed within its cap; restore and finish
                  rw [Bool.not_eq_true] at hs
                  have hr1 : (rec (applyMoveNode H n mi0) (bound - 1)).1 =
                      applyMoveNode H n mi0 := (hrecS (applyMoveNode H n mi0)
                        (bound - 1) wf1).1 hs
                  rw [hr1, hundo0]
                  by_cases hfs : (dfsLoop H rec n bound ds
                      (min nb (1 + (rec (applyMoveNode H n mi0) (bound - 1)).2.2))).2.1
                      = true
                  · exact Or.inl hfs
                  · right
                    rw [Bool.not_eq_true] at hfs
                    refine le_trans (dfsLoop_le_nb H rec ds n bound _ hfs) ?_
                    refine le_trans (min_le_right _ _) ?_
                    omega
            · rw [if_neg hb]
              rw [hundo0]
              by_cases hfs : (dfsLoop H rec n bound ds
                  (min nb (1 + (applyMoveNode H n mi0).heuristic))).2.1 = true
              · exact Or.inl hfs
              · right
                rw [Bool.not_eq_true] at hfs
                refine le_trans (dfsLoop_le_nb H rec ds n bound _ hfs) ?_
                refine le_trans (min_le_right _ _) ?_
                omega
          · -- some other direction first: it restores the node or solves
            by_cases hb : 1 + (applyMoveNode H n mi0).heuristic ≤ bound
            · rw [if_pos hb]
              by_cases hs : (rec (applyMoveNode H n mi0) (bound - 1)).2.1 = true
              · rw [if_pos hs]
                left
                rfl
              · rw [if_neg hs]
                rw [Bool.not_eq_true] at hs
                have hr1 : (rec (applyMoveNode H n mi0) (bound - 1)).1 =
                    applyMoveNode H n mi0 := (hrecS (applyMoveNode H n mi0)
                      (bound - 1) wf1).1 hs
                rw [hr1, hundo0]
                exact ih n bound _ t ts2 b1 e1 d hwf hv hd4 hne hmi htile hb1 hmem2
                  hpath2 hchain hgt hb0le hfuel2
            · rw [if_neg hb]
              rw [hundo0]
              exact ih n bound _ t ts2 b1 e1 d hwf hv hd4 hne hmi htile hb1 hmem2
                hpath2 hchain hgt hb0le hfuel2

/-- The returned bound of a failed search never exceeds the length of any
repeat-free admissible solving sequence. -/
theorem dfs_cap (H : List Int → Int) (hnn : ∀ b, 0 ≤ H b)
    (hadm : ∀ b e ts, ValidBoard b → e < 16 → b.getD e 0 = 0 →
      PathB b e ts solvedBoard 15 → H b ≤ (ts.length : Int))
    (hs0 : H solvedBoard = 0) :
    ∀ (fuel : Nat) (n : Node) (bound : Int) (ts : List Int),
      NodeWF H n → ValidBoard n.board →
      PathB n.board n.empty_index ts solvedBoard 15 →
      List.Chain' (fun x y => x ≠ y) ts →
      (∀ t0, ts.head? = some t0 → t0 ≠ n.moves (guardIndex n)) →
      0 ≤ bound → ts.length ≤ fuel →
      (depth_first_search H fuel n bound).2.1 = true ∨
      (depth_first_search H fuel n bound).2.2 ≤ (ts.length : Int) := by
  intro fuel
  induction fuel with
  | zero =>
      intro n bound ts hwf hv hpath hchain hhead hb0 hfuel
      have hnil : ts = [] := List.eq_nil_of_length_eq_zero (by omega)
      subst hnil
      obtain ⟨hbs, -⟩ := PathB_nil_inv hpath
      have h0 : n.heuristic = 0 := by rw [hwf.heur, hbs]; exact hs0
      rw [depth_first_search, if_pos h0]
      left
      rfl
  | succ fuel ihf =>
      intro n bound ts hwf hv hpath hchain hhead hb0 hfuel
      by_cases h0 : n.heuristic = 0
      · rw [depth_first_search, if_pos h0]
        left
        rfl
      · rw [depth_first_search, if_neg h0]
        cases ts with
        | nil =>
            exfalso
            obtain ⟨hbs, -⟩ := PathB_nil_inv hpath
            exact h0 (by rw [hwf.heur, hbs]; exact hs0)
        | cons t ts2 =>
            cases hpath with
            | cons hstep htail =>
                obtain ⟨d, hd4, hne, hmi, htile, hb1⟩ := hstep
                have hcap := dfsLoop_cap H hnn hadm _ fuel (dfs_spec H fuel)
                  (fun n2 b2 ts3 w2 v2 p2 c2 h2 hb2 hf2 =>
                    ihf n2 b2 ts3 w2 v2 p2 c2 h2 hb2 hf2)
                  [0, 1, 2, 3] n bound intMax t ts2 _ _ d hwf hv hd4 hne hmi htile hb1
                  (by interval_cases d <;> decide) htail hchain (hhead t rfl) hb0
                  (by simp only [List.length_cons] at hfuel; omega)
                rcases hcap with hcs | hcz
                · exact Or.inl hcs
                · right
                  refine le_trans hcz ?_
                  simp only [List.length_cons]
                  push_cast
                  omega

/-- Board validity and empty-cell facts propagate along slide sequences. -/
theorem PathB_valid : ∀ {b : List Int} {e : Nat} {ts : List Int} {b2 : List Int}
    {e2 : Nat}, PathB b e ts b2 e2 → ValidBoard b → e < 16 → b.getD e 0 = 0 →
    ValidBoard b2 ∧ e2 < 16 ∧ b2.getD e2 0 = 0 := by
  intro b e ts b2 e2 hp
  induction hp with
  | nil => intro hv he hez; exact ⟨hv, he, hez⟩
  | cons hstep htail ih =>
      intro hv he hez
      obtain ⟨he1, -, -, hez1⟩ := StepB_facts hv.length he hstep
      exact ih (StepB_validBoard hv he hez hstep) he1 hez1

theorem movesSeg_length (m : Nat) (n : Node) :
    (movesSeg m n).length = n.num_moves - m := by
  rw [movesSeg, List.length_map, List.length_range]

/-- The iterative-deepening loop: with a minimal repeat-free solution of
length `L`, enough depth fuel, a bound between 0 and `L`, and enough
iterations, the loop returns a node recording an optimal solution. -/
theorem solverLoop_spec (H : List Int → Int) (hnn : ∀ b, 0 ≤ H b)
    (hadm : ∀ b e ts, ValidBoard b → e < 16 → b.getD e 0 = 0 →
      PathB b e ts solvedBoard 15 → H b ≤ (ts.length : Int))
    (hs0 : H solvedBoard = 0)
    (hzero : ∀ b, ValidBoard b → H b = 0 → b = solvedBoard)
    (dfsFuel : Nat) :
    ∀ (k : Nat) (n : Node) (bound : Int) (ts : List Int),
      NodeWF H n → ValidBoard n.board →
      PathB n.board n.empty_index ts solvedBoard 15 →
      List.Chain' (fun x y => x ≠ y) ts →
      (∀ t0, ts.head? = some t0 → t0 ≠ n.moves (guardIndex n)) →
      (∀ ts2, PathB n.board n.empty_index ts2 solvedBoard 15 →
        ts.length ≤ ts2.length) →
      ts.length ≤ dfsFuel →
      0 ≤ bound → bound ≤ (ts.length : Int) → (ts.length : Int) < intMax →
      (ts.length : Int) - bound < (k : Int) →
      ∃ r : Node, solverLoop H dfsFuel k n bound = some r ∧
        NodeWF H r ∧ r.board = solvedBoard ∧ r.empty_index = 15 ∧
        n.num_moves ≤ r.num_moves ∧
        (∀ j : Int, j < (n.num_moves : Int) → r.moves j = n.moves j) ∧
        PathB n.board n.empty_index (movesSeg n.num_moves r) r.board r.empty_index ∧
        r.num_moves = n.num_moves + ts.length := by
  intro k
  induction k with
  | zero =>
      intro n bound ts hwf hv hpath hchain hhead hmin hfuel hb0 hble hlim hk
      exfalso
      simp only [Nat.cast_zero] at hk
      omega
  | succ k ih =>
      intro n bound ts hwf hv hpath hchain hhead hmin hfuel hb0 hble hlim hk
      by_cases hsolv : (depth_first_search H dfsFuel n bound).2.1 = true
      · obtain ⟨wf2, h0, hnum, hpre, hpath2⟩ :=
          (dfs_spec H dfsFuel n bound hwf).2 hsolv
        obtain ⟨hz, hzle⟩ :=
          (dfs_bounds H hnn dfsFuel n bound hwf (by omega)).2 hsolv
        obtain ⟨hvb2, hemp2, hez2⟩ :=
          PathB_valid hpath2 hv hwf.emp_lt hwf.emp_zero
        have hr1b : (depth_first_search H dfsFuel n bound).1.board = solvedBoard :=
          hzero _ hvb2 (by rw [← wf2.heur]; exact h0)
        have hr1e : (depth_first_search H dfsFuel n bound).1.empty_index = 15 := by
          have h1 : (depth_first_search H dfsFuel n bound).1.empty_index =
              posN (depth_first_search H dfsFuel n bound).1.board 0 :=
            eq_findIdx_of_getD (by rw [hr1b]; decide) _
              (by rw [hvb2.length]; exact wf2.emp_lt) wf2.emp_zero
          rw [h1, hr1b]
          decide
        have hsolpath : PathB n.board n.empty_index
            (movesSeg n.num_moves (depth_first_search H dfsFuel n bound).1)
            solvedBoard 15 := by
          rw [← hr1b, ← hr1e]
          exact hpath2
        have hminlen := hmin _ hsolpath
        have hseglen := movesSeg_length n.num_moves (depth_first_search H dfsFuel n bound).1
        have hmax : max bound 0 = bound := by omega
        rw [hmax] at hzle
        have hnim : ¬ (depth_first_search H dfsFuel n bound).2.2 = intMax := by
          intro hc
          rw [hc] at hzle
          omega
        refine ⟨(depth_first_search H dfsFuel n bound).1, ?_, wf2, hr1b, hr1e,
          hnum, hpre, hpath2, ?_⟩
        · show (if (depth_first_search H dfsFuel n bound).2.2 = intMax then none
            else if (depth_first_search H dfsFuel n bound).2.1 = true
              then some (depth_first_search H dfsFuel n bound).1
              else solverLoop H dfsFuel k (depth_first_search H dfsFuel n bound).1
                (depth_first_search H dfsFuel n bound).2.2) =
            some (depth_first_search H dfsFuel n bound).1
          rw [if_neg hnim, if_pos hsolv]
        · omega
      · have hblt : bound < (ts.length : Int) := by
          by_contra hge
          push_neg at hge
          exact hsolv (dfs_complete H hadm hs0 dfsFuel n bound ts hwf hv hpath
            hchain hhead hge hfuel)
        have hsf : (depth_first_search H dfsFuel n bound).2.1 = false := by
          rw [← Bool.not_eq_true]
          exact hsolv
        have hfr : (depth_first_search H dfsFuel n bound).1 = n :=
          (dfs_spec H dfsFuel n bound hwf).1 hsf
        have hzgt : bound < (depth_first_search H dfsFuel n bound).2.2 :=
          (dfs_bounds H hnn dfsFuel n bound hwf (by omega)).1 hsf
        have hzcap : (depth_first_search H dfsFuel n bound).2.2 ≤ (ts.length : Int) := by
          rcases dfs_cap H hnn hadm hs0 dfsFuel n bound ts hwf hv hpath hchain
            hhead hb0 hfuel with hcs | hcz
          · exact absurd hcs hsolv
          · exact hcz
        have hnim : ¬ (depth_first_search H dfsFuel n bound).2.2 = intMax := by
          intro hc
          rw [hc] at hzcap
          omega
        obtain ⟨r, heq, hrest⟩ := ih n (depth_first_search H dfsFuel n bound).2.2 ts
          hwf hv hpath hchain hhead hmin hfuel (by omega) hzcap hlim
          (by push_cast at hk ⊢; omega)
        refine ⟨r, ?_, hrest⟩
        show (if (depth_first_search H dfsFuel n bound).2.2 = intMax then none
          else if (depth_first_search H dfsFuel n bound).2.1 = true
            then some (depth_first_search H dfsFuel n bound).1
            else solverLoop H dfsFuel k (depth_first_search H dfsFuel n bound).1
              (depth_first_search H dfsFuel n bound).2.2) = some r
        rw [if_neg hnim, if_neg hsolv, hfr]
        exact heq

/-- The foldl of the zero-scan stays in the candidate set. -/
theorem lastZero_mem (b : List Int) : ∀ (l : List Nat) (acc : Nat),
    (l.foldl (fun a i => if b.getD i 0 = 0 then i else a) acc) = acc ∨
    (l.foldl (fun a i => if b.getD i 0 = 0 then i else a) acc) ∈ l := by
  intro l
  induction l with
  | nil => intro acc; exact Or.inl rfl
  | cons i l ih =>
      intro acc
      rw [List.foldl_cons]
      rcases ih (if b.getD i 0 = 0 then i else acc) with h | h
      · rw [h]
        by_cases hi : b.getD i 0 = 0
        · rw [if_pos hi]
          exact Or.inr (List.mem_cons_self i l)
        · rw [if_neg hi]
          exact Or.inl rfl
      · exact Or.inr (List.mem_cons_of_mem i h)

/-- If the accumulator already points at a zero cell, the scan keeps that. -/
theorem lastZero_keep (b : List Int) : ∀ (l : List Nat) (acc : Nat),
    b.getD acc 0 = 0 →
    b.getD (l.foldl (fun a i => if b.getD i 0 = 0 then i else a) acc) 0 = 0 := by
  intro l
  induction l with
  | nil => intro acc h; exact h
  | cons i l ih =>
      intro acc h
      rw [List.foldl_cons]
      by_cases hi : b.getD i 0 = 0
      · rw [if_pos hi]
        exact ih i hi
      · rw [if_neg hi]
        exact ih acc h

/-- If some scanned cell is zero, the scan result points at a zero cell. -/
theorem lastZero_finds (b : List Int) : ∀ (l : List Nat) (acc : Nat),
    (∃ i ∈ l, b.getD i 0 = 0) →
    b.getD (l.foldl (fun a i => if b.getD i 0 = 0 then i else a) acc) 0 = 0 := by
  intro l
  induction l with
  | nil => intro acc h; obtain ⟨i, hi, -⟩ := h; exact absurd hi (List.not_mem_nil i)
  | cons i l ih =>
      intro acc h
      rw [List.foldl_cons]
      by_cases hi : b.getD i 0 = 0
      · rw [if_pos hi]
        exact lastZero_keep b l i hi
      · rw [if_neg hi]
        obtain ⟨j, hj, hjz⟩ := h
        rcases List.mem_cons.mp hj with rfl | hj2
        · exact absurd hjz hi
        · exact ih acc ⟨j, hj2, hjz⟩

/-- On a valid board the recorded empty index is an in-range zero cell. -/
theorem lastZeroIndex_spec {b : List Int} (hv : ValidBoard b) :
    lastZeroIndex b < 16 ∧ b.getD (lastZeroIndex b) 0 = 0 := by
  constructor
  · rcases lastZero_mem b (List.range 16) 0 with h | h
    · rw [lastZeroIndex, h]
      omega
    · have := List.mem_range.mp h
      rw [lastZeroIndex]
      exact this
  · have hmem : (0 : Int) ∈ b := hv.mem (by decide)
    have hpos : posN b 0 < 16 := posN_lt hv (by decide)
    have hget : b.getD (posN b 0) 0 = 0 := findIdx_getD_of_mem b 0 hmem
    exact lastZero_finds b (List.range 16) 0 ⟨posN b 0, List.mem_range.mpr hpos, hget⟩

/-- `dim4_solver` with any admissible, goal-detecting heuristic terminates
on path-solvable boards and records an optimal solution. -/
theorem dim4_solver_abstract (H : List Int → Int) (hnn : ∀ b, 0 ≤ H b)
    (hadm : ∀ b e ts, ValidBoard b → e < 16 → b.getD e 0 = 0 →
      PathB b e ts solvedBoard 15 → H b ≤ (ts.length : Int))
    (hs0 : H solvedBoard = 0)
    (hzero : ∀ b, ValidBoard b → H b = 0 → b = solvedBoard)
    (board : List Int) (hv : ValidBoard board) (ts0 : List Int)
    (hts0 : PathB board (lastZeroIndex board) ts0 solvedBoard 15)
    (hlim : (ts0.length : Int) < intMax) :
    ∃ (dfsFuel iterFuel : Nat) (r : Node),
      dim4_solver H dfsFuel iterFuel board = some r ∧
      r.board = solvedBoard ∧ r.empty_index = 15 ∧
      PathB board (lastZeroIndex board) (movesSeg 0 r) r.board r.empty_index ∧
      (movesSeg 0 r).length = r.num_moves ∧
      r.num_moves ∈ solLens board (lastZeroIndex board) ∧
      ∀ m ∈ solLens board (lastZeroIndex board), r.num_moves ≤ m := by
  obtain ⟨hlz, hlzz⟩ := lastZeroIndex_spec hv
  have hne : (solLens board (lastZeroIndex board)).Nonempty :=
    ⟨ts0.length, ts0, hts0, rfl⟩
  obtain ⟨tsm, hpm, hlm⟩ := Nat.sInf_mem hne
  obtain ⟨tss, hps, hls, hcs⟩ :=
    path_dedup tsm.length tsm board (lastZeroIndex board) (le_refl _) hv hlz hlzz hpm
  have hmins : ∀ ts2, PathB board (lastZeroIndex board) ts2 solvedBoard 15 →
      tss.length ≤ ts2.length := by
    intro ts2 hp2
    have h1 : ts2.length ∈ solLens board (lastZeroIndex board) := ⟨ts2, hp2, rfl⟩
    have h2 := Nat.sInf_le h1
    omega
  have hlss : tss.length = sInf (solLens board (lastZeroIndex board)) := by
    have h1 := Nat.sInf_le (show tss.length ∈ solLens board (lastZeroIndex board)
      from ⟨tss, hps, rfl⟩)
    omega
  have hroot : NodeWF H
      ⟨board, lastZeroIndex board, H board, 0, fun _ => 0⟩ :=
    ⟨hv.length, hlz, hlzz, rfl, fun k _ => rfl⟩
  have hhead : ∀ t0 : Int, tss.head? = some t0 →
      t0 ≠ (⟨board, lastZeroIndex board, H board, 0, fun _ => 0⟩ : Node).moves
        (guardIndex ⟨board, lastZeroIndex board, H board, 0, fun _ => 0⟩) := by
    intro t0 h0
    cases tss with
    | nil => simp at h0
    | cons u us =>
        have hu : u = t0 := by simpa using h0
        subst hu
        cases hps with
        | cons hstep htail =>
            have := StepB_tile_ne_zero hv hlz hlzz hstep
            exact this
  have hHle : H board ≤ (tss.length : Int) :=
    hadm board (lastZeroIndex board) tss hv hlz hlzz hps
  have hlts0 : tss.length ≤ ts0.length := by
    have h1 := Nat.sInf_le (show ts0.length ∈ solLens board (lastZeroIndex board)
      from ⟨ts0, hts0, rfl⟩)
    omega
  have hge0 : (0 : Int) ≤ H board := hnn board
  obtain ⟨r, heq, hwfr, hbr, her, hnumr, hprer, hpathr, hnumeq⟩ :=
    solverLoop_spec H hnn hadm hs0 hzero tss.length (tss.length + 1)
      ⟨board, lastZeroIndex board, H board, 0, fun _ => 0⟩ (H board) tss
      hroot hv hps hcs hhead hmins (le_refl _) (hnn board) hHle
      (by omega) (by push_cast; omega)
  refine ⟨tss.length, tss.length + 1, r, heq, hbr, her, hpathr, ?_, ?_, ?_⟩
  · rw [movesSeg_length]
    omega
  · refine ⟨movesSeg 0 r, ?_, ?_⟩
    · rw [← hbr, ← her]
      have h0 : (⟨board, lastZeroIndex board, H board, 0, fun _ => 0⟩ : Node).num_moves
          = 0 := rfl
      rw [← h0]
      exact hpathr
    · rw [movesSeg_length]
      omega
  · intro m hm
    have h1 := Nat.sInf_le hm
    have h2 : r.num_moves = 0 + tss.length := by
      have h3 : (⟨board, lastZeroIndex board, H board, 0,
          fun _ => 0⟩ : Node).num_moves = 0 := rfl
      rw [hnumeq, h3]
    omega

/-- The heuristics slot written for the root placement. -/
def rootSlot (p : tile_pattern) : Int := gen_arr_index (rootBoard p) p + p.array_offset

/-- The root placement is reachable. -/
theorem rootSlot_reachable (p : tile_pattern) : (reachCosts p (rootSlot p)).Nonempty :=
  ⟨0, rootBoard p, 15, CPath.root, rfl⟩

/-- General characterization of one `bfs_tile_pattern` call over an
arbitrary byte-valued initial heuristics array: the queue drains, all slots
stay bytes, reachable slots are bounded by the capped minimum (and equal to
it whenever their initial byte was the untouched sentinel), and unreachable
slots keep their initial byte. -/
theorem bfs_call_heur {p : tile_pattern} (hp : p ∈ patterns) (h0 : Int → Int)
    (hb0 : ∀ x, 0 ≤ h0 x ∧ h0 x ≤ 255) :
    ∃ fuel : Nat,
      (bfsRun p fuel (initState p h0)).queue = [] ∧
      (∀ x, 0 ≤ (bfsRun p fuel (initState p h0)).heur x ∧
        (bfsRun p fuel (initState p h0)).heur x ≤ 255) ∧
      (∀ r : Int, (reachCosts p r).Nonempty →
        (bfsRun p fuel (initState p h0)).heur r ≤ min ((dminP p r : Int)) 255) ∧
      (∀ r : Int, (reachCosts p r).Nonempty → (r = rootSlot p ∨ h0 r = 255) →
        (bfsRun p fuel (initState p h0)).heur r = min ((dminP p r : Int)) 255) ∧
      (∀ r : Int, ¬ (reachCosts p r).Nonempty →
        (bfsRun p fuel (initState p h0)).heur r = h0 r) := by
  have hinit : BInv p h0 (initState p h0) := initState_inv hp hb0
  obtain ⟨h255, hlen7, hroot⟩ := pattern_facts hp
  set F := 2 * msum (initState p h0) + (initState p h0).queue.length + 1 with hF
  have hdrain : (bfsRun p F (initState p h0)).queue = [] :=
    bfsRun_drain hp F _ hinit (by rw [hF]; omega)
  have hrun := bfsRun_inv hp F (initState p h0) hinit
  have hr0 : (bfsRun p F (initState p h0)).visited (genKey p (rootBoard p)) ≤ 0 := by
    have h1 := hrun.2 (genKey p (rootBoard p))
    have h2 : (initState p h0).visited (genKey p (rootBoard p)) = 0 := by
      show (if genKey p (rootBoard p) = genKey p (rootBoard p) then (0 : Int) else 255) = 0
      rw [if_pos rfl]
    omega
  obtain ⟨hQ, hVB, hVS, hHLE, hHS, hHB⟩ := hrun.1.1
  have hub : ∀ r : Int, (reachCosts p r).Nonempty →
      (bfsRun p F (initState p h0)).heur r ≤ min ((dminP p r : Int)) 255 := by
    intro r hne
    have hdm : dminP p r ∈ reachCosts p r := Nat.sInf_mem hne
    obtain ⟨b0, e0, hc0, hs0⟩ := hdm
    have h1 := hHLE b0 e0 (dminP p r) hc0 (cpath_valid hroot hc0)
    rw [hs0] at h1
    exact le_trans h1 (final_visited_le hp hrun.1 hdrain hr0 hc0)
  refine ⟨F, hdrain, hHB, hub, ?_, ?_⟩
  · intro r hne hcond
    rcases hHS r with hini | ⟨b1, e1, c1, hv1, hc1, hslot, hval⟩
    · by_cases hrr : r = gen_arr_index (rootBoard p) p + p.array_offset
      · have hz : (bfsRun p F (initState p h0)).heur r = 0 := by
          rw [hini]
          show (if r = gen_arr_index (rootBoard p) p + p.array_offset then (0 : Int)
            else h0 r) = 0
          rw [if_pos hrr]
        have h0mem : (0 : Nat) ∈ reachCosts p r := ⟨rootBoard p, 15, CPath.root, hrr.symm⟩
        have hdm0 : dminP p r = 0 := Nat.le_zero.mp (Nat.sInf_le h0mem)
        rw [hz, hdm0]
        norm_num
      · have h0255 : h0 r = 255 := by
          rcases hcond with hc | hc
          · exact absurd hc hrr
          · exact hc
        have hz : (bfsRun p F (initState p h0)).heur r = 255 := by
          rw [hini]
          show (if r = gen_arr_index (rootBoard p) p + p.array_offset then (0 : Int)
            else h0 r) = 255
          rw [if_neg hrr]
          exact h0255
        have h2 := hub r hne
        rw [hz] at h2
        have h3 : min ((dminP p r : Int)) 255 = 255 :=
          le_antisymm (min_le_right _ _) h2
        rw [hz, h3]
    · have hc1mem : c1 ∈ reachCosts p r := ⟨b1, e1, hc1, hslot.symm⟩
      have hdle : dminP p r ≤ c1 := Nat.sInf_le hc1mem
      have hlow : min ((dminP p r : Int)) 255 ≤
          (bfsRun p F (initState p h0)).heur r := by
        rw [hval]
        exact le_trans (min_le_left _ _) (by exact_mod_cast hdle)
      exact le_antisymm (hub r hne) hlow
  · intro r hne
    rcases hHS r with hini | ⟨b1, e1, c1, hv1, hc1, hslot, hval⟩
    · by_cases hrr : r = gen_arr_index (rootBoard p) p + p.array_offset
      · exfalso
        apply hne
        rw [hrr]
        exact rootSlot_reachable p
      · rw [hini]
        show (if r = gen_arr_index (rootBoard p) p + p.array_offset then (0 : Int)
          else h0 r) = h0 r
        rw [if_neg hrr]
    · exact absurd ⟨c1, b1, e1, hc1, hslot.symm⟩ hne

/-- The builder's slot index as a base-16 digit string, on well-formed
reduced boards. -/
theorem genSlot_eq_digits {p : tile_pattern} {b : List Int} {e : Nat}
    (hv : ValidPB p b e) :
    gen_arr_index b p = digitsVal (p.tiles.map fun t => ((posN b t : Nat) : Int)) := by
  rw [gen_index_agree b p hv.tile_count]
  rw [show arr_index b p false = arrIndexGo b p.tiles 1 from rfl]
  rw [arrIndexGo_eq b _ 1 (fun t ht => validPB_mem hv t (List.mem_cons_of_mem 0 ht)),
    one_mul]

/-- Bounds on the builder's slot index. -/
theorem genSlot_bounds {p : tile_pattern} {b : List Int} {e : Nat}
    (hv : ValidPB p b e) :
    0 ≤ gen_arr_index b p ∧ gen_arr_index b p < 16 ^ p.tiles.length := by
  rw [genSlot_eq_digits hv]
  have hdig : ∀ d ∈ p.tiles.map (fun t => ((posN b t : Nat) : Int)), 0 ≤ d ∧ d < 16 := by
    intro d hd
    rw [List.mem_map] at hd
    obtain ⟨t, ht, rfl⟩ := hd
    have := posN_lt_of_mem hv.len (validPB_mem hv t (List.mem_cons_of_mem 0 ht))
    constructor
    · positivity
    · exact_mod_cast this
  have := digitsVal_bounds _ hdig
  rwa [List.length_map] at this

/-- Reachable slots lie in the pattern's own offset range. -/
theorem reach_slot_range {p : tile_pattern} (hp : p ∈ patterns) {r : Int}
    (hne : (reachCosts p r).Nonempty) :
    p.array_offset ≤ r ∧ r < p.array_offset + 16 ^ p.tiles.length := by
  obtain ⟨c, b, e, hc, hs⟩ := hne
  obtain ⟨-, -, hroot⟩ := pattern_facts hp
  have hv := cpath_valid hroot hc
  have hb := genSlot_bounds hv
  omega

/-- Counting through a map, when preimages of the counted value are exactly
the counted source value on the list's members. -/
theorem count_map_mem (f : Int → Int) (a c : Int) :
    ∀ l : List Int, (∀ w ∈ l, (f w = c ↔ w = a)) → (l.map f).count c = l.count a := by
  intro l
  induction l with
  | nil => intro _; rfl
  | cons x xs ih =>
      intro h
      rw [List.map_cons, List.count_cons, List.count_cons,
        ih (fun w hw => h w (List.mem_cons_of_mem x hw))]
      have hx := h x (List.mem_cons_self x xs)
      by_cases hxa : x = a
      · subst hxa
        have hfx : f x = c := hx.mpr rfl
        simp [hfx]
      · have hfx : ¬ f x = c := fun hc => hxa (hx.mp hc)
        simp [hfx, hxa]

/-- The builder's view of a full board: tiles of the pattern and the empty
cell are kept, all other cells become the 255 sentinel. -/
def reduceT (p : tile_pattern) (v : Int) : Int :=
  if v = 0 ∨ v ∈ p.tiles then v else 255

def reduceB (p : tile_pattern) (b : List Int) : List Int := b.map (reduceT p)

theorem pattern_no_zero {p : tile_pattern} (hp : p ∈ patterns) :
    (0 : Int) ∉ p.tiles := by
  fin_cases hp <;> decide

theorem reduceT_zero (p : tile_pattern) : reduceT p 0 = 0 := by
  rw [reduceT, if_pos (Or.inl rfl)]

theorem reduceT_eq_zero_iff {p : tile_pattern} (h0 : (0 : Int) ∉ p.tiles) (v : Int) :
    reduceT p v = 0 ↔ v = 0 := by
  constructor
  · intro h
    by_cases hc : v = 0 ∨ v ∈ p.tiles
    · rw [reduceT, if_pos hc] at h
      exact h
    · rw [reduceT, if_neg hc] at h
      norm_num at h
  · intro h
    rw [h, reduceT_zero]

theorem reduceT_eq_tile_iff {p : tile_pattern} (h255 : (255 : Int) ∉ p.tiles)
    {t : Int} (ht : t ∈ p.tiles) (v : Int) : reduceT p v = t ↔ v = t := by
  constructor
  · intro h
    by_cases hc : v = 0 ∨ v ∈ p.tiles
    · rw [reduceT, if_pos hc] at h
      exact h
    · rw [reduceT, if_neg hc] at h
      rw [← h] at ht
      exact absurd ht h255
  · intro h
    rw [h, reduceT, if_pos (Or.inr ht)]

/-- The reduced board of a valid position is a well-formed reduced board. -/
theorem reduceB_validPB {p : tile_pattern} (hp : p ∈ patterns) {b : List Int}
    {e : Nat} (hv : ValidBoard b) (he : e < 16) (hez : b.getD e 0 = 0) :
    ValidPB p (reduceB p b) e := by
  obtain ⟨h255, -, -⟩ := pattern_facts hp
  have h0t := pattern_no_zero hp
  refine ⟨?_, he, ?_, ?_, ?_, ?_⟩
  · rw [reduceB, List.length_map, hv.length]
  · rw [reduceB, getD_map_lt _ _ _ (by rw [hv.length]; omega), hez, reduceT_zero]
  · rw [reduceB, count_map_mem _ 0 0 b (fun w _ => reduceT_eq_zero_iff h0t w)]
    exact validBoard_zero_count hv
  · intro t ht
    rw [reduceB, count_map_mem _ t t b (fun w _ => reduceT_eq_tile_iff h255 ht w)]
    exact hv.count_eq ((pattern_tiles_sub hp).1 t ht)
  · intro x hx
    rw [reduceB, getD_map_lt _ _ _ (by rw [hv.length]; omega)]
    by_cases hc : b.getD x 0 = 0 ∨ b.getD x 0 ∈ p.tiles
    · rw [reduceT, if_pos hc]
      rcases hc with h | h
      · exact Or.inl h
      · exact Or.inr (Or.inr h)
    · rw [reduceT, if_neg hc]
      exact Or.inr (Or.inl rfl)

/-- Every legal move is reversible through the move table. -/
theorem validMove_symm : ∀ e < 16, ∀ d < 4, validMove e d ≠ -1 →
    ∃ d2 ∈ ([0, 1, 2, 3] : List Nat),
      validMove (validMove e d).toNat d2 = (e : Int) := by decide

/-- A slide undone: the same tile slides back. -/
theorem StepB_symm {b : List Int} {e : Nat} {t : Int} {b2 : List Int} {e2 : Nat}
    (hv : ValidBoard b) (he : e < 16) (hez : b.getD e 0 = 0)
    (hs : StepB b e t b2 e2) : StepB b2 e2 t b e := by
  obtain ⟨d, hd4, hne, hmi, htile, hb2⟩ := hs
  rcases validMove_spec e he d with h | ⟨-, hlt, hnee, -⟩
  · exact absurd h hne
  have he2 : e2 < 16 := by omega
  have he2e : e2 ≠ e := by omega
  obtain ⟨d2, hd2mem, hd2eq⟩ := validMove_symm e he d hd4 hne
  rw [hmi] at hd2eq
  have hd2lt : d2 < 4 := by
    have : d2 = 0 ∨ d2 = 1 ∨ d2 = 2 ∨ d2 = 3 := by simpa using hd2mem
    omega
  have hb2e : b2.getD e 0 = t := by
    rw [hb2, getD_set_ne _ _ _ _ (fun hh => he2e hh),
      getD_set_self _ _ _ (by rw [hv.length]; omega)]
  have hx1 : (b.set e t).set e2 t = b.set e t := by
    have hlt2 : e2 < (b.set e t).length := by rw [List.length_set, hv.length]; omega
    have hs2 := set_self_of_getD (b.set e t) e2 hlt2
    rwa [getD_set_ne _ _ _ _ (show e ≠ e2 from fun hh => he2e hh.symm), htile] at hs2
  refine ⟨d2, hd2lt, ?_, ?_, hb2e, ?_⟩
  · rw [hd2eq]
    intro hc
    omega
  · rw [hd2eq]
    exact Int.toNat_natCast e
  · have hback : (b2.set e2 t).set e 0 = b := by
      rw [hb2, List.set_set, hx1, List.set_set]
      conv_lhs => rw [← hez]
      exact set_self_of_getD b e (by rw [hv.length]; omega)
    exact hback.symm

/-- Projection of one slide to the reduced board. -/
theorem StepB_reduce {p : tile_pattern} {b : List Int} {e : Nat} {t : Int}
    {b2 : List Int} {e2 : Nat} (hv : ValidBoard b) (he : e < 16)
    (hs : StepB b e t b2 e2) :
    StepB (reduceB p b) e (reduceT p t) (reduceB p b2) e2 := by
  obtain ⟨d, hd4, hne, hmi, htile, hb2⟩ := hs
  rcases validMove_spec e he d with h | ⟨-, hlt, hnee, -⟩
  · exact absurd h hne
  refine ⟨d, hd4, hne, hmi, ?_, ?_⟩
  · rw [reduceB, getD_map_lt _ _ _ (by rw [hv.length]; omega), htile]
  · rw [hb2]
    show ((b.set e t).set e2 0).map (reduceT p) =
      ((b.map (reduceT p)).set e (reduceT p t)).set e2 0
    rw [List.map_set, List.map_set, reduceT_zero]

/-- The number of moves of pattern tiles in a slide sequence. -/
def patternCount (p : tile_pattern) (ts : List Int) : Nat :=
  ts.countP (fun t => decide (t ∈ p.tiles))

theorem stepCostN_reduceT {p : tile_pattern} (h255 : (255 : Int) ∉ p.tiles)
    {t : Int} (htb : t ∈ boardValues) (hnz : t ≠ 0) :
    stepCostN (reduceT p t) = (if t ∈ p.tiles then 1 else 0) := by
  have hbd := boardValues_bounds htb
  by_cases ht : t ∈ p.tiles
  · rw [if_pos ht, reduceT, if_pos (Or.inr ht), stepCostN, if_neg (by omega)]
  · rw [if_neg ht, reduceT, if_neg (by push_neg; exact ⟨hnz, ht⟩), stepCostN, if_pos rfl]

theorem reduce_solved {p : tile_pattern} (hp : p ∈ patterns) :
    reduceB p solvedBoard = rootBoard p := by
  fin_cases hp <;> decide

/-- Reversing and projecting a solving sequence yields a builder path from
the root reduced board, whose cost counts exactly the pattern-tile moves. -/
theorem path_to_cpath {p : tile_pattern} (hp : p ∈ patterns) :
    ∀ {b : List Int} {e : Nat} {ts : List Int},
      PathB b e ts solvedBoard 15 → ValidBoard b → e < 16 → b.getD e 0 = 0 →
      CPath p (reduceB p b) e (patternCount p ts) := by
  obtain ⟨h255, -, -⟩ := pattern_facts hp
  have main : ∀ (b : List Int) (e : Nat) (ts : List Int) (b2 : List Int) (e2 : Nat),
      PathB b e ts b2 e2 → b2 = solvedBoard → e2 = 15 → ValidBoard b → e < 16 →
      b.getD e 0 = 0 → CPath p (reduceB p b) e (patternCount p ts) := by
    intro b e ts b2 e2 hpath
    induction hpath with
    | nil =>
        intro hb2 he2 hv he hez
        subst hb2
        subst he2
        have hroot := CPath.root (p := p)
        rw [← reduce_solved hp] at hroot
        exact hroot
    | @cons b e t b1 e1 ts _ _ hstep htail ih =>
        intro hb2 he2 hv he hez
        obtain ⟨he1, he1ne, hlen1, hez1⟩ := StepB_facts hv.length he hstep
        have hv1 := StepB_validBoard hv he hez hstep
        have hcp1 := ih hb2 he2 hv1 he1 hez1
        have hsym := StepB_symm hv he hez hstep
        have hred := StepB_reduce (p := p) hv1 he1 hsym
        have hstepc := CPath.step hcp1 hred
        have htb : t ∈ boardValues := by
          obtain ⟨d, hd4, hne, hmi, htile, hb1⟩ := hstep
          rcases validMove_spec e he d with h | ⟨-, hlt, -, -⟩
          · exact absurd h hne
          rw [← htile]
          exact getD_mem_boardValues hv (by omega)
        have hnz := StepB_tile_ne_zero hv he hez hstep
        have hcost := stepCostN_reduceT h255 htb hnz
        have hc2 : patternCount p (t :: ts) =
            patternCount p ts + (if t ∈ p.tiles then 1 else 0) := by
          rw [patternCount, patternCount, List.countP_cons]
          by_cases ht : t ∈ p.tiles <;> simp [ht]
        rw [hc2, ← hcost]
        exact hstepc
  intro b e ts hpath hv he hez
  exact main b e ts solvedBoard 15 hpath rfl rfl hv he hez

/-- Pattern-tile positions survive the reduction. -/
theorem posN_reduce {p : tile_pattern} (hp : p ∈ patterns) {b : List Int}
    (hv : ValidBoard b) {t : Int} (ht : t ∈ p.tiles) :
    posN (reduceB p b) t = posN b t := by
  obtain ⟨h255, -, -⟩ := pattern_facts hp
  have htb : t ∈ boardValues := (pattern_tiles_sub hp).1 t ht
  have hcnt : (reduceB p b).count t = 1 := by
    rw [reduceB, count_map_mem _ t t b (fun w _ => reduceT_eq_tile_iff h255 ht w)]
    exact hv.count_eq htb
  have hpos : posN b t < 16 := posN_lt hv htb
  have hget : b.getD (posN b t) 0 = t := findIdx_getD_of_mem b t (hv.mem htb)
  have hget2 : (reduceB p b).getD (posN b t) 0 = t := by
    rw [reduceB, getD_map_lt _ _ _ (by rw [hv.length]; omega), hget, reduceT,
      if_pos (Or.inr ht)]
  have hfe := eq_findIdx_of_getD hcnt (posN b t)
    (by rw [reduceB, List.length_map, hv.length]; omega) hget2
  exact hfe.symm

/-- The solver's direct index of a full board is the builder's index of its
reduction. -/
theorem slot_reduce {p : tile_pattern} (hp : p ∈ patterns) {b : List Int}
    {e : Nat} (hv : ValidBoard b) (he : e < 16) (hez : b.getD e 0 = 0) :
    arr_index b p false = gen_arr_index (reduceB p b) p := by
  have hvr := reduceB_validPB hp hv he hez
  rw [genSlot_eq_digits hvr]
  rw [show arr_index b p false = arrIndexGo b p.tiles 1 from rfl]
  rw [arrIndexGo_eq b _ 1 (fun t ht => hv.mem ((pattern_tiles_sub hp).1 t ht)), one_mul]
  congr 1
  refine List.map_congr_left fun t ht => ?_
  rw [posN_reduce hp hv ht]

/-- The pattern-move count of a solving sequence reaches the board's slot. -/
theorem pattern_cost_mem {p : tile_pattern} (hp : p ∈ patterns) {b : List Int}
    {e : Nat} {ts : List Int} (hv : ValidBoard b) (he : e < 16)
    (hez : b.getD e 0 = 0) (hpath : PathB b e ts solvedBoard 15) :
    patternCount p ts ∈ reachCosts p (arr_index b p false + p.array_offset) := by
  have hcp := path_to_cpath hp hpath hv he hez
  exact ⟨reduceB p b, e, hcp, by rw [slot_reduce hp hv he hez]⟩

/-- Every nonzero board value belongs to exactly one of the three patterns. -/
theorem tile_partition : ∀ t ∈ boardValues, t ≠ 0 →
    ((if t ∈ pattern0.tiles then (1 : Nat) else 0) +
      (if t ∈ pattern1.tiles then 1 else 0) +
      (if t ∈ pattern2.tiles then 1 else 0)) = 1 := by decide

/-- Tiles slid along a legal sequence are genuine nonzero board values. -/
theorem PathB_tiles : ∀ {b : List Int} {e : Nat} {ts : List Int} {b2 : List Int}
    {e2 : Nat}, PathB b e ts b2 e2 → ValidBoard b → e < 16 → b.getD e 0 = 0 →
    ∀ t ∈ ts, t ∈ boardValues ∧ t ≠ 0 := by
  intro b e ts b2 e2 hp
  induction hp with
  | nil => intro _ _ _ t ht; exact absurd ht (List.not_mem_nil t)
  | @cons b e t b1 e1 ts _ _ hstep htail ih =>
      intro hv he hez u hu
      obtain ⟨he1, -, -, hez1⟩ := StepB_facts hv.length he hstep
      have hv1 := StepB_validBoard hv he hez hstep
      rcases List.mem_cons.mp hu with rfl | hu2
      · refine ⟨?_, StepB_tile_ne_zero hv he hez hstep⟩
        obtain ⟨d, hd4, hne, hmi, htile, hb1⟩ := hstep
        rcases validMove_spec e he d with h | ⟨-, hlt, -, -⟩
        · exact absurd h hne
        rw [← htile]
        exact getD_mem_boardValues hv (by omega)
      · exact ih hv1 he1 hez1 u hu2

/-- The three patterns partition the moves of a solving sequence. -/
theorem patternCount_partition : ∀ ts : List Int,
    (∀ t ∈ ts, t ∈ boardValues ∧ t ≠ 0) →
    patternCount pattern0 ts + patternCount pattern1 ts + patternCount pattern2 ts =
      ts.length := by
  intro ts
  induction ts with
  | nil => intro _; rfl
  | cons t ts ih =>
      intro h
      obtain ⟨htb, htz⟩ := h t (List.mem_cons_self t ts)
      have hpart := tile_partition t htb htz
      have hrec := ih (fun u hu => h u (List.mem_cons_of_mem t hu))
      simp only [patternCount, List.countP_cons, List.length_cons] at hrec ⊢
      by_cases h0 : t ∈ pattern0.tiles <;> by_cases h1 : t ∈ pattern1.tiles <;>
        by_cases h2 : t ∈ pattern2.tiles <;>
        simp [h0, h1, h2] at hpart ⊢ <;>
        omega

/-- The diagonal relabeling of tile values: tile `v` is sent to the tile
whose solved cell is the reflection of `v`'s solved cell. -/
def reflT (v : Int) : Int :=
  if v = 0 then 0 else 4 * ((v - 1) % 4) + (v - 1) / 4 + 1

/-- The diagonal reflection of a whole board: cell `j` of the result holds
the relabeling of the cell `reflectIndex j` of the original. -/
def reflB (b : List Int) : List Int :=
  (List.range 16).map fun j => reflT (b.getD (reflectIndex j) 0)

theorem reflectIndex_invol : ∀ j < 16, reflectIndex (reflectIndex j) = j := by decide

theorem reflectIndex_lt : ∀ j < 16, reflectIndex j < 16 := by decide

theorem reflIdx_eq_iff : ∀ i < 16, ∀ j < 16,
    (reflectIndex j = i ↔ j = reflectIndex i) := by decide

theorem reflT_zero : reflT 0 = 0 := by
  rw [reflT, if_pos rfl]

theorem reflT_mem_bv : ∀ w ∈ boardValues,
    reflT w ∈ boardValues ∧ reflT (reflT w) = w := by decide

theorem reflT_iff_bv : ∀ v ∈ boardValues, ∀ w ∈ boardValues,
    (reflT w = v ↔ w = reflT v) := by decide

theorem bv_count : ∀ v ∈ boardValues, boardValues.count v = 1 := by decide

theorem reflB_solved : reflB solvedBoard = solvedBoard := by decide

theorem refl_tiles : ∀ p ∈ patterns, p.reflected_tiles = p.tiles.map reflT := by
  intro p hp
  fin_cases hp <;> decide

theorem reflB_getD (b : List Int) (j : Nat) (hj : j < 16) :
    (reflB b).getD j 0 = reflT (b.getD (reflectIndex j) 0) := by
  have hj2 : j < ((List.range 16).map
      fun j => reflT (b.getD (reflectIndex j) 0)).length := by
    rw [List.length_map, List.length_range]
    exact hj
  rw [reflB, List.getD_eq_getElem _ _ hj2, List.getElem_map, List.getElem_range]

theorem reflB_length (b : List Int) : (reflB b).length = 16 := by
  rw [reflB, List.length_map, List.length_range]

/-- Reflection commutes with writing one cell. -/
theorem reflB_set {b : List Int} (hlen : b.length = 16) {i : Nat} (hi : i < 16)
    (v : Int) : reflB (b.set i v) = (reflB b).set (reflectIndex i) (reflT v) := by
  apply List.ext_getElem
  · rw [reflB_length, List.length_set, reflB_length]
  intro j hj1 hj2
  have hj : j < 16 := by rw [reflB_length] at hj1; exact hj1
  rw [← List.getD_eq_getElem _ 0 hj1, ← List.getD_eq_getElem _ 0 hj2]
  rw [reflB_getD _ _ hj]
  by_cases hji : j = reflectIndex i
  · have hrj : reflectIndex j = i := (reflIdx_eq_iff i hi j hj).mpr hji
    rw [hrj, getD_set_self _ _ _ (by omega), hji,
      getD_set_self _ _ _ (by rw [reflB_length]; exact reflectIndex_lt i hi)]
  · have hrj : reflectIndex j ≠ i := fun hc => hji ((reflIdx_eq_iff i hi j hj).mp hc)
    rw [getD_set_ne b i (reflectIndex j) v (fun hh => hrj hh.symm)]
    rw [getD_set_ne _ _ _ _ (fun hh => hji hh.symm)]
    rw [reflB_getD _ _ hj]

theorem range_map_getD (b : List Int) (hlen : b.length = 16) :
    (List.range 16).map (fun i => b.getD i 0) = b := by
  apply List.ext_getElem
  · rw [List.length_map, List.length_range, hlen]
  intro j hj1 hj2
  rw [List.getElem_map, List.getElem_range, ← List.getD_eq_getElem b 0 hj2]

/-- The reflected board is a rearrangement of the relabeled board. -/
theorem reflB_perm {b : List Int} (hlen : b.length = 16) :
    (reflB b).Perm (b.map reflT) := by
  have h1 : reflB b = ((List.range 16).map reflectIndex).map
      (fun i => reflT (b.getD i 0)) := by
    rw [List.map_map]
    rfl
  have hperm : ((List.range 16).map reflectIndex).Perm (List.range 16) := by decide
  have h2 : (List.range 16).map (fun i => reflT (b.getD i 0)) = b.map reflT := by
    have h3 : (fun i => reflT (b.getD i 0)) = reflT ∘ (fun i => b.getD i 0) := rfl
    rw [h3, ← List.map_map, range_map_getD b hlen]
  rw [h1, ← h2]
  exact List.Perm.map _ hperm

/-- Reflection preserves board validity. -/
theorem reflB_valid {b : List Int} (hv : ValidBoard b) : ValidBoard (reflB b) := by
  have hperm := reflB_perm hv.length
  rw [ValidBoard, List.perm_iff_count]
  intro v
  rw [List.Perm.count_eq hperm v]
  by_cases hvb : v ∈ boardValues
  · have hiff : ∀ w ∈ b, (reflT w = v ↔ w = reflT v) := by
      intro w hw
      exact reflT_iff_bv v hvb w ((List.Perm.mem_iff hv).mp hw)
    rw [count_map_mem reflT (reflT v) v b hiff]
    rw [hv.count_eq (reflT_mem_bv v hvb).1, bv_count v hvb]
  · have h1 : v ∉ b.map reflT := by
      intro hc
      rw [List.mem_map] at hc
      obtain ⟨w, hw, hwv⟩ := hc
      have hwb : w ∈ boardValues := (List.Perm.mem_iff hv).mp hw
      have h2 := (reflT_mem_bv w hwb).1
      rw [hwv] at h2
      exact hvb h2
    rw [List.count_eq_zero.mpr h1, List.count_eq_zero.mpr hvb]

/-- The move table is symmetric under the diagonal reflection. -/
theorem refl_move : ∀ e < 16, ∀ d < 4, validMove e d ≠ -1 →
    ∃ d2 ∈ ([0, 1, 2, 3] : List Nat),
      validMove (reflectIndex e) d2 =
        ((reflectIndex (validMove e d).toNat : Nat) : Int) := by decide

/-- Reflection of one slide. -/
theorem StepB_reflect {b : List Int} {e : Nat} {t : Int} {b2 : List Int} {e2 : Nat}
    (hv : ValidBoard b) (he : e < 16) (hs : StepB b e t b2 e2) :
    StepB (reflB b) (reflectIndex e) (reflT t) (reflB b2) (reflectIndex e2) := by
  obtain ⟨d, hd4, hne, hmi, htile, hb2⟩ := hs
  rcases validMove_spec e he d with h | ⟨-, hlt, hnee, -⟩
  · exact absurd h hne
  have he2 : e2 < 16 := by omega
  obtain ⟨d2, hd2mem, hd2eq⟩ := refl_move e he d hd4 hne
  rw [hmi] at hd2eq
  have hd2lt : d2 < 4 := by
    have : d2 = 0 ∨ d2 = 1 ∨ d2 = 2 ∨ d2 = 3 := by simpa using hd2mem
    omega
  refine ⟨d2, hd2lt, ?_, ?_, ?_, ?_⟩
  · rw [hd2eq]
    intro hc
    omega
  · rw [hd2eq]
    exact Int.toNat_natCast _
  · rw [reflB_getD b _ (reflectIndex_lt e2 he2), reflectIndex_invol e2 he2, htile]
  · rw [hb2, reflB_set (by rw [List.length_set, hv.length]) he2 0,
      reflB_set hv.length he t, reflT_zero]

/-- Reflection of a whole solving sequence. -/
theorem PathB_reflect :
    ∀ {b : List Int} {e : Nat} {ts : List Int},
      PathB b e ts solvedBoard 15 → ValidBoard b → e < 16 → b.getD e 0 = 0 →
      PathB (reflB b) (reflectIndex e) (ts.map reflT) solvedBoard 15 := by
  have main : ∀ (b : List Int) (e : Nat) (ts : List Int) (b2 : List Int) (e2 : Nat),
      PathB b e ts b2 e2 → b2 = solvedBoard → e2 = 15 → ValidBoard b → e < 16 →
      b.getD e 0 = 0 →
      PathB (reflB b) (reflectIndex e) (ts.map reflT) solvedBoard 15 := by
    intro b e ts b2 e2 hpath
    induction hpath with
    | nil =>
        intro hb2 he2 hv he hez
        subst hb2
        subst he2
        rw [List.map_nil, reflB_solved, show reflectIndex 15 = 15 from rfl]
        exact PathB.nil _ _
    | @cons b e t b1 e1 ts _ _ hstep htail ih =>
        intro hb2 he2 hv he hez
        obtain ⟨he1, -, -, hez1⟩ := StepB_facts hv.length he hstep
        have hv1 := StepB_validBoard hv he hez hstep
        have hrec := ih hb2 he2 hv1 he1 hez1
        rw [List.map_cons]
        exact PathB.cons (StepB_reflect hv he hstep) hrec
  intro b e ts hpath hv he hez
  exact main b e ts solvedBoard 15 hpath rfl rfl hv he hez

/-- Tile positions on the reflected board. -/
theorem posN_reflB {b : List Int} (hv : ValidBoard b) {t : Int}
    (htb : t ∈ boardValues) :
    posN (reflB b) t = reflectIndex (posN b (reflT t)) := by
  have hvr := reflB_valid hv
  have hcnt : (reflB b).count t = 1 := hvr.count_eq htb
  have hrtb : reflT t ∈ boardValues := (reflT_mem_bv t htb).1
  have hplt : posN b (reflT t) < 16 := posN_lt hv hrtb
  have hget : b.getD (posN b (reflT t)) 0 = reflT t :=
    findIdx_getD_of_mem b _ (hv.mem hrtb)
  have hget2 : (reflB b).getD (reflectIndex (posN b (reflT t))) 0 = t := by
    rw [reflB_getD _ _ (reflectIndex_lt _ hplt), reflectIndex_invol _ hplt, hget,
      (reflT_mem_bv t htb).2]
  have hfe := eq_findIdx_of_getD hcnt (reflectIndex (posN b (reflT t)))
    (by rw [reflB_length]; exact reflectIndex_lt _ hplt) hget2
  exact hfe.symm

/-- The solver's reflected index of a board is the direct index of the
reflected board. -/
theorem arr_index_refl_reduce {p : tile_pattern} (hp : p ∈ patterns)
    {b : List Int} (hv : ValidBoard b) :
    arr_index b p true = arr_index (reflB b) p false := by
  rw [arr_index_refl_eq_sum hv hp, arr_index_eq_sum (reflB_valid hv) hp]
  refine Finset.sum_congr rfl fun i hi => ?_
  congr 2
  obtain ⟨hsub, hsubr, hlen, hlenr⟩ := pattern_tiles_sub hp
  have hi1 : i < p.tiles.length := by rw [hlen]; exact Finset.mem_range.mp hi
  have hmemt : p.tiles.getD i 0 ∈ p.tiles := by
    rw [List.getD_eq_getElem _ _ hi1]
    exact List.getElem_mem hi1
  have htb := hsub _ hmemt
  have hrt : p.reflected_tiles.getD i 0 = reflT (p.tiles.getD i 0) := by
    rw [refl_tiles p hp, getD_map_lt _ _ _ hi1]
  rw [hrt, posN_reflB hv htb]

/-- `get_heurisitic` of `standalone_dim4_solver.c` (sic): the sum of the
three direct PDB lookups and the sum of the three reflected lookups, and
their maximum. -/
def get_heurisitic (T : Int → Int) (board : List Int) : Int :=
  max ((patterns.map fun P => T (arr_index board P false + P.array_offset)).sum)
    ((patterns.map fun P => T (arr_index board P true + P.array_offset)).sum)

/-- Bounds on the solver's direct index on full valid boards. -/
theorem arr_index_bounds {p : tile_pattern} (hp : p ∈ patterns) {b : List Int}
    (hv : ValidBoard b) :
    0 ≤ arr_index b p false ∧ arr_index b p false < 16 ^ p.tiles.length := by
  have hez : b.getD (posN b 0) 0 = 0 := findIdx_getD_of_mem b 0 (hv.mem (by decide))
  have he : posN b 0 < 16 := posN_lt hv (by decide)
  rw [slot_reduce hp hv he hez]
  exact genSlot_bounds (reduceB_validPB hp hv he hez)

/-- Zero-cost builder paths only move the sentinel: pattern-tile positions
stay at their root cells. -/
theorem cpath_zero_pos {p : tile_pattern} (hp : p ∈ patterns) :
    ∀ {b : List Int} {e : Nat} {c : Nat}, CPath p b e c → c = 0 →
      ∀ t ∈ p.tiles, posN b t = posN (rootBoard p) t := by
  obtain ⟨h255, -, hroot⟩ := pattern_facts hp
  have h0t := pattern_no_zero hp
  intro b e c hc
  induction hc with
  | root => intro _ t _; rfl
  | @step b e tm b2 e2 c hcp hs ih =>
      intro hzero t ht
      have hc0 : c = 0 := by omega
      have hs0 : stepCostN tm = 0 := by omega
      have ht255 : tm = 255 := by
        by_cases h : tm = 255
        · exact h
        · rw [stepCostN, if_neg h] at hs0
          exact absurd hs0 one_ne_zero
      have hvb := cpath_valid hroot hcp
      have hvb2 := StepB_validPB hvb hs
      obtain ⟨d, hd4, hne, hmi, htile, hb2⟩ := hs
      rcases validMove_spec e hvb.e_lt d with h | ⟨-, hlt, hnee, -⟩
      · exact absurd h hne
      have he2 : e2 < 16 := by omega
      have hcnt : b.count t = 1 := hvb.tile_count t ht
      have hcnt2 : b2.count t = 1 := hvb2.tile_count t ht
      have hx : posN b t < 16 :=
        posN_lt_of_mem hvb.len (validPB_mem hvb t (List.mem_cons_of_mem 0 ht))
      have hgx : b.getD (posN b t) 0 = t :=
        findIdx_getD_of_mem b t (validPB_mem hvb t (List.mem_cons_of_mem 0 ht))
      have hxe : posN b t ≠ e := by
        intro hc2
        rw [hc2, hvb.e_zero] at hgx
        exact h0t (hgx ▸ ht)
      have hxe2 : posN b t ≠ e2 := by
        intro hc2
        rw [hc2, htile, ht255] at hgx
        exact h255 (hgx.symm ▸ ht)
      have hg2 : b2.getD (posN b t) 0 = t := by
        rw [hb2, getD_set_ne _ _ _ _ (fun hh => hxe2 hh.symm),
          getD_set_ne _ _ _ _ (fun hh => hxe hh.symm), hgx]
      have hpos2 : posN b t = posN b2 t :=
        eq_findIdx_of_getD hcnt2 (posN b t) (by rw [hvb2.len]; omega) hg2
      rw [← hpos2]
      exact ih hc0 t ht

/-- Root cells of the pattern tiles are their solved cells. -/
theorem root_pos : ∀ p ∈ patterns, ∀ t ∈ p.tiles,
    posN (rootBoard p) t = (t - 1).toNat := by
  intro p hp
  fin_cases hp <;> decide

/-- The patterns cover every tile. -/
theorem tile_cover : ∀ t ∈ boardValues, t ≠ 0 →
    t ∈ pattern0.tiles ∨ t ∈ pattern1.tiles ∨ t ∈ pattern2.tiles := by decide

/-- A valid board whose tiles all sit at their solved cells is solved. -/
theorem board_of_positions {b : List Int} (hv : ValidBoard b)
    (hpos : ∀ t ∈ boardValues, t ≠ 0 → posN b t = (t - 1).toNat) :
    b = solvedBoard := by
  apply List.ext_getElem (by rw [hv.length]; rfl)
  intro j hj1 hj2
  have hj : j < 16 := by rw [hv.length] at hj1; exact hj1
  rw [← List.getD_eq_getElem b 0 hj1, ← List.getD_eq_getElem solvedBoard 0 hj2]
  by_cases hz : b.getD j 0 = 0
  · have hj15 : j = 15 := by
      by_contra hj15
      have hjlt : j < 15 := by omega
      have hmem : ((j : Int) + 1) ∈ boardValues := by
        interval_cases j <;> decide
      have hnz : ((j : Int) + 1) ≠ 0 := by
        intro hc
        omega
      have hp1 := hpos _ hmem hnz
      have ht1 : (((j : Int) + 1) - 1).toNat = j := by omega
      rw [ht1] at hp1
      have hg2 : b.getD j 0 = (j : Int) + 1 := by
        conv_lhs => rw [← hp1]
        exact findIdx_getD_of_mem b _ (hv.mem hmem)
      rw [hz] at hg2
      omega
    subst hj15
    rw [hz]
    decide
  · have hmem := getD_mem_boardValues hv (show j ≤ 15 by omega)
    have hp1 := hpos _ hmem hz
    have hbd := boardValues_bounds hmem
    have hcnt : b.count (b.getD j 0) = 1 := hv.count_eq hmem
    have hj2p : j = posN b (b.getD j 0) :=
      eq_findIdx_of_getD hcnt j (by rw [hv.length]; omega) rfl
    rw [hp1] at hj2p
    have hval : b.getD j 0 = (j : Int) + 1 := by omega
    rw [hval]
    have : j < 15 := by omega
    interval_cases j <;> decide

/-- The heuristics table produced by the three sequential bfs_tile_pattern
calls in main of generate_dim4_heuristics.c, starting from the UINT8_MAX
memset. -/
def builderTable (F0 F1 F2 : Nat) : Int → Int :=
  (bfsRun pattern2 F2 (initState pattern2
    ((bfsRun pattern1 F1 (initState pattern1
      ((bfsRun pattern0 F0 (initState pattern0 initialHeuristics)).heur))).heur))).heur

/-- Characterisation of a finished heuristics table: byte-valued, exact
min-cost (clamped at 255) on every reachable slot of every pattern, and 255
on unreachable in-range slots. -/
def TableSpec (T : Int → Int) : Prop :=
  (∀ x, 0 ≤ T x ∧ T x ≤ 255) ∧
  (∀ p ∈ patterns, ∀ r : Int, (reachCosts p r).Nonempty →
    T r = min ((dminP p r : Int)) 255) ∧
  (∀ p ∈ patterns, ∀ r : Int,
    p.array_offset ≤ r → r < p.array_offset + 16 ^ p.tiles.length →
    ¬ (reachCosts p r).Nonempty → T r = 255)

/-- The composed three-call builder output satisfies the table
characterisation: the three pattern slot ranges are disjoint, so each call
finds its whole range still at 255 and later calls leave it untouched. -/
theorem builderTable_spec : ∃ F0 F1 F2 : Nat, TableSpec (builderTable F0 F1 F2) := by
  have hp0 : pattern0 ∈ patterns := by decide
  have hp1 : pattern1 ∈ patterns := by decide
  have hp2 : pattern2 ∈ patterns := by decide
  have hb0 : ∀ x, 0 ≤ initialHeuristics x ∧ initialHeuristics x ≤ 255 := by
    intro x
    exact ⟨by norm_num [initialHeuristics], by norm_num [initialHeuristics]⟩
  obtain ⟨F0, -, bb0, -, ex0, un0⟩ := bfs_call_heur hp0 initialHeuristics hb0
  set T0 := (bfsRun pattern0 F0 (initState pattern0 initialHeuristics)).heur with hT0def
  obtain ⟨F1, -, bb1, -, ex1, un1⟩ := bfs_call_heur hp1 T0 bb0
  set T1 := (bfsRun pattern1 F1 (initState pattern1 T0)).heur with hT1def
  obtain ⟨F2, -, bb2, -, ex2, un2⟩ := bfs_call_heur hp2 T1 bb1
  set T2 := (bfsRun pattern2 F2 (initState pattern2 T1)).heur with hT2def
  have hbt : builderTable F0 F1 F2 = T2 := by
    rw [hT2def, hT1def, hT0def]
    rfl
  have hoff0 : pattern0.array_offset = 0 := rfl
  have hoff1 : pattern1.array_offset = 16777216 := rfl
  have hoff2 : pattern2.array_offset = 33554432 := rfl
  have hlen0 : (16 : Int) ^ pattern0.tiles.length = 16777216 := by
    norm_num [show pattern0.tiles.length = 6 from rfl]
  have hlen1 : (16 : Int) ^ pattern1.tiles.length = 16777216 := by
    norm_num [show pattern1.tiles.length = 6 from rfl]
  have hlen2 : (16 : Int) ^ pattern2.tiles.length = 4096 := by
    norm_num [show pattern2.tiles.length = 3 from rfl]
  refine ⟨F0, F1, F2, fun x => ?_, fun p hp r hne => ?_, fun p hp r hlo hhi hnr => ?_⟩
  · rw [hbt]
    exact bb2 x
  · rw [hbt]
    fin_cases hp
    · obtain ⟨hlo, hhi⟩ := reach_slot_range hp0 hne
      have hnr1 : ¬ (reachCosts pattern1 r).Nonempty := by
        intro hc
        obtain ⟨h1lo, h1hi⟩ := reach_slot_range hp1 hc
        omega
      have hnr2 : ¬ (reachCosts pattern2 r).Nonempty := by
        intro hc
        obtain ⟨h2lo, h2hi⟩ := reach_slot_range hp2 hc
        omega
      rw [un2 r hnr2, un1 r hnr1]
      exact ex0 r hne (Or.inr rfl)
    · obtain ⟨hlo, hhi⟩ := reach_slot_range hp1 hne
      have hnr0 : ¬ (reachCosts pattern0 r).Nonempty := by
        intro hc
        obtain ⟨h0lo, h0hi⟩ := reach_slot_range hp0 hc
        omega
      have hnr2 : ¬ (reachCosts pattern2 r).Nonempty := by
        intro hc
        obtain ⟨h2lo, h2hi⟩ := reach_slot_range hp2 hc
        omega
      have hT0r : T0 r = 255 := by
        rw [un0 r hnr0]
        rfl
      rw [un2 r hnr2]
      exact ex1 r hne (Or.inr hT0r)
    · obtain ⟨hlo, hhi⟩ := reach_slot_range hp2 hne
      have hnr0 : ¬ (reachCosts pattern0 r).Nonempty := by
        intro hc
        obtain ⟨h0lo, h0hi⟩ := reach_slot_range hp0 hc
        omega
      have hnr1 : ¬ (reachCosts pattern1 r).Nonempty := by
        intro hc
        obtain ⟨h1lo, h1hi⟩ := reach_slot_range hp1 hc
        omega
      have hT1r : T1 r = 255 := by
        rw [un1 r hnr1, un0 r hnr0]
        rfl
      exact ex2 r hne (Or.inr hT1r)
  · rw [hbt]
    fin_cases hp
    · have hnr1 : ¬ (reachCosts pattern1 r).Nonempty := by
        intro hc
        obtain ⟨h1lo, h1hi⟩ := reach_slot_range hp1 hc
        omega
      have hnr2 : ¬ (reachCosts pattern2 r).Nonempty := by
        intro hc
        obtain ⟨h2lo, h2hi⟩ := reach_slot_range hp2 hc
        omega
      rw [un2 r hnr2, un1 r hnr1, un0 r hnr]
      rfl
    · have hnr0 : ¬ (reachCosts pattern0 r).Nonempty := by
        intro hc
        obtain ⟨h0lo, h0hi⟩ := reach_slot_range hp0 hc
        omega
      have hnr2 : ¬ (reachCosts pattern2 r).Nonempty := by
        intro hc
        obtain ⟨h2lo, h2hi⟩ := reach_slot_range hp2 hc
        omega
      rw [un2 r hnr2, un1 r hnr, un0 r hnr0]
      rfl
    · have hnr0 : ¬ (reachCosts pattern0 r).Nonempty := by
        intro hc
        obtain ⟨h0lo, h0hi⟩ := reach_slot_range hp0 hc
        omega
      have hnr1 : ¬ (reachCosts pattern1 r).Nonempty := by
        intro hc
        obtain ⟨h1lo, h1hi⟩ := reach_slot_range hp1 hc
        omega
      rw [un2 r hnr, un1 r hnr1, un0 r hnr0]
      rfl

/-- The pattern-database heuristic is nonnegative. -/
theorem getH_nonneg {T : Int → Int} (hbb : ∀ x, 0 ≤ T x ∧ T x ≤ 255)
    (b : List Int) : 0 ≤ get_heurisitic T b := by
  unfold get_heurisitic
  refine le_trans ?_ (le_max_left _ _)
  apply List.sum_nonneg
  intro x hx
  rw [List.mem_map] at hx
  obtain ⟨P, hP, rfl⟩ := hx
  exact (hbb _).1

/-- The direct pattern-database sum is bounded by the length of any
solution path: each pattern term is at most the number of that pattern's
tiles moved, and the three patterns partition the moved tiles. -/
theorem direct_sum_le {T : Int → Int} (hT : TableSpec T) {b : List Int}
    {e : Nat} {ts : List Int} (hv : ValidBoard b) (he : e < 16)
    (hez : b.getD e 0 = 0) (hpath : PathB b e ts solvedBoard 15) :
    (patterns.map fun P => T (arr_index b P false + P.array_offset)).sum ≤
      (ts.length : Int) := by
  obtain ⟨hbb, hex, hun⟩ := hT
  have hper : ∀ p ∈ patterns,
      T (arr_index b p false + p.array_offset) ≤ ((patternCount p ts : Nat) : Int) := by
    intro p hp
    have hmem := pattern_cost_mem hp hv he hez hpath
    have hne : (reachCosts p (arr_index b p false + p.array_offset)).Nonempty :=
      ⟨_, hmem⟩
    rw [hex p hp _ hne]
    refine le_trans (min_le_left _ _) ?_
    exact_mod_cast Nat.sInf_le hmem
  have hsum := patternCount_partition ts (PathB_tiles hpath hv he hez)
  have h0 := hper pattern0 (by decide)
  have h1 := hper pattern1 (by decide)
  have h2 := hper pattern2 (by decide)
  show T (arr_index b pattern0 false + pattern0.array_offset) +
      (T (arr_index b pattern1 false + pattern1.array_offset) +
        (T (arr_index b pattern2 false + pattern2.array_offset) + 0)) ≤
      (ts.length : Int)
  omega

/-- The reflected pattern-database sum is also bounded by the length of any
solution path, via the reflected path on the reflected board. -/
theorem refl_sum_le {T : Int → Int} (hT : TableSpec T) {b : List Int}
    {e : Nat} {ts : List Int} (hv : ValidBoard b) (he : e < 16)
    (hez : b.getD e 0 = 0) (hpath : PathB b e ts solvedBoard 15) :
    (patterns.map fun P => T (arr_index b P true + P.array_offset)).sum ≤
      (ts.length : Int) := by
  have hrv := reflB_valid hv
  have hrpath := PathB_reflect hpath hv he hez
  have hre : reflectIndex e < 16 := reflectIndex_lt e he
  have hrez : (reflB b).getD (reflectIndex e) 0 = 0 := by
    rw [reflB_getD b (reflectIndex e) hre, reflectIndex_invol e he, hez, reflT_zero]
  have hd := direct_sum_le hT hrv hre hrez hrpath
  rw [List.length_map] at hd
  have hrw : (patterns.map fun P => T (arr_index b P true + P.array_offset)) =
      patterns.map fun P => T (arr_index (reflB b) P false + P.array_offset) := by
    refine List.map_congr_left fun P hP => ?_
    rw [arr_index_refl_reduce hP hv]
  rw [hrw]
  exact hd

/-- Admissibility of the pattern-database heuristic. -/
theorem getH_adm {T : Int → Int} (hT : TableSpec T) (b : List Int) (e : Nat)
    (ts : List Int) (hv : ValidBoard b) (he : e < 16) (hez : b.getD e 0 = 0)
    (hpath : PathB b e ts solvedBoard 15) :
    get_heurisitic T b ≤ (ts.length : Int) := by
  unfold get_heurisitic
  exact max_le (direct_sum_le ⟨hT.1, hT.2.1, hT.2.2⟩ hv he hez hpath)
    (refl_sum_le ⟨hT.1, hT.2.1, hT.2.2⟩ hv he hez hpath)

/-- On the solved board each pattern lookup lands on the root slot. -/
theorem solved_slot : ∀ p ∈ patterns,
    arr_index solvedBoard p false + p.array_offset = rootSlot p := by
  intro p hp
  fin_cases hp <;> decide

/-- The pattern-database heuristic vanishes on the solved board. -/
theorem getH_solved {T : Int → Int} (hT : TableSpec T) :
    get_heurisitic T solvedBoard = 0 := by
  obtain ⟨hbb, hex, hun⟩ := hT
  have hterm : ∀ p ∈ patterns,
      T (arr_index solvedBoard p false + p.array_offset) = 0 := by
    intro p hp
    rw [solved_slot p hp]
    have hne := rootSlot_reachable p
    have hmem0 : (0 : Nat) ∈ reachCosts p (rootSlot p) :=
      ⟨rootBoard p, 15, CPath.root, rfl⟩
    have hd0 : dminP p (rootSlot p) = 0 := Nat.le_zero.mp (Nat.sInf_le hmem0)
    rw [hex p hp _ hne, hd0]
    norm_num
  have htermr : ∀ p ∈ patterns,
      T (arr_index solvedBoard p true + p.array_offset) = 0 := by
    intro p hp
    rw [arr_index_refl_reduce hp (by decide : ValidBoard solvedBoard), reflB_solved]
    exact hterm p hp
  have e0 := hterm pattern0 (by decide)
  have e1 := hterm pattern1 (by decide)
  have e2 := hterm pattern2 (by decide)
  have f0 := htermr pattern0 (by decide)
  have f1 := htermr pattern1 (by decide)
  have f2 := htermr pattern2 (by decide)
  show max
      (T (arr_index solvedBoard pattern0 false + pattern0.array_offset) +
        (T (arr_index solvedBoard pattern1 false + pattern1.array_offset) +
          (T (arr_index solvedBoard pattern2 false + pattern2.array_offset) + 0)))
      (T (arr_index solvedBoard pattern0 true + pattern0.array_offset) +
        (T (arr_index solvedBoard pattern1 true + pattern1.array_offset) +
          (T (arr_index solvedBoard pattern2 true + pattern2.array_offset) + 0))) = 0
  rw [e0, e1, e2, f0, f1, f2]
  norm_num

/-- A vanishing direct pattern term pins every tile of that pattern to its
solved cell: the slot is reachable at cost 0, a zero-cost builder path keeps
the pattern tiles at the root cells, and the digit encoding is injective. -/
theorem term_zero_pos {T : Int → Int} (hT : TableSpec T) {b : List Int}
    (hv : ValidBoard b) {p : tile_pattern} (hp : p ∈ patterns)
    (hT0 : T (arr_index b p false + p.array_offset) = 0) :
    ∀ t ∈ p.tiles, posN b t = (t - 1).toNat := by
  obtain ⟨hbb, hex, hun⟩ := hT
  intro t ht
  obtain ⟨hlo, hhi⟩ := arr_index_bounds hp hv
  by_cases hne : (reachCosts p (arr_index b p false + p.array_offset)).Nonempty
  · have hval := hex p hp _ hne
    rw [hT0] at hval
    have hd0 : dminP p (arr_index b p false + p.array_offset) = 0 := by
      rcases min_cases ((dminP p (arr_index b p false + p.array_offset) : Nat) : Int)
          (255 : Int) with ⟨heq, -⟩ | ⟨heq, -⟩
      · rw [heq] at hval
        exact_mod_cast hval.symm
      · rw [heq] at hval
        norm_num at hval
    obtain ⟨bh, eh, hcp, hslot⟩ := Nat.sInf_mem hne
    have hposr := cpath_zero_pos hp hcp hd0 t ht
    have hgeq : gen_arr_index bh p = arr_index b p false := by omega
    have hmemb : ∀ u ∈ p.tiles, u ∈ b :=
      fun u hu => hv.mem ((pattern_tiles_sub hp).1 u hu)
    have hdb : arr_index b p false =
        digitsVal (p.tiles.map fun u => ((posN b u : Nat) : Int)) := by
      rw [show arr_index b p false = arrIndexGo b p.tiles 1 from rfl,
        arrIndexGo_eq b _ 1 hmemb, one_mul]
    have hvh := cpath_valid (pattern_facts hp).2.2 hcp
    have hdh := genSlot_eq_digits hvh
    have hdlist : (p.tiles.map fun u => ((posN b u : Nat) : Int)) =
        p.tiles.map fun u => ((posN bh u : Nat) : Int) := by
      apply digitsVal_injective
      · intro d hd
        rw [List.mem_map] at hd
        obtain ⟨u, hu, rfl⟩ := hd
        have := posN_lt hv ((pattern_tiles_sub hp).1 u hu)
        omega
      · intro d hd
        rw [List.mem_map] at hd
        obtain ⟨u, hu, rfl⟩ := hd
        have := posN_lt_of_mem hvh.len
          (validPB_mem hvh u (List.mem_cons_of_mem 0 hu))
        omega
      · rw [List.length_map, List.length_map]
      · rw [← hdb, ← hdh, hgeq]
    have hpt := List.map_eq_map_iff.mp hdlist t ht
    have hfin : posN b t = posN bh t := by exact_mod_cast hpt
    rw [hfin, hposr, root_pos p hp t ht]
  · have h255 := hun p hp _ (by omega) (by omega) hne
    rw [hT0] at h255
    exact absurd h255 (by norm_num)

/-- If the pattern-database heuristic vanishes on a valid board, the board
is solved. -/
theorem getH_zero {T : Int → Int} (hT : TableSpec T) (b : List Int)
    (hv : ValidBoard b) (h0 : get_heurisitic T b = 0) : b = solvedBoard := by
  have hmax : max
      (T (arr_index b pattern0 false + pattern0.array_offset) +
        (T (arr_index b pattern1 false + pattern1.array_offset) +
          (T (arr_index b pattern2 false + pattern2.array_offset) + 0)))
      (T (arr_index b pattern0 true + pattern0.array_offset) +
        (T (arr_index b pattern1 true + pattern1.array_offset) +
          (T (arr_index b pattern2 true + pattern2.array_offset) + 0))) = 0 := h0
  have hle := hmax ▸ le_max_left
    (T (arr_index b pattern0 false + pattern0.array_offset) +
      (T (arr_index b pattern1 false + pattern1.array_offset) +
        (T (arr_index b pattern2 false + pattern2.array_offset) + 0)))
    (T (arr_index b pattern0 true + pattern0.array_offset) +
      (T (arr_index b pattern1 true + pattern1.array_offset) +
        (T (arr_index b pattern2 true + pattern2.array_offset) + 0)))
  have hb0 := hT.1 (arr_index b pattern0 false + pattern0.array_offset)
  have hb1 := hT.1 (arr_index b pattern1 false + pattern1.array_offset)
  have hb2 := hT.1 (arr_index b pattern2 false + pattern2.array_offset)
  have ht0 : T (arr_index b pattern0 false + pattern0.array_offset) = 0 := by omega
  have ht1 : T (arr_index b pattern1 false + pattern1.array_offset) = 0 := by omega
  have ht2 : T (arr_index b pattern2 false + pattern2.array_offset) = 0 := by omega
  have hall : ∀ t ∈ boardValues, t ≠ 0 → posN b t = (t - 1).toNat := by
    intro t htb htnz
    rcases tile_cover t htb htnz with h | h | h
    · exact term_zero_pos hT hv (by decide) ht0 t h
    · exact term_zero_pos hT hv (by decide) ht1 t h
    · exact term_zero_pos hT hv (by decide) ht2 t h
  exact board_of_positions hv hall

/-- C1: for every solvable board (witnessed by any solution path shorter
than INT_MAX) and the pattern database produced by the reference builder,
the iterative-deepening driver dim4_solver terminates (for sufficient fuel),
returns a node whose recorded move sequence moves[0..num_moves) is a legal
solving sequence for the input board, and num_moves is the minimum possible
solution length; it never signals failure on such a board. -/
theorem dim4_solver_optimal (board : List Int) (hv : ValidBoard board)
    (ts0 : List Int)
    (hts0 : PathB board (lastZeroIndex board) ts0 solvedBoard 15)
    (hlim : (ts0.length : Int) < intMax) :
    ∃ (F0 F1 F2 dfsFuel iterFuel : Nat) (r : Node),
      dim4_solver (get_heurisitic (builderTable F0 F1 F2)) dfsFuel iterFuel board
        = some r ∧
      r.board = solvedBoard ∧ r.empty_index = 15 ∧
      PathB board (lastZeroIndex board) (movesSeg 0 r) r.board r.empty_index ∧
      (movesSeg 0 r).length = r.num_moves ∧
      r.num_moves ∈ solLens board (lastZeroIndex board) ∧
      ∀ m ∈ solLens board (lastZeroIndex board), r.num_moves ≤ m := by
  obtain ⟨F0, F1, F2, hspec⟩ := builderTable_spec
  obtain ⟨dfsFuel, iterFuel, r, h⟩ := dim4_solver_abstract
    (get_heurisitic (builderTable F0 F1 F2))
    (getH_nonneg hspec.1)
    (getH_adm hspec)
    (getH_solved hspec)
    (getH_zero hspec)
    board hv ts0 hts0 hlim
  exact ⟨F0, F1, F2, dfsFuel, iterFuel, r, h⟩

/-- Witness for C1 at the solved board with the empty solution path. -/
theorem dim4_solver_optimal_witness :
    (ValidBoard solvedBoard ∧
      PathB solvedBoard (lastZeroIndex solvedBoard) [] solvedBoard 15 ∧
      (([] : List Int).length : Int) < intMax) ∧
    ∃ (F0 F1 F2 dfsFuel iterFuel : Nat) (r : Node),
      dim4_solver (get_heurisitic (builderTable F0 F1 F2)) dfsFuel iterFuel
        solvedBoard = some r ∧
      r.board = solvedBoard ∧ r.empty_index = 15 ∧
      PathB solvedBoard (lastZeroIndex solvedBoard) (movesSeg 0 r) r.board
        r.empty_index ∧
      (movesSeg 0 r).length = r.num_moves ∧
      r.num_moves ∈ solLens solvedBoard (lastZeroIndex solvedBoard) ∧
      ∀ m ∈ solLens solvedBoard (lastZeroIndex solvedBoard), r.num_moves ≤ m :=
  ⟨⟨by decide, PathB.nil solvedBoard (lastZeroIndex solvedBoard), by decide⟩,
    dim4_solver_optimal solvedBoard (by decide) []
      (PathB.nil solvedBoard (lastZeroIndex solvedBoard)) (by decide)⟩

end Fifteen
